import Mathlib

/-!
Verification development for the flotsync core data layer.

The definitions below are shallow embeddings of the Rust sources:
* `flotsync_core/src/versions/happened_before.rs`
* `flotsync_core/src/versions/flat_vector.rs`
* `flotsync_core/src/versions/group_vector.rs`
* `flotsync_data_types/src/linear_data/vec_impl.rs`
* `flotsync_data_types/src/text/linear_data/coalesced.rs`
* `flotsync_data_types/src/any_data/latest_value.rs`
* `flotsync_data_types/src/any_data/list.rs`

Machine integers (`u64`, `u16`, `usize`) are modelled as `Nat` with explicit
bounds; a `checked_add(..).expect(..)` that can panic is modelled by returning
`Option` (`none` = panic/abort).
-/

namespace Flotsync

/-! ## HappenedBeforeOrdering (happened_before.rs) -/

/-- The five-valued causal ordering from `happened_before.rs`. -/
inductive HappenedBeforeOrdering where
  | Before
  | Equal
  | After
  | Concurrent
  | Incomparable
deriving DecidableEq, Repr

namespace HappenedBeforeOrdering

/-- `HappenedBeforeOrdering::reverse`: swaps Before and After, fixes the rest. -/
def reverse : HappenedBeforeOrdering → HappenedBeforeOrdering
  | Before => After
  | After => Before
  | x => x

/-- `From<cmp::Ordering> for HappenedBeforeOrdering`. -/
def ofOrdering : Ordering → HappenedBeforeOrdering
  | .lt => Before
  | .eq => Equal
  | .gt => After

end HappenedBeforeOrdering

/-- The `Ord` comparison on `u64` (modelled on `Nat`). -/
def natCmp (a b : Nat) : Ordering :=
  if a < b then .lt else if a = b then .eq else .gt

/-- The largest value a `u64` can hold. -/
def U64_MAX : Nat := 2 ^ 64 - 1

/-! ## VersionVector (flat_vector.rs) -/

/-- `OverrideVersion`: everyone has `group_version` except the member at
`override_position`, which has `override_version`. -/
structure OverrideVersion where
  group_version : Nat
  override_position : Nat
  override_version : Nat
deriving DecidableEq, Repr

/-- `OverrideVersion::is_valid`: `group_version < override_version`. -/
def OverrideVersion.is_valid (o : OverrideVersion) : Prop :=
  o.group_version < o.override_version

instance (o : OverrideVersion) : Decidable o.is_valid := by
  unfold OverrideVersion.is_valid; infer_instance

/-- `OverrideVersion::to_vector`: a vector of `group_version` entries with the
slot at `override_position` replaced by `override_version`. -/
def OverrideVersion.to_vector (o : OverrideVersion) (num_members : Nat) : List Nat :=
  (List.replicate num_members o.group_version).set o.override_position o.override_version

/-- `VersionVector` with its three representations. `Full` carries the
`PureVersionVector` entries directly. -/
inductive VersionVector where
  | Full (v : List Nat)
  | Override (num_members : Nat) (version : OverrideVersion)
  | Synced (num_members : Nat) (version : Nat)
deriving DecidableEq, Repr

namespace VersionVector

/-- `VersionVector::num_members`. -/
def num_members : VersionVector → Nat
  | Full v => v.length
  | Override n _ => n
  | Synced n _ => n

/-- Well-formedness as enforced by the constructors in the source:
`PureVersionVector` is non-empty, `NonZeroUsize` member counts, single-member
overrides are rejected, `OverrideVersion::new` asserts `base < ahead`, and the
override position addresses a member. All entries fit in a `u64`. -/
def Valid : VersionVector → Prop
  | Full v => v ≠ [] ∧ ∀ x ∈ v, x ≤ U64_MAX
  | Override n o =>
      1 < n ∧ o.is_valid ∧ o.override_position < n ∧ o.override_version ≤ U64_MAX
  | Synced n v => 0 < n ∧ v ≤ U64_MAX

instance (v : VersionVector) : Decidable v.Valid := by
  cases v <;> (unfold Valid; infer_instance)

/-- Per-member expansion of a vector, matching the `IntoIterator`
implementation (`Full` yields the entries, `Override` yields `group_version`
with the override slot replaced, `Synced` repeats the shared version). -/
def expand : VersionVector → List Nat
  | Full v => v
  | Override n o => o.to_vector n
  | Synced n v => List.replicate n v

/-- `VersionVector::increment_at`, with `none` modelling a panic
(position assert or `checked_add` overflow). The `Synced` single-member branch
uses plain `+= 1`, which wraps modulo `2^64` in release builds. -/
def increment_at : VersionVector → Nat → Option VersionVector
  | Full v, position =>
      if _h : position < v.length then
        if v[position] = U64_MAX then none
        else some (Full (v.set position (v[position] + 1)))
      else none
  | Override n o, position =>
      if position < n then
        if position = o.override_position then
          if o.override_version = U64_MAX then none
          else
            some (Override n { o with override_version := o.override_version + 1 })
        else
          -- expand to Full and increment there (PureVersionVector::increment_at)
          let full := o.to_vector n
          if h : position < full.length then
            if full[position] = U64_MAX then none
            else some (Full (full.set position (full[position] + 1)))
          else none
      else none
  | Synced n v, position =>
      if position < n then
        if n = 1 then some (Synced n ((v + 1) % 2 ^ 64))
        else
          -- OverrideVersion::with_next_version (checked_add)
          if v = U64_MAX then none
          else
            some (Override n
              { group_version := v, override_position := position,
                override_version := v + 1 })
      else none

/-- `VersionVector::succ_at` clones and increments. -/
def succ_at (v : VersionVector) (position : Nat) : Option VersionVector :=
  v.increment_at position

end VersionVector

/-! ### hb_cmp machinery -/

/-- `EncounteredOrderings`: a compact set of the orderings seen so far. -/
structure EncounteredOrderings where
  has_equal : Bool
  has_less : Bool
  has_greater : Bool
deriving DecidableEq, Repr

namespace EncounteredOrderings

/-- `EncounteredOrderings::none`. -/
def start : EncounteredOrderings := ⟨false, false, false⟩

/-- `EncounteredOrderings::update`. -/
def update (eo : EncounteredOrderings) : Ordering → EncounteredOrderings
  | .lt => { eo with has_less := true }
  | .eq => { eo with has_equal := true }
  | .gt => { eo with has_greater := true }

/-- `EncounteredOrderings::has_less_and_greater`. -/
def has_less_and_greater (eo : EncounteredOrderings) : Bool :=
  eo.has_less && eo.has_greater

/-- `EncounteredOrderings::to_hb_assume_loop_check`. The source marks the
both-seen case `unreachable!` because the loops exit early; we return
`Concurrent` there, which is what the early exit produces. -/
def to_hb (eo : EncounteredOrderings) : HappenedBeforeOrdering :=
  if eo.has_equal && !(eo.has_less || eo.has_greater) then .Equal
  else if eo.has_less && !eo.has_greater then .Before
  else if eo.has_greater && !eo.has_less then .After
  else .Concurrent

end EncounteredOrderings

/-- The comparison loop shared by the `hb_compare_*` helpers and
`PureVersionVector::hb_cmp`: update the encountered orderings pairwise and
exit early with `Concurrent` once both directions have been seen. -/
def hbLoop (eo : EncounteredOrderings) : List (Nat × Nat) → HappenedBeforeOrdering
  | [] => eo.to_hb
  | p :: rest =>
      let eo' := eo.update (natCmp p.1 p.2)
      if eo'.has_less_and_greater then .Concurrent
      else hbLoop eo' rest

/-- `hb_compare_full_override`: compare each entry of the full vector against
the override's value for that position. -/
def hb_compare_full_override (f : List Nat) (o : OverrideVersion) : HappenedBeforeOrdering :=
  hbLoop .start
    (f.enum.map fun p =>
      (p.2, if p.1 = o.override_position then o.override_version else o.group_version))

/-- `hb_compare_full_synced`: compare each entry of the full vector against the
shared synced version. -/
def hb_compare_full_synced (f : List Nat) (synced_version : Nat) : HappenedBeforeOrdering :=
  hbLoop .start (f.map fun v => (v, synced_version))

/-- `hb_compare_override_synced`: the compact decision tree from the source. -/
def hb_compare_override_synced (o : OverrideVersion) (synced_version : Nat) :
    HappenedBeforeOrdering :=
  match natCmp o.group_version synced_version with
  | .lt =>
      match natCmp o.override_version synced_version with
      | .lt => .Before
      | .eq => .Before
      | .gt => .Concurrent
  | .eq => .After
  | .gt => .After

/-- `PureVersionVector::hb_cmp`. -/
def pureHbCmp (a b : List Nat) : HappenedBeforeOrdering :=
  if a.length = b.length then
    if a.isEmpty then .Equal
    else hbLoop .start (a.zip b)
  else .Incomparable

/-- `OverrideVersion::hb_cmp`: the nested compact decision tree. -/
def OverrideVersion.hb_cmp (a b : OverrideVersion) : HappenedBeforeOrdering :=
  if a.override_position = b.override_position then
    match natCmp a.group_version b.group_version with
    | .lt =>
        match natCmp a.override_version b.override_version with
        | .lt => .Before
        | .eq => .Before
        | .gt => .Concurrent
    | .eq => .ofOrdering (natCmp a.override_version b.override_version)
    | .gt =>
        match natCmp a.override_version b.override_version with
        | .lt => .Concurrent
        | .eq => .After
        | .gt => .After
  else
    match natCmp a.override_version b.group_version with
    | .lt => .Before
    | .eq => .Before
    | .gt =>
        match natCmp b.override_version a.group_version with
        | .lt => .After
        | .eq => .After
        | .gt => .Concurrent

/-- `VersionVector::hb_cmp`: member-count check first, then dispatch to the
per-representation comparisons. -/
def VersionVector.hb_cmp (a b : VersionVector) : HappenedBeforeOrdering :=
  if a.num_members ≠ b.num_members then .Incomparable
  else
    match a, b with
    | .Full v1, .Full v2 => pureHbCmp v1 v2
    | .Full v1, .Override _ v2 => hb_compare_full_override v1 v2
    | .Full v1, .Synced _ v2 => hb_compare_full_synced v1 v2
    | .Override _ v1, .Full v2 => (hb_compare_full_override v2 v1).reverse
    | .Override _ v1, .Override _ v2 => v1.hb_cmp v2
    | .Override _ v1, .Synced _ v2 => hb_compare_override_synced v1 v2
    | .Synced _ v1, .Full v2 => (hb_compare_full_synced v2 v1).reverse
    | .Synced _ v1, .Override _ v2 => (hb_compare_override_synced v2 v1).reverse
    | .Synced _ v1, .Synced _ v2 => .ofOrdering (natCmp v1 v2)

/-! ### Specification-side comparator

`specHB` is written from the spec's words: "`hb_cmp` across variants is the
pointwise comparison under full expansion"; "Different member counts ⇒
`Incomparable`". It is used as the reference for the refinement claim. -/

/-- Pointwise happened-before comparison of two expanded vectors, following the
spec's description rather than the implementation. -/
def specHB (a b : List Nat) : HappenedBeforeOrdering :=
  if a.length = b.length then
    let lt := (a.zip b).any fun p => p.1 < p.2
    let gt := (a.zip b).any fun p => p.2 < p.1
    if lt && gt then .Concurrent
    else if lt then .Before
    else if gt then .After
    else .Equal
  else .Incomparable

/-- The fold that `hbLoop` computes when it never exits early. -/
def eoFold (eo : EncounteredOrderings) (pairs : List (Nat × Nat)) : EncounteredOrderings :=
  pairs.foldl (fun e p => e.update (natCmp p.1 p.2)) eo

/-! ## GroupVersionVector (group_vector.rs)

Group members are identifiers; we model them as an opaque totally ordered
token (`Nat`). The `GroupMembership` trait itself is declared outside the
sources we have (only its use sites appear), but `missing_to` uses only its
length, iteration and indexing, which a `List Member` provides. The
`BTreeMap` result is modelled as an association list with map semantics
(insert replaces an existing binding, remove drops it). -/

abbrev Member := Nat

abbrev MissingMap := List (Member × List Nat)

/-- `BTreeMap::insert`: replace an existing binding for `k` or add one. -/
def mapInsert (m : MissingMap) (k : Member) (v : List Nat) : MissingMap :=
  if m.any fun p => p.1 = k then
    m.map fun p => if p.1 = k then (k, v) else p
  else m ++ [(k, v)]

/-- `BTreeMap::remove`. -/
def mapRemove (m : MissingMap) (k : Member) : MissingMap :=
  m.filter fun p => p.1 ≠ k

/-- `BTreeMap::get`. -/
def mapLookup (m : MissingMap) (k : Member) : Option (List Nat) :=
  (m.find? fun p => p.1 = k).map fun p => p.2

/-- `missing_versions_between`: `(current..=updated).skip(1)`, the integers in
the half-open interval `(current, updated]`. -/
def missing_versions_between (current updated : Nat) : List Nat :=
  List.range' (current + 1) (updated - current)

/-- `GroupVersionVector::missing_to`. `selfV` is the receiver's version
vector, `otherMembers`/`otherV` the argument's aligned members and versions
(`self` and `other` must have equal length, asserted by the source). The
five arms mirror the source `match` on the representation pair; the
`(Full, _) | (_, Full)` arm is the generic pointwise loop over
`self.versions.iter().zip(other.iter())`. -/
def missing_to (selfV : VersionVector) (otherMembers : List Member)
    (otherV : VersionVector) : MissingMap :=
  match selfV, otherV with
  | VersionVector.Full _, _ | _, VersionVector.Full _ =>
      (selfV.expand.zip (otherMembers.zip otherV.expand)).foldl
        (fun acc p =>
          if p.1 < p.2.2 then
            mapInsert acc p.2.1 (missing_versions_between p.1 p.2.2)
          else acc)
        []
  | VersionVector.Override _ sv, VersionVector.Override _ ov =>
      let result : MissingMap :=
        if sv.group_version < ov.group_version then
          otherMembers.map fun id =>
            (id, missing_versions_between sv.group_version ov.group_version)
        else []
      if sv.override_position = ov.override_position then
        if sv.override_version < ov.override_version then
          mapInsert result (otherMembers.getD ov.override_position 0)
            (missing_versions_between sv.override_version ov.override_version)
        else
          mapRemove result (otherMembers.getD ov.override_position 0)
      else
        let result1 :=
          if sv.override_version < ov.group_version then
            mapInsert result (otherMembers.getD sv.override_position 0)
              (missing_versions_between sv.override_version ov.group_version)
          else
            mapRemove result (otherMembers.getD sv.override_position 0)
        if sv.group_version < ov.override_version then
          mapInsert result1 (otherMembers.getD ov.override_position 0)
            (missing_versions_between sv.group_version ov.override_version)
        else result1
  | VersionVector.Override _ sv, VersionVector.Synced _ ovv =>
      if sv.group_version < ovv then
        let result : MissingMap := otherMembers.map fun id =>
          (id, missing_versions_between sv.group_version ovv)
        if sv.override_version < ovv then
          mapInsert result (otherMembers.getD sv.override_position 0)
            (missing_versions_between sv.override_version ovv)
        else
          mapRemove result (otherMembers.getD sv.override_position 0)
      else []
  | VersionVector.Synced _ svv, VersionVector.Override _ ov =>
      let result : MissingMap :=
        if svv < ov.group_version then
          otherMembers.map fun id =>
            (id, missing_versions_between svv ov.group_version)
        else []
      if svv < ov.override_version then
        mapInsert result (otherMembers.getD ov.override_position 0)
          (missing_versions_between svv ov.override_version)
      else result
  | VersionVector.Synced _ svv, VersionVector.Synced _ ovv =>
      if svv < ovv then
        otherMembers.map fun id => (id, missing_versions_between svv ovv)
      else []

/-! ## Linear CRDT node table (linear_data/vec_impl.rs)

The generation of `VecLinearData` with `left_origin`/`right_origin` anchors and
Yjs-style conflict resolution. `Id` and `Value` are specialised to `Nat`.
Panics (`expect`, out-of-bounds indexing, `unreachable!`) and the potentially
non-terminating `ends_in_right_tree` loop are modelled with an explicit `fatal`
outcome, the loop via a fuel parameter. -/

/-- `Operation`: the payload state of a node in the node table. -/
inductive Operation where
  | Insert (value : Nat)
  | Delete (value : Nat)
  | Beginning
  | End
  | Invalid
deriving DecidableEq

/-- `Node`: id, the two origin anchors recorded at insert time, and payload. -/
structure Node where
  id : Nat
  left_origin : Option Nat
  right_origin : Option Nat
  operation : Operation
deriving DecidableEq

/-- `VecLinearData`: the count of live Insert nodes plus the node table. -/
structure VecLinearData where
  len : Nat
  nodes : List Node
deriving DecidableEq

/-- `DataOperation`: the wire operations. The source names the second Delete
field `end`, which is reserved in Lean, so it is called `stop` here. -/
inductive DataOperation where
  | Insert (id pred succ value : Nat)
  | Delete (start : Nat) (stop : Option Nat)
deriving DecidableEq

/-- The result of `&mut self` methods returning `Result<(), DataOperation>`:
the final state on success, the untouched-or-not state together with the
returned operation on failure, or a panic. -/
inductive ApplyResult where
  | ok (st : VecLinearData)
  | err (st : VecLinearData) (op : DataOperation)
  | fatal
deriving DecidableEq

/-- `VecLinearData::with_value`, the three generator-supplied ids explicit. -/
def VecLinearData.with_value (begin_id value_id end_id initial_value : Nat) :
    VecLinearData :=
  { len := 1
    nodes := [
      { id := begin_id, left_origin := none, right_origin := some value_id,
        operation := .Beginning },
      { id := value_id, left_origin := some begin_id,
        right_origin := some end_id, operation := .Insert initial_value },
      { id := end_id, left_origin := some value_id, right_origin := none,
        operation := .End }] }

/-- `VecLinearData::ends_in_right_tree`: follow `right_origin` anchors from
`node` until hitting `boundary` (true) or a node with no right origin (false).
`none` models the `expect` panic on a dangling origin and exhaustion of the
fuel (the source loops forever on a cycle). -/
def ends_in_right_tree (nodes : List Node) : Nat → Node → Nat → Option Bool
  | 0, _, _ => none
  | fuel + 1, node, boundary =>
    if node.id = boundary then some true
    else
      match node.right_origin with
      | some right =>
          (nodes.find? (fun n => n.id == right)).bind
            (fun next => ends_in_right_tree nodes fuel next boundary)
      | none => some false

/-- The scan over the gap `(pred_index, succ_index)` in
`VecLinearData::apply_operation`: collects the conflict set (nodes whose
origins are exactly `(pred, succ)`, paired with their index) and the first
index whose node ends in the right tree of `succ`. `none` models a panic from
`ends_in_right_tree`. -/
def gap_scan (nodes : List Node) (fuel pred succ pred_index succ_index : Nat) :
    Option (List (Nat × Nat) × Option Nat) :=
  (List.range' (pred_index + 1) (succ_index - (pred_index + 1))).foldl
    (fun acc ni =>
      match acc with
      | none => none
      | some (conf, rst) =>
          match nodes[ni]? with
          | none => none
          | some node =>
              let conf := if node.left_origin == some pred &&
                  node.right_origin == some succ then
                conf ++ [(node.id, ni)] else conf
              match rst with
              | some _ => some (conf, rst)
              | none =>
                  match ends_in_right_tree nodes fuel node succ with
                  | none => none
                  | some true => some (conf, some ni)
                  | some false => some (conf, none))
    (some ([], none))

/-- `slice::binary_search_by` on the conflict-set ids, as in the Rust core
implementation (`inl` = found index, `inr` = insertion index). -/
def binary_search_ids (xs : List Nat) (target : Nat) :
    Nat → Nat → Nat → Sum Nat Nat
  | 0, lo, _ => .inr lo
  | fuel + 1, lo, hi =>
    if lo < hi then
      let mid := (lo + hi) / 2
      let x := xs.getD mid 0
      if x < target then binary_search_ids xs target fuel (mid + 1) hi
      else if target < x then binary_search_ids xs target fuel lo mid
      else .inl mid
    else .inr lo

/-- The `((pred_index + 1)..target_conflict_pos).find(..)` scan: first index in
`[lo, hi)` whose node ends in the right tree of `tid`, defaulting to `hi`;
`none` models a panic from `ends_in_right_tree`. -/
def subtree_find (nodes : List Node) (fuel tid lo hi : Nat) : Option Nat :=
  ((List.range' lo (hi - lo)).foldl
    (fun acc ni =>
      match acc with
      | none => none
      | some (some p) => some (some p)
      | some none =>
          match nodes[ni]? with
          | none => none
          | some node =>
              match ends_in_right_tree nodes fuel node tid with
              | none => none
              | some true => some (some ni)
              | some false => some none)
    (some none)).map (fun r => r.getD hi)

/-- Insertion of a fresh Insert node at `position` (`Vec::insert` plus the
`len` bump shared by both success paths of `apply_operation`). -/
def insert_node_at (st : VecLinearData) (position idv pred succ value : Nat) :
    VecLinearData :=
  { len := st.len + 1
    nodes := st.nodes.insertIdx position
      { id := idv, left_origin := some pred, right_origin := some succ,
        operation := .Insert value } }

/-- `VecLinearData::delete` (single id): the mutated state and the
`Option<&Value>` result; `none` models the panic on an `Invalid` node. -/
def VecLinearData.delete (st : VecLinearData) (idv : Nat) :
    Option (VecLinearData × Option Nat) :=
  match st.nodes.findIdx? (fun n => n.id == idv) with
  | some i =>
      match st.nodes[i]? with
      | none => none
      | some node =>
          match node.operation with
          | .Insert v =>
              some ({ len := st.len - 1,
                      nodes := st.nodes.set i { node with operation := .Delete v } },
                some v)
          | .Delete v => some (st, some v)
          | .Beginning => some (st, none)
          | .End => some (st, none)
          | .Invalid => none
  | none => some (st, none)

/-- `VecLinearData::apply_operation`. The state is threaded explicitly: every
`Err(operation)` site returns the state as it stands at that point. -/
def VecLinearData.apply_operation (fuel : Nat) (st : VecLinearData) :
    DataOperation → ApplyResult
  | .Insert idv pred succ value =>
    match st.nodes.findIdx? (fun n => n.id == pred) with
    | none => .err st (.Insert idv pred succ value)
    | some pred_index =>
      match ((st.nodes.drop pred_index).findIdx?
          (fun n => n.id == succ)).map (pred_index + ·) with
      | none => .err st (.Insert idv pred succ value)
      | some succ_index =>
        if succ_index = pred_index + 1 then
          .ok (insert_node_at st succ_index idv pred succ value)
        else if pred_index < succ_index then
          match gap_scan st.nodes fuel pred succ pred_index succ_index with
          | none => .fatal
          | some (conflicting, right_subtree_start_opt) =>
            let right_subtree_start := right_subtree_start_opt.getD succ_index
            if conflicting = [] then
              .ok (insert_node_at st right_subtree_start idv pred succ value)
            else
              match binary_search_ids (conflicting.map Prod.fst) idv
                  conflicting.length 0 conflicting.length with
              | .inl _found => .err st (.Insert idv pred succ value)
              | .inr insert_index =>
                if insert_index = 0 then
                  .ok (insert_node_at st (pred_index + 1) idv pred succ value)
                else if insert_index < conflicting.length then
                  let target := conflicting.getD insert_index (0, 0)
                  match subtree_find st.nodes fuel target.1 (pred_index + 1)
                      target.2 with
                  | none => .fatal
                  | some position =>
                      .ok (insert_node_at st position idv pred succ value)
                else
                  .ok (insert_node_at st succ_index idv pred succ value)
        else .err st (.Insert idv pred succ value)
  | .Delete start stop =>
    if stop.isSome then .err st (.Delete start stop)
    else
      match st.delete start with
      | none => .fatal
      | some (st2, some _) => .ok st2
      | some (st2, none) => .err st2 (.Delete start stop)

/-- Sequential application of two operations (failures propagate). -/
def apply2 (fuel : Nat) (st : VecLinearData) (a b : DataOperation) :
    ApplyResult :=
  match st.apply_operation fuel a with
  | .ok st2 => st2.apply_operation fuel b
  | r => r

/-- The indexed Insert nodes, `VecLinearData::iter_inserts`. -/
def iter_inserts (nodes : List Node) : List (Nat × Node) :=
  nodes.enum.filter fun p =>
    match p.2.operation with | .Insert _ => true | _ => false

/-- The live values in order, `VecLinearData::iter_values` (`Invalid` nodes
would panic in the source; they never occur in the states considered here). -/
def iter_values (nodes : List Node) : List Nat :=
  nodes.filterMap fun n =>
    match n.operation with | .Insert v => some v | _ => none

/-- `NodeIds`: the ids at, before and after a position. -/
structure NodeIds where
  predecessor : Nat
  current : Nat
  successor : Nat
deriving DecidableEq

/-- `LinkIds`: a pair of ids identifying a position between two nodes. -/
structure LinkIds where
  predecessor : Nat
  successor : Nat
deriving DecidableEq

/-- `VecLinearData::ids_at_pos`. The outer `none` models the panics on
malformed states (the `unwrap`, and the index underflow/overflow when the
found node is first or last in the table). -/
def VecLinearData.ids_at_pos (st : VecLinearData) (position : Nat) :
    Option (Option NodeIds) :=
  if position < st.len then
    match (iter_inserts st.nodes)[position]? with
    | none => none
    | some (index_at_position, _) =>
        if index_at_position = 0 then none
        else
          match st.nodes[index_at_position - 1]?, st.nodes[index_at_position]?,
              st.nodes[index_at_position + 1]? with
          | some p, some c, some s => some (some ⟨p.id, c.id, s.id⟩)
          | _, _, _ => none
  else some none

/-- `VecLinearData::ids_after_head` (`none` models the index panic on a
malformed table with fewer than two nodes). -/
def VecLinearData.ids_after_head (st : VecLinearData) : Option LinkIds :=
  match st.nodes[0]?, st.nodes[1]? with
  | some a, some b => some ⟨a.id, b.id⟩
  | _, _ => none

/-! ## Latest-value-wins register (any_data/latest_value.rs) -/

/-- `LinearLatestValueWins::content`: the first live value
(`none` models the `expect` on an empty state). -/
def content (st : VecLinearData) : Option Nat :=
  (iter_values st.nodes).head?

/-- `LinearLatestValueWins::all_values`: all values newest to oldest. -/
def all_values (st : VecLinearData) : List Nat :=
  iter_values st.nodes

/-- `LinearLatestValueWins::update_operation`: an insert between head and its
successor. -/
def update_operation (st : VecLinearData) (idv new_value : Nat) :
    Option DataOperation :=
  st.ids_after_head.map fun ids =>
    .Insert idv ids.predecessor ids.successor new_value

/-! ## Coalesced linear data (text/linear_data/coalesced.rs)

The coalesced implementation from the text module: node ids are an
`IdWithIndex` (base id plus 16-bit sub-index), values are composites
(specialised to `List Nat`, the `ListChunk` instance from any_data/list.rs),
and each node records a single `origin` anchor, as in the file as written.
Panics (`assert!`, `expect`, `todo!`, indexing, `Operation::Invalid`) are
modelled as `none` / `fatal`. The unchecked `u16` additions and subtractions
are modelled with release-mode wrapping arithmetic; the checked conversions in
`last_index` always succeed within the well-formedness bound of C9
(`sub_index + node_length` bounded) and are modelled as plain `Nat`
arithmetic. -/

/-- `IdWithIndex`: a base id plus a `u16` sub-index (kept as a `Nat`). -/
structure IdWithIndex where
  id : Nat
  index : Nat
deriving DecidableEq

namespace IdWithIndex

/-- `IdWithIndex::MAX_LENGTH = u16::MAX as usize`. -/
def MAX_LENGTH : Nat := 65535

/-- `IdWithIndex::zero`. -/
def zero (id : Nat) : IdWithIndex := ⟨id, 0⟩

/-- `IdWithIndex::checked_increment` (`none` when the `u16` overflows). -/
def checked_increment (i : IdWithIndex) : Option IdWithIndex :=
  if i.index + 1 ≤ 65535 then some ⟨i.id, i.index + 1⟩ else none

/-- `IdWithIndex::increment`; `none` models the `expect` panic. -/
def increment (i : IdWithIndex) : Option IdWithIndex :=
  i.checked_increment

/-- `IdWithIndex::checked_decrement`. -/
def checked_decrement (i : IdWithIndex) : Option IdWithIndex :=
  if i.index = 0 then none else some ⟨i.id, i.index - 1⟩

/-- `IdWithIndex::decrement`; `none` models the `expect` panic. -/
def decrement (i : IdWithIndex) : Option IdWithIndex :=
  i.checked_decrement

/-- `IdWithIndex::addressable_len`. -/
def addressable_len (i : IdWithIndex) : Nat :=
  MAX_LENGTH - i.index

/-- `IdWithIndex::can_address`. -/
def can_address (i : IdWithIndex) (num_elements : Nat) : Bool :=
  decide (num_elements ≤ i.addressable_len)

/-- `IdWithIndex::is_followed_by`. -/
def is_followed_by (i other : IdWithIndex) : Bool :=
  i.id == other.id &&
    (if i.index + 1 ≤ 65535 then i.index + 1 == other.index else false)

/-- `IdWithIndex::index_diff`: `none` models the `assert_eq` /
`checked_sub`-`expect` panics. -/
def index_diff (i other : IdWithIndex) : Option Nat :=
  if i.id = other.id ∧ other.index ≤ i.index then some (i.index - other.index)
  else none

/-- The `Add<u16>` impl (`index += rhs`, unchecked: wraps in release mode). -/
def addIndex (i : IdWithIndex) (rhs : Nat) : IdWithIndex :=
  ⟨i.id, (i.index + rhs) % 65536⟩

end IdWithIndex

/-- The coalesced `Operation` over `ListChunk` values. -/
inductive COperation where
  | Insert (value : List Nat)
  | Delete (value : List Nat)
  | Beginning
  | End
  | Invalid
deriving DecidableEq

/-- The coalesced `Node` as constructed in coalesced.rs: a single `origin`. -/
structure CNode where
  id : IdWithIndex
  origin : Option IdWithIndex
  operation : COperation
deriving DecidableEq

namespace CNode

/-- `Node::node_len` (`Invalid` panics in the source; it never survives an
operation, and is given length 0 here). -/
def node_len (n : CNode) : Nat :=
  match n.operation with
  | .Insert v => v.length
  | .Delete v => v.length
  | .Beginning => 0
  | .End => 0
  | .Invalid => 0

/-- `Node::last_index` (the checked `u16` conversions always succeed within
the C9 bound and are modelled as plain `Nat` arithmetic). -/
def last_index (n : CNode) : Nat :=
  if n.node_len = 0 ∨ n.node_len = 1 then n.id.index
  else n.id.index + (n.node_len - 1)

/-- `Node::last_id`. -/
def last_id (n : CNode) : IdWithIndex :=
  ⟨n.id.id, n.last_index⟩

/-- `Node::contains` (`Invalid` panics in the source). -/
def contains (n : CNode) (i : IdWithIndex) : Bool :=
  n.id.id == i.id &&
    (match n.operation with
     | .Insert _ | .Delete _ =>
         decide (n.id.index ≤ i.index) && decide (i.index ≤ n.last_index)
     | .Beginning | .End => n.id.index == i.index
     | .Invalid => false)

/-- `Node::get_current_value`. -/
def get_current_value (n : CNode) : Option (List Nat) :=
  match n.operation with
  | .Insert v => some v
  | _ => none

end CNode

/-- `ListChunk::split_at` (`none` models the `assert!(index < len)` panic). -/
def listSplitAt (l : List Nat) (index : Nat) : Option (List Nat × List Nat) :=
  if index < l.length then some (l.take index, l.drop index) else none

/-- `Operation::split_off`: split the value at element `at_idx`; `none` for
unsupported variants (which the callers `expect` on) and failed asserts. -/
def COperation.split_off (op : COperation) (at_idx : Nat) :
    Option (COperation × COperation) :=
  match op with
  | .Insert v => (listSplitAt v at_idx).map fun p => (.Insert p.1, .Insert p.2)
  | .Delete v => (listSplitAt v at_idx).map fun p => (.Delete p.1, .Delete p.2)
  | _ => none

/-- `SplitMode`. -/
inductive SplitMode where
  | Before
  | After
  | BeforeAndAfter
deriving DecidableEq

/-- The inner `VecLinearData` of the coalesced structure (the text-module
vec_impl generation): Insert-node count plus node table. -/
structure CBase where
  len : Nat
  nodes : List CNode
deriving DecidableEq

/-- `VecCoalescedLinearData`: element count plus the base node table. -/
structure VecCoalescedLinearData where
  len : Nat
  base : CBase
deriving DecidableEq

/-- `DataOperation` over coalesced ids and `ListChunk` values. The source
names the second Delete field `end`, reserved in Lean, hence `stop`. -/
inductive CDataOperation where
  | Insert (id pred succ : IdWithIndex) (value : List Nat)
  | Delete (start : IdWithIndex) (stop : Option IdWithIndex)
deriving DecidableEq

/-- `VecCoalescedLinearData::split_node`: split the node at `node_index`
around `split_index` according to `mode`; returns the updated state and the
index of the node starting at `split_index`. `none` models the asserts and
`expect`s. -/
def split_node (st : VecCoalescedLinearData) (node_index split_index : Nat)
    (mode : SplitMode) : Option (VecCoalescedLinearData × Nat) :=
  match st.base.nodes[node_index]? with
  | none => none
  | some target =>
    if split_index ≤ target.last_index then
      let split_offset := (split_index + 65536 - target.id.index) % 65536
      let split_at_head := split_offset = 0
      let split_at_end := split_index = target.last_index
      match
        (match mode with
         | .Before => if split_at_head then none else some SplitMode.Before
         | .After => if split_at_end then none else some SplitMode.After
         | .BeforeAndAfter =>
             if split_at_head ∧ split_at_end then none
             else if split_at_head then some SplitMode.After
             else if split_at_end then some SplitMode.Before
             else some SplitMode.BeforeAndAfter : Option SplitMode) with
      | none => none
      | some adjusted =>
        let parts? :
            Option (CNode × CNode × Option CNode) :=
          match adjusted with
          | .Before =>
              (target.operation.split_off split_offset).map fun p =>
                ({ target with operation := p.1 },
                 ⟨⟨target.id.id, split_index⟩, some target.id, p.2⟩, none)
          | .After =>
              (target.operation.split_off (split_offset + 1)).map fun p =>
                ({ target with operation := p.1 },
                 ⟨⟨target.id.id, split_index + 1⟩, some target.id, p.2⟩, none)
          | .BeforeAndAfter =>
              (target.operation.split_off split_offset).bind fun p =>
                (p.2.split_off 1).bind fun q =>
                  let second : CNode :=
                    ⟨⟨target.id.id, split_index⟩, some target.id, q.1⟩
                  second.id.increment.map fun tid =>
                    ({ target with operation := p.1 }, second,
                     some (⟨tid, some second.id, q.2⟩ : CNode))
        match parts? with
        | none => none
        | some (first, second, third?) =>
          let nodes1 := (st.base.nodes.set node_index first).insertIdx
            (node_index + 1) second
          let nodes2 :=
            match third? with
            | some t => nodes1.insertIdx (node_index + 2) t
            | none => nodes1
          match adjusted with
          | .Before =>
              some ({ st with base :=
                { len := st.base.len + 1, nodes := nodes2 } }, node_index + 1)
          | .After =>
              some ({ st with base :=
                { len := st.base.len + 1, nodes := nodes2 } }, node_index)
          | .BeforeAndAfter =>
              some ({ st with base :=
                { len := st.base.len + 2, nodes := nodes2 } }, node_index + 1)
    else none

/-- `VecCoalescedLinearData::delete` (single id): the resulting state and the
`Option<&Element>` result; outer `none` models panics. -/
def VecCoalescedLinearData.delete (st : VecCoalescedLinearData)
    (i : IdWithIndex) : Option (VecCoalescedLinearData × Option Nat) :=
  match st.base.nodes.enum.find? (fun p => p.2.contains i) with
  | none => some (st, none)
  | some (node_index, node) =>
    let must_split :=
      match node.operation with
      | .Insert v => decide (v.length > 1)
      | _ => false
    (if must_split then split_node st node_index i.index .BeforeAndAfter
     else some (st, node_index)).bind fun p =>
      match p.1.base.nodes[p.2]? with
      | none => none
      | some node1 =>
        match node1.operation with
        | .Insert v =>
            some ({ len := p.1.len - 1,
                    base := { len := p.1.base.len - 1,
                              nodes := p.1.base.nodes.set p.2
                                { node1 with operation := .Delete v } } },
              v[0]?)
        | .Delete v =>
            some (p.1, v[(i.index + 65536 - node1.id.index) % 65536]?)
        | .Beginning => some (p.1, none)
        | .End => some (p.1, none)
        | .Invalid => none

/-- `DeleteMode` from `delete_range`. -/
inductive DeleteMode where
  | Suffix (node_index : Nat)
  | Subrange (node_index : Nat)
  | Full (node_index : Nat)
  | Prefix (node_index : Nat)
  | Skip (node_index : Nat)
deriving DecidableEq

/-- The `item_from_node` closure in `delete_range`. -/
def item_from_node (start stop : IdWithIndex) (node_index : Nat) (node : CNode)
    (contains_start contains_end : Bool) : DeleteMode :=
  let start_at_node_start := contains_start && node.id == start
  let end_at_node_end := contains_end && node.last_index == stop.index
  if (match node.operation with | .Delete _ => true | _ => false) then
    .Skip node_index
  else if (!contains_start && !contains_end) ||
      (start_at_node_start && end_at_node_end) then
    .Full node_index
  else if start_at_node_start then .Prefix node_index
  else if end_at_node_end then .Suffix node_index
  else .Subrange node_index

/-- The `while !found_end` collection loop in `delete_range` over the
remaining nodes with the end id's base id; `none` models running out of nodes
(`DeleteError::NotFound`). -/
def collect_items (start stop : IdWithIndex) :
    List (Nat × CNode) → Option (List DeleteMode)
  | [] => none
  | (ni, node) :: rest =>
      let fe := node.contains stop
      let item := item_from_node start stop ni node false fe
      if fe then some [item]
      else (collect_items start stop rest).map (item :: ·)

/-- Marking the node at `node_index` deleted (`Operation::delete` plus the two
length updates); `none` models the assert on a non-Insert node. -/
def delete_node_at (st : VecCoalescedLinearData) (node_index : Nat) :
    Option VecCoalescedLinearData :=
  match st.base.nodes[node_index]? with
  | none => none
  | some node =>
    match node.operation with
    | .Insert v =>
        some { len := st.len - v.length,
               base := { len := st.base.len - 1,
                         nodes := st.base.nodes.set node_index
                           { node with operation := .Delete v } } }
    | _ => none

/-- One `DeleteMode` work item of `delete_range`'s mutation loop. -/
def apply_item (st : VecCoalescedLinearData) (start stop : IdWithIndex) :
    DeleteMode → Option VecCoalescedLinearData
  | .Skip _ => some st
  | .Suffix node_index =>
      (split_node st node_index start.index .Before).bind fun p =>
        delete_node_at p.1 p.2
  | .Subrange node_index =>
      (split_node st node_index start.index .Before).bind fun p =>
        (split_node p.1 p.2 stop.index .After).bind fun q =>
          delete_node_at q.1 q.2
  | .Full node_index => delete_node_at st node_index
  | .Prefix node_index =>
      (split_node st node_index stop.index .After).bind fun p =>
        delete_node_at p.1 p.2

/-- The outcome of `delete_range` with the state threaded explicitly. -/
inductive CDeleteRangeResult where
  | ok (st : VecCoalescedLinearData)
  | errRange (st : VecCoalescedLinearData)
  | fatal
deriving DecidableEq

/-- `VecCoalescedLinearData::delete_range`. -/
def delete_range (st : VecCoalescedLinearData) (start stop : IdWithIndex) :
    CDeleteRangeResult :=
  if start = stop then
    match st.delete start with
    | none => .fatal
    | some (st1, some _) => .ok st1
    | some (st1, none) => .errRange st1
  else if ¬start.id = stop.id then .errRange st
  else if ¬start.index ≤ stop.index then .errRange st
  else
    match st.base.nodes.enum.find? (fun p => p.2.contains start) with
    | none => .errRange st
    | some (start_node_index, start_node) =>
      let found_end := start_node.contains stop
      let start_item :=
        item_from_node start stop start_node_index start_node true found_end
      match
        (if found_end then some [start_item]
         else (collect_items start stop
             ((st.base.nodes.enum.drop (start_node_index + 1)).filter
               (fun p => p.2.id.id == stop.id))).map
           (start_item :: ·)) with
      | none => .errRange st
      | some work_items =>
        match work_items.foldl
            (fun acc item => acc.bind fun st1 => apply_item st1 start stop item)
            (some st) with
        | some st1 => .ok st1
        | none => .fatal

/-- The result type of the coalesced `apply_operation`. -/
inductive CApplyResult where
  | ok (st : VecCoalescedLinearData)
  | err (st : VecCoalescedLinearData) (op : CDataOperation)
  | fatal
deriving DecidableEq

/-- `VecCoalescedLinearData::apply_operation`. The `todo!` branches are
modelled as `fatal`. -/
def VecCoalescedLinearData.apply_operation (st : VecCoalescedLinearData) :
    CDataOperation → CApplyResult
  | .Insert idv pred succ value =>
    match st.base.nodes.enum.find? (fun p => p.2.contains pred) with
    | none => .err st (.Insert idv pred succ value)
    | some (pred_index, pred_node) =>
      match
        (if pred_node.contains succ then some (pred_index, pred_node)
         else (st.base.nodes.enum.drop pred_index).find?
           (fun p => p.2.contains succ)) with
      | none => .err st (.Insert idv pred succ value)
      | some (succ_index, succ_node) =>
        if pred_index = succ_index then
          if pred.is_followed_by succ then
            match split_node st pred_index succ.index .Before with
            | none => .fatal
            | some (st1, new_succ_index) =>
                .ok { len := st1.len + value.length,
                      base := { len := st1.base.len + 1,
                                nodes := st1.base.nodes.insertIdx
                                  new_succ_index
                                  ⟨idv, some pred, .Insert value⟩ } }
          else .fatal
        else if pred_index + 1 = succ_index then
          if pred_node.last_id == pred && succ_node.id == succ then
            .ok { len := st.len + value.length,
                  base := { len := st.base.len + 1,
                            nodes := st.base.nodes.insertIdx succ_index
                              ⟨idv, some pred, .Insert value⟩ } }
          else .fatal
        else .fatal
  | .Delete start stop =>
      match stop with
      | some e =>
          match delete_range st start e with
          | .ok st1 => .ok st1
          | .errRange st1 => .err st1 (.Delete start stop)
          | .fatal => .fatal
      | none =>
          match st.delete start with
          | none => .fatal
          | some (st1, some _) => .ok st1
          | some (st1, none) => .err st1 (.Delete start stop)

/-- The text-module `VecLinearData::append` on the coalesced base (`none`
models the asserts and the index panics on malformed tables). -/
def CBase.append (b : CBase) (idv : IdWithIndex) (value : List Nat) :
    Option CBase :=
  match b.nodes[b.nodes.length - 1]? with
  | none => none
  | some end_node =>
    match end_node.operation with
    | .End =>
        if b.nodes.length - 1 = 0 then none
        else
          match b.nodes[b.nodes.length - 1 - 1]? with
          | none => none
          | some last_node =>
              some { len := b.len + 1,
                     nodes := b.nodes.insertIdx (b.nodes.length - 1)
                       ⟨idv, some last_node.id, .Insert value⟩ }
    | _ => none

/-- `VecCoalescedLinearData::append`: the `can_address` assert (`none` models
the panic) followed by the base append. -/
def VecCoalescedLinearData.append (st : VecCoalescedLinearData)
    (idv : IdWithIndex) (value : List Nat) : Option VecCoalescedLinearData :=
  if idv.can_address value.length then
    (st.base.append idv value).map fun b =>
      { len := st.len + value.length, base := b }
  else none

/-- `LinearList::append` (any_data/list.rs): empty chunks are ignored,
otherwise `id.can_address(values.len())` is asserted up front (`none` models
the panic) before the chunk is handed to the coalesced append. -/
def LinearList.append (st : VecCoalescedLinearData) (idv : IdWithIndex)
    (values : List Nat) : Option VecCoalescedLinearData :=
  if values = [] then some st
  else if idv.can_address values.length then st.append idv values
  else none

/-- The indexed Insert nodes of the coalesced base,
`VecLinearData::iter_inserts`. -/
def c_iter_inserts (nodes : List CNode) : List (Nat × CNode) :=
  nodes.enum.filter fun p =>
    match p.2.operation with | .Insert _ => true | _ => false

/-- The loop of `VecCoalescedLinearData::node_at_position` over the Insert
nodes: returns the node index and its start position once `position` falls
within a node's value. The inner `none` is the not-found fallthrough; the
outer `none` models the `assert!(position > current_node_start_position)`
panic (reachable only with empty-valued nodes). -/
def node_at_position_loop (position : Nat) :
    List (Nat × CNode) → Nat → Option (Option (Nat × Nat))
  | [], _ => some none
  | (node_index, node) :: rest, current_start =>
      if position < current_start + node.node_len then
        some (some (node_index, current_start))
      else if current_start < position then
        node_at_position_loop position rest (current_start + node.node_len)
      else none

/-- `VecCoalescedLinearData::node_at_position`. -/
def node_at_position (st : VecCoalescedLinearData) (position : Nat) :
    Option (Option (Nat × Nat)) :=
  node_at_position_loop position (c_iter_inserts st.base.nodes) 0

/-- `VecCoalescedLinearData::predecessor_id` (`none` models the panics:
`index_diff` asserts, `decrement` on sub-index 0, and the index underflow on
the first node). -/
def predecessor_id (st : VecCoalescedLinearData) (i : IdWithIndex)
    (node_index : Nat) : Option IdWithIndex :=
  match st.base.nodes[node_index]? with
  | none => none
  | some node =>
    match i.index_diff node.id with
    | none => none
    | some d =>
        if 0 < d then i.decrement
        else if node_index = 0 then none
        else (st.base.nodes[node_index - 1]?).map CNode.last_id

/-- `VecCoalescedLinearData::successor_id`. -/
def successor_id (st : VecCoalescedLinearData) (i : IdWithIndex)
    (node_index : Nat) : Option IdWithIndex :=
  match st.base.nodes[node_index]? with
  | none => none
  | some node =>
    match i.index_diff node.id with
    | none => none
    | some d =>
        if d + 1 < node.node_len then i.increment
        else (st.base.nodes[node_index + 1]?).map CNode.id

/-- The coalesced `NodeIds`. -/
structure CNodeIds where
  predecessor : IdWithIndex
  current : IdWithIndex
  successor : IdWithIndex
deriving DecidableEq

/-- `VecCoalescedLinearData::ids_at_pos`. The outer `none` models the panics
(`unwrap`, the `u16` conversion of the offset, and those of the id helpers);
the inner option is the function's result. -/
def VecCoalescedLinearData.ids_at_pos (st : VecCoalescedLinearData)
    (position : Nat) : Option (Option CNodeIds) :=
  if position < st.len then
    match node_at_position st position with
    | none => none
    | some none => none
    | some (some (node_index, node_start_position)) =>
        if position - node_start_position ≤ 65535 then
          match st.base.nodes[node_index]? with
          | none => none
          | some current_node =>
            let current :=
              current_node.id.addIndex (position - node_start_position)
            match predecessor_id st current node_index,
                successor_id st current node_index with
            | some p, some s => some (some ⟨p, current, s⟩)
            | _, _ => none
        else none
  else some none

/-! ### Specification-side flattened id sequences for C10 -/

/-- Specification side: the individual element ids covered by one node
(`Node::ids` in the source): one id per element for Insert/Delete nodes, the
single node id for the zero-sized boundary nodes. -/
def node_ids (n : CNode) : List IdWithIndex :=
  match n.operation with
  | .Insert v => (List.range v.length).map fun k => ⟨n.id.id, n.id.index + k⟩
  | .Delete v => (List.range v.length).map fun k => ⟨n.id.id, n.id.index + k⟩
  | _ => [n.id]

/-- Specification side: all ids in node-table order. -/
def table_ids (nodes : List CNode) : List IdWithIndex :=
  nodes.flatMap node_ids

/-- Specification side: the ids of the visible (live) elements in order. -/
def visible_ids (nodes : List CNode) : List IdWithIndex :=
  nodes.flatMap fun n =>
    match n.operation with
    | .Insert v => (List.range v.length).map fun k => ⟨n.id.id, n.id.index + k⟩
    | _ => []

/-- Well-formedness of a `VecLinearData` table as maintained by the
operations: the `len` field counts the live values, and the table is framed
by a Beginning node and an End node. -/
def WFv (st : VecLinearData) : Prop :=
  st.len = (iter_values st.nodes).length ∧ 2 ≤ st.nodes.length ∧
  st.nodes.head?.map Node.operation = some .Beginning ∧
  st.nodes.getLast?.map Node.operation = some .End

instance (st : VecLinearData) : Decidable (WFv st) := by
  unfold WFv
  infer_instance

/-- Nonemptiness of tombstone payloads, as a decidable check. -/
def delete_nonempty (n : CNode) : Bool :=
  match n.operation with
  | .Delete v => !v.isEmpty
  | _ => true

/-- Well-formedness of a coalesced table: `len` counts the live elements, the
table is framed by Beginning/End, every payload node keeps its value nonempty
and within the sub-index budget of C9. -/
def WFc (st : VecCoalescedLinearData) : Prop :=
  st.len = ((c_iter_inserts st.base.nodes).map fun q => q.2.node_len).sum ∧
  2 ≤ st.base.nodes.length ∧
  st.base.nodes.head?.map CNode.operation = some .Beginning ∧
  st.base.nodes.getLast?.map CNode.operation = some .End ∧
  (∀ n ∈ st.base.nodes, n.id.index + n.node_len ≤ 65536 ∧
    n.get_current_value ≠ some [] ∧ delete_nonempty n = true)

instance (st : VecCoalescedLinearData) : Decidable (WFc st) := by
  unfold WFc
  infer_instance

/-- The total number of live elements as counted from the node table. -/
def insertsLenSum (nodes : List CNode) : Nat :=
  ((c_iter_inserts nodes).map fun q => q.2.node_len).sum

/-! ### The text diff translator (text/mod.rs `linear_diff`) -/

/-- `text_diff::TextChange`: a plain-text edit against the base string, with
positions counted in base graphemes (graphemes are modelled as `Nat`s,
matching the element values of the coalesced table). -/
inductive TextChange where
  | Insert (at_pos : Nat) (value : List Nat)
  | Delete (at_pos len : Nat)
deriving DecidableEq

/-- `LinearData::ids_after_head` on the coalesced table, as `(predecessor,
successor)`; `none` models the index panics on tables shorter than two
nodes. -/
def c_ids_after_head (st : VecCoalescedLinearData) :
    Option (IdWithIndex × IdWithIndex) :=
  match st.base.nodes[0]?, st.base.nodes[1]? with
  | some a, some b => some (a.id, b.id)
  | _, _ => none

/-- `LinearData::ids_before_end` on the coalesced table (`nodes[len - 2]`
and `nodes[len - 1]`); `none` models the index panics on tables shorter than
two nodes. -/
def c_ids_before_end (st : VecCoalescedLinearData) :
    Option (IdWithIndex × IdWithIndex) :=
  if st.base.nodes.length < 2 then none
  else
    match st.base.nodes[st.base.nodes.length - 2]?,
        st.base.nodes[st.base.nodes.length - 1]? with
    | some a, some b => some (a.last_id, b.id)
    | _, _ => none

/-- The `while range.contains(&next_position)` loop of
`VecCoalescedLinearData::ids_in_range`, specialised to the half-open ranges
`at..end` that `linear_diff` passes (`Included` start, `Excluded` end).
Arguments: fuel, `next_position`, `current_node_start_id`,
`current_node_index`, `current_node`, `current_node_start_position`,
`current_node_end_position`, the remaining `iter_inserts_from` iterator, and
the closed-out id ranges so far (as `(start id, end sub-index)` pairs).
Returns the closed-out ranges, the final current-node data and the
`reached_the_end` flag; `none` models the `return None` when the range's end
lies beyond the data (and fuel exhaustion, unreachable with fuel above the
position span). -/
def ids_in_range_loop (stop : Nat) :
    Nat → Nat → IdWithIndex → Nat → CNode → Nat → Nat →
    List (Nat × CNode) → List (IdWithIndex × Nat) →
    Option (List (IdWithIndex × Nat) × IdWithIndex × Nat × CNode × Nat × Bool)
  | 0, _, _, _, _, _, _, _, _ => none
  | fuel + 1, next_position, cur_id, cur_idx, cur_node, cur_sp, cur_ep,
      inserts, acc =>
    if next_position < stop then
      if cur_ep ≤ next_position then
        match inserts with
        | (new_index, new_node) :: rest =>
            ids_in_range_loop stop fuel (next_position + 1) new_node.id
              new_index new_node next_position
              (next_position + new_node.node_len) rest
              (acc ++ [(cur_id, cur_node.last_index)])
        | [] =>
            if stop = next_position then
              some (acc, cur_id, cur_idx, cur_node, cur_sp, true)
            else none
      else
        ids_in_range_loop stop fuel (next_position + 1) cur_id cur_idx
          cur_node cur_sp cur_ep inserts acc
    else some (acc, cur_id, cur_idx, cur_node, cur_sp, false)

/-- `VecCoalescedLinearData::ids_in_range` specialised to the half-open
ranges `at..end` used by `linear_diff`: the predecessor id, the per-node
inclusive id ranges (`IdWithIndexRange` as `(start id, end sub-index)`) and
the successor id. The outer `none` is the function's own `None`; the panics
inside (the `unwrap`ped `u16` conversions, the underflowing subtraction for
the end offset, and those of the id helpers) are also mapped to `none`. -/
def c_ids_in_range (st : VecCoalescedLinearData) (start_pos stop_pos : Nat) :
    Option (IdWithIndex × List (IdWithIndex × Nat) × IdWithIndex) :=
  match node_at_position st start_pos with
  | none => none
  | some none => none
  | some (some (node_index, node_start_position)) =>
    match st.base.nodes[node_index]? with
    | none => none
    | some node =>
      if start_pos - node_start_position ≤ 65535 then
        let start_id := node.id.addIndex (start_pos - node_start_position)
        match ids_in_range_loop stop_pos (stop_pos + 1 - start_pos) start_pos
            start_id node_index node node_start_position
            (node_start_position + node.node_len)
            ((c_iter_inserts st.base.nodes).filter fun p =>
              node_index < p.1) [] with
        | none => none
        | some (ranges, cur_id, cur_idx, cur_node, cur_sp, reached) =>
          match
            (if reached then some cur_node.last_index
             else if cur_sp + 1 ≤ stop_pos ∧ stop_pos - cur_sp - 1 ≤ 65535 then
               some ((cur_node.id.addIndex (stop_pos - cur_sp - 1)).index)
             else none) with
          | none => none
          | some end_index =>
            let end_id : IdWithIndex := ⟨cur_id.id, end_index⟩
            match predecessor_id st start_id node_index,
                successor_id st end_id cur_idx with
            | some p, some s => some (p, ranges ++ [(cur_id, end_index)], s)
            | _, _ => none
      else none

/-- The chunking loop of one `TextChange::Insert` in `linear_diff`
(text/mod.rs): consume ids from `gen` (fresh base ids, wrapped at sub-index 0
by `IdGeneratorWithZeroIndex`), reuse the `active_insert_op_id` budget,
thread `previous_op_end_id`, and emit one Insert operation per chunk of at
most `addressable_len` graphemes. Returns the operations together with the
remaining generator and the surviving active id; `none` models the
`IdsExhausted` error, the internal-error returns, and fuel exhaustion
(unreachable with fuel above the value length). -/
def insert_change_loop (node_insert_ids : IdWithIndex × IdWithIndex) :
    Nat → List Nat → Option IdWithIndex → Option IdWithIndex → List Nat →
    Option (List CDataOperation × List Nat × Option IdWithIndex)
  | _, gen, active, _, [] => some ([], gen, active)
  | 0, _, _, _, _ :: _ => none
  | fuel + 1, gen, active, prev_end, v :: vs =>
    match (match active with
           | some idv => some (idv, gen)
           | none =>
               match gen with
               | [] => none
               | g :: gs => some (⟨g, 0⟩, gs)) with
    | none => none
    | some (op_id, gen1) =>
      if 0 < op_id.addressable_len then
        let current_value := (v :: vs).take op_id.addressable_len
        let rest := (v :: vs).drop op_id.addressable_len
        let ids :=
          match prev_end with
          | some idv => (idv, node_insert_ids.2)
          | none => node_insert_ids
        match
          (if current_value.length = op_id.addressable_len then
            insert_change_loop node_insert_ids fuel gen1 none
              (some ⟨op_id.id, 65535⟩) rest
          else
            insert_change_loop node_insert_ids fuel gen1
              (some (op_id.addIndex current_value.length))
              (some (op_id.addIndex (current_value.length - 1))) rest) with
        | none => none
        | some (ops, gen2, active2) =>
            some (.Insert op_id ids.1 ids.2 current_value :: ops, gen2,
              active2)
      else none

/-- The change-translation loop of `linear_diff` (text/mod.rs 179-282): each
`TextChange::Insert` is anchored via `ids_after_head` / `ids_at_pos(at)`'s
`before()` / `ids_before_end` and chunked by `insert_change_loop` (the
active-id budget carries across changes); each `TextChange::Delete` becomes
the `delete_operations` of `ids_in_range(at..at+len)`. `none` models the
error returns and the modelled panics. -/
def linear_diff_changes (base : VecCoalescedLinearData) :
    List TextChange → List Nat → Option IdWithIndex →
    Option (List CDataOperation)
  | [], _, _ => some []
  | .Insert at_pos value :: rest, gen, active =>
      match
        (if base.len = 0 then
          if at_pos = 0 then c_ids_after_head base else none
        else
          match base.ids_at_pos at_pos with
          | none => none
          | some (some nids) => some (nids.predecessor, nids.current)
          | some none =>
              if at_pos = base.len then c_ids_before_end base else none) with
      | none => none
      | some node_insert_ids =>
        match insert_change_loop node_insert_ids (value.length + 1) gen
            active none value with
        | none => none
        | some (ops, gen2, active2) =>
          (linear_diff_changes base rest gen2 active2).map (ops ++ ·)
  | .Delete at_pos len :: rest, gen, active =>
      match c_ids_in_range base at_pos (at_pos + len) with
      | none => none
      | some (_, ranges, _) =>
        (linear_diff_changes base rest gen active).map
          ((ranges.map fun r =>
            CDataOperation.Delete r.1 (some ⟨r.1.id, r.2⟩)) ++ ·)

/-- `linear_diff` (text/mod.rs): translate the text-diff changes of the base
against the target into data operations. The text diff itself (the external
`similar` crate behind `text_diff::diff`) is not embedded; the change list is
taken as input. -/
def linear_diff (base : VecCoalescedLinearData) (changes : List TextChange)
    (gen : List Nat) : Option (List CDataOperation) :=
  linear_diff_changes base changes gen none

/-- `LinearStringDiff::apply_to`: apply the operations in order, stopping at
the first failure (the state keeps the mutations applied so far). -/
def apply_all (st : VecCoalescedLinearData) :
    List CDataOperation → CApplyResult
  | [] => .ok st
  | op :: rest =>
    match st.apply_operation op with
    | .ok st1 => apply_all st1 rest
    | .err st1 o => .err st1 o
    | .fatal => .fatal

/-- `LinearString::to_string`: the concatenation of the live (Insert-node)
values in table order. -/
def c_all_values (nodes : List CNode) : List Nat :=
  nodes.flatMap fun n =>
    match n.operation with
    | .Insert v => v
    | _ => []

/-! ### Lemmas relating the implementation comparators to `specHB` -/

theorem natCmp_eq_lt {a b : Nat} : natCmp a b = .lt ↔ a < b := by
  unfold natCmp; split <;> [skip; split] <;> simp_all <;> omega

theorem natCmp_eq_eq {a b : Nat} : natCmp a b = .eq ↔ a = b := by
  unfold natCmp; split <;> [skip; split] <;> simp_all <;> omega

theorem natCmp_eq_gt {a b : Nat} : natCmp a b = .gt ↔ b < a := by
  unfold natCmp; split <;> [skip; split] <;> simp_all <;> omega

namespace EncounteredOrderings

theorem update_less (eo : EncounteredOrderings) (o : Ordering) :
    (eo.update o).has_less = (eo.has_less || o = .lt) := by
  cases o <;> simp [update]

theorem update_greater (eo : EncounteredOrderings) (o : Ordering) :
    (eo.update o).has_greater = (eo.has_greater || o = .gt) := by
  cases o <;> simp [update]

theorem update_equal (eo : EncounteredOrderings) (o : Ordering) :
    (eo.update o).has_equal = (eo.has_equal || o = .eq) := by
  cases o <;> simp [update]

end EncounteredOrderings

theorem eoFold_less (pairs : List (Nat × Nat)) (eo : EncounteredOrderings) :
    (eoFold eo pairs).has_less = (eo.has_less || pairs.any fun p => p.1 < p.2) := by
  induction pairs generalizing eo with
  | nil => simp [eoFold]
  | cons p rest ih =>
      simp only [eoFold, List.foldl_cons, List.any_cons] at *
      rw [ih, EncounteredOrderings.update_less]
      by_cases h : p.1 < p.2
      · simp [natCmp_eq_lt.mpr h, h]
      · have : natCmp p.1 p.2 ≠ .lt := fun hc => h (natCmp_eq_lt.mp hc)
        simp [this, h]

theorem eoFold_greater (pairs : List (Nat × Nat)) (eo : EncounteredOrderings) :
    (eoFold eo pairs).has_greater = (eo.has_greater || pairs.any fun p => p.2 < p.1) := by
  induction pairs generalizing eo with
  | nil => simp [eoFold]
  | cons p rest ih =>
      simp only [eoFold, List.foldl_cons, List.any_cons] at *
      rw [ih, EncounteredOrderings.update_greater]
      by_cases h : p.2 < p.1
      · simp [natCmp_eq_gt.mpr h, h]
      · have : natCmp p.1 p.2 ≠ .gt := fun hc => h (natCmp_eq_gt.mp hc)
        simp [this, h]

theorem eoFold_equal (pairs : List (Nat × Nat)) (eo : EncounteredOrderings) :
    (eoFold eo pairs).has_equal = (eo.has_equal || pairs.any fun p => p.1 = p.2) := by
  induction pairs generalizing eo with
  | nil => simp [eoFold]
  | cons p rest ih =>
      simp only [eoFold, List.foldl_cons, List.any_cons] at *
      rw [ih, EncounteredOrderings.update_equal]
      by_cases h : p.1 = p.2
      · rw [show natCmp p.1 p.2 = .eq from natCmp_eq_eq.mpr h]
        simp [h]
      · have hne : natCmp p.1 p.2 ≠ .eq := fun hc => h (natCmp_eq_eq.mp hc)
        simp [hne, h]

theorem to_hb_of_both (eo : EncounteredOrderings) (hl : eo.has_less = true)
    (hg : eo.has_greater = true) : eo.to_hb = .Concurrent := by
  simp [EncounteredOrderings.to_hb, hl, hg]

/-- `hbLoop` computes the fold of all pairwise orderings: the early exit agrees
with the final classification because the flags are monotone. -/
theorem hbLoop_eq_eoFold (pairs : List (Nat × Nat)) (eo : EncounteredOrderings) :
    hbLoop eo pairs = (eoFold eo pairs).to_hb := by
  induction pairs generalizing eo with
  | nil => simp [hbLoop, eoFold]
  | cons p rest ih =>
      simp only [hbLoop, eoFold, List.foldl_cons]
      split
      · next h =>
          have hl : (eo.update (natCmp p.1 p.2)).has_less = true := by
            simp only [EncounteredOrderings.has_less_and_greater, Bool.and_eq_true] at h
            exact h.1
          have hg : (eo.update (natCmp p.1 p.2)).has_greater = true := by
            simp only [EncounteredOrderings.has_less_and_greater, Bool.and_eq_true] at h
            exact h.2
          have hl' : (eoFold (eo.update (natCmp p.1 p.2)) rest).has_less = true := by
            rw [eoFold_less, hl]; simp
          have hg' : (eoFold (eo.update (natCmp p.1 p.2)) rest).has_greater = true := by
            rw [eoFold_greater, hg]; simp
          exact (to_hb_of_both _ hl' hg').symm
      · exact ih _

/-- Characterisation of the comparison loop on a non-empty pair list. -/
theorem hbLoop_start_spec (pairs : List (Nat × Nat)) (hne : pairs ≠ []) :
    hbLoop .start pairs =
      (if (pairs.any fun p => p.1 < p.2) && (pairs.any fun p => p.2 < p.1) then
        .Concurrent
      else if pairs.any fun p => p.1 < p.2 then .Before
      else if pairs.any fun p => p.2 < p.1 then .After
      else .Equal) := by
  rw [hbLoop_eq_eoFold]
  have hless := eoFold_less pairs .start
  have hgreater := eoFold_greater pairs .start
  have hequal := eoFold_equal pairs .start
  rw [show EncounteredOrderings.start.has_less = false from rfl, Bool.false_or] at hless
  rw [show EncounteredOrderings.start.has_greater = false from rfl, Bool.false_or] at hgreater
  rw [show EncounteredOrderings.start.has_equal = false from rfl, Bool.false_or] at hequal
  by_cases hl : (pairs.any fun p => p.1 < p.2) = true <;>
    by_cases hg : (pairs.any fun p => p.2 < p.1) = true
  · simp [EncounteredOrderings.to_hb, hless, hgreater, hl, hg]
  · simp [EncounteredOrderings.to_hb, hless, hgreater, hl,
      Bool.eq_false_iff.mpr hg]
  · simp [EncounteredOrderings.to_hb, hless, hgreater,
      Bool.eq_false_iff.mpr hl, hg]
  · -- no strict pair in either direction: every pair is equal, and there is
    -- at least one pair, so `has_equal` is set.
    have heq : (pairs.any fun p => p.1 = p.2) = true := by
      obtain ⟨p, hp⟩ := List.exists_mem_of_ne_nil pairs hne
      simp only [List.any_eq_true]
      refine ⟨p, hp, ?_⟩
      simp only [List.any_eq_true, not_exists] at hl hg
      have h1 := hl p
      have h2 := hg p
      simp only [hp, true_and, decide_eq_true_eq] at h1 h2
      simp only [decide_eq_true_eq]
      omega
    simp [EncounteredOrderings.to_hb, hless, hgreater, hequal, heq,
      Bool.eq_false_iff.mpr hl, Bool.eq_false_iff.mpr hg]

/-- `specHB` in terms of the implementation loop. -/
theorem specHB_eq_hbLoop (a b : List Nat) (hlen : a.length = b.length) (hne : a ≠ []) :
    specHB a b = hbLoop .start (a.zip b) := by
  have hz : a.zip b ≠ [] := by
    cases a with
    | nil => exact absurd rfl hne
    | cons x xs =>
        cases b with
        | nil => simp at hlen
        | cons y ys => simp [List.zip]
  rw [hbLoop_start_spec _ hz]
  simp [specHB, hlen]

/-- `specHB` is antisymmetric under `reverse`. -/
theorem specHB_reverse (a b : List Nat) : specHB a b = (specHB b a).reverse := by
  unfold specHB
  by_cases hlen : a.length = b.length
  · have hswap : b.zip a = (a.zip b).map Prod.swap := (List.zip_swap a b).symm
    have h1 : ((b.zip a).any fun p => p.1 < p.2) = ((a.zip b).any fun p => p.2 < p.1) := by
      rw [hswap, List.any_map]
      rfl
    have h2 : ((b.zip a).any fun p => p.2 < p.1) = ((a.zip b).any fun p => p.1 < p.2) := by
      rw [hswap, List.any_map]
      rfl
    rw [hlen, if_pos rfl, if_pos rfl, h1, h2]
    by_cases hb1 : ((a.zip b).any fun p => p.1 < p.2) = true <;>
      by_cases hb2 : ((a.zip b).any fun p => p.2 < p.1) = true <;>
      simp [hb1, hb2, HappenedBeforeOrdering.reverse]
  · rw [if_neg hlen, if_neg (fun h => hlen h.symm)]
    rfl

/-! ### Expansion lemmas -/

theorem OverrideVersion.to_vector_length (o : OverrideVersion) (n : Nat) :
    (o.to_vector n).length = n := by
  simp [OverrideVersion.to_vector]

theorem OverrideVersion.to_vector_eq_range (o : OverrideVersion) (n : Nat)
    (hp : o.override_position < n) :
    o.to_vector n =
      (List.range n).map fun i =>
        if i = o.override_position then o.override_version else o.group_version := by
  apply List.ext_getElem
  · simp [OverrideVersion.to_vector]
  · intro i hi1 hi2
    simp only [List.getElem_map, List.getElem_range]
    simp only [OverrideVersion.to_vector_length] at hi1
    unfold OverrideVersion.to_vector
    by_cases h : i = o.override_position
    · subst h
      rw [List.getElem_set_self (by simpa using hp)]
      simp
    · rw [List.getElem_set_ne (fun hc => h hc.symm)]
      simp [h]

theorem replicate_eq_range (n v : Nat) :
    List.replicate n v = (List.range n).map fun _ => v := by
  apply List.ext_getElem
  · simp
  · intro i hi1 hi2
    simp

theorem VersionVector.expand_length (v : VersionVector) :
    v.expand.length = v.num_members := by
  cases v <;> simp [VersionVector.expand, VersionVector.num_members,
    OverrideVersion.to_vector]

theorem VersionVector.expand_ne_nil (v : VersionVector) (hv : v.Valid) :
    v.expand ≠ [] := by
  have h := v.expand_length
  cases v with
  | Full l => exact hv.1
  | Override n o =>
      intro hc
      rw [hc] at h
      simp [VersionVector.num_members] at h
      obtain ⟨h1, _⟩ := hv
      omega
  | Synced n w =>
      intro hc
      rw [hc] at h
      simp [VersionVector.num_members] at h
      obtain ⟨h1, _⟩ := hv
      omega

theorem HappenedBeforeOrdering.reverse_reverse (x : HappenedBeforeOrdering) :
    x.reverse.reverse = x := by
  cases x <;> rfl

/-! ### Generic evaluation of any-over-zip for range-map shaped lists -/

theorem range_map_zip (n : Nat) (f g : Nat → Nat) :
    (((List.range n).map f).zip ((List.range n).map g)) =
      (List.range n).map fun i => (f i, g i) := by
  apply List.ext_getElem
  · simp
  · intro i hi1 hi2
    simp only [List.length_zip, List.length_map, List.length_range, Nat.min_self] at hi1
    rw [List.getElem_zip]
    simp

theorem any_range_map_iff (n : Nat) (f : Nat → Nat × Nat) (p : Nat × Nat → Bool) :
    (((List.range n).map f).any p) = true ↔ ∃ i, i < n ∧ p (f i) = true := by
  rw [List.any_eq_true]
  constructor
  · rintro ⟨x, hx, h⟩
    obtain ⟨i, hi, rfl⟩ := List.mem_map.mp hx
    exact ⟨i, List.mem_range.mp hi, h⟩
  · rintro ⟨i, hi, h⟩
    exact ⟨f i, List.mem_map.mpr ⟨i, List.mem_range.mpr hi, rfl⟩, h⟩

/-- Classify `specHB` once the two direction tests have been rephrased as
propositions. -/
theorem specHB_classify (A B : List Nat) (hlen : A.length = B.length)
    (LT GT : Prop) [Decidable LT] [Decidable GT]
    (hLT : ((A.zip B).any fun p => p.1 < p.2) = true ↔ LT)
    (hGT : ((A.zip B).any fun p => p.2 < p.1) = true ↔ GT) :
    specHB A B =
      if LT ∧ GT then .Concurrent else if LT then .Before
      else if GT then .After else .Equal := by
  unfold specHB
  rw [if_pos hlen]
  by_cases hl : LT <;> by_cases hg : GT
  · have h1 := hLT.mpr hl
    have h2 := hGT.mpr hg
    simp [h1, h2, hl, hg]
  · have h1 := hLT.mpr hl
    have h2 : ((A.zip B).any fun p => p.2 < p.1) = false :=
      Bool.eq_false_iff.mpr fun hx => hg (hGT.mp hx)
    simp [h1, h2, hl, hg]
  · have h1 : ((A.zip B).any fun p => p.1 < p.2) = false :=
      Bool.eq_false_iff.mpr fun hx => hl (hLT.mp hx)
    have h2 := hGT.mpr hg
    simp [h1, h2, hl, hg]
  · have h1 : ((A.zip B).any fun p => p.1 < p.2) = false :=
      Bool.eq_false_iff.mpr fun hx => hl (hLT.mp hx)
    have h2 : ((A.zip B).any fun p => p.2 < p.1) = false :=
      Bool.eq_false_iff.mpr fun hx => hg (hGT.mp hx)
    simp [h1, h2, hl, hg]

/-! ### Index games for the compact representations -/

theorem exists_other_index (n p : Nat) (hn : 1 < n) :
    ∃ j, j < n ∧ j ≠ p := by
  by_cases h : p = 0
  · exact ⟨1, by omega, by omega⟩
  · exact ⟨0, by omega, by omega⟩

theorem exists_third_index (n p q : Nat) (hn2 : 2 < n) :
    ∃ j, j < n ∧ j ≠ p ∧ j ≠ q := by
  by_cases h0 : p = 0 ∨ q = 0
  · by_cases h1 : p = 1 ∨ q = 1
    · exact ⟨2, by omega, by omega, by omega⟩
    · exact ⟨1, by omega, by omega, by omega⟩
  · exact ⟨0, by omega, by omega, by omega⟩

theorem exists_lt_same_pos (n p x y z w : Nat) (hn : 1 < n) (hp : p < n) :
    (∃ i, i < n ∧ (if i = p then x else y) < (if i = p then z else w)) ↔
      (x < z ∨ y < w) := by
  constructor
  · rintro ⟨i, hi, h⟩
    by_cases hip : i = p
    · subst hip; simp only [if_pos rfl] at h; exact Or.inl h
    · simp only [if_neg hip] at h; exact Or.inr h
  · rintro (h | h)
    · exact ⟨p, hp, by simp [h]⟩
    · obtain ⟨j, hj, hjp⟩ := exists_other_index n p hn
      exact ⟨j, hj, by simp [hjp, h]⟩

theorem exists_lt_diff_pos (n p q x y z w : Nat) (hn : 1 < n) (hp : p < n)
    (hq : q < n) (hpq : p ≠ q) :
    (∃ i, i < n ∧ (if i = p then x else y) < (if i = q then z else w)) ↔
      (x < w ∨ y < z ∨ (2 < n ∧ y < w)) := by
  constructor
  · rintro ⟨i, hi, h⟩
    by_cases hip : i = p
    · subst hip
      simp only [if_pos rfl, if_neg hpq] at h
      exact Or.inl h
    · by_cases hiq : i = q
      · subst hiq
        simp only [if_neg hip, if_pos rfl] at h
        exact Or.inr (Or.inl h)
      · simp only [if_neg hip, if_neg hiq] at h
        -- a third index exists, so n > 2
        have h2 : 2 < n := by omega
        exact Or.inr (Or.inr ⟨h2, h⟩)
  · rintro (h | h | ⟨h2, h⟩)
    · exact ⟨p, hp, by simp [hpq, h]⟩
    · have hqp : q ≠ p := fun hc => hpq hc.symm
      exact ⟨q, hq, by simp [hqp, h]⟩
    · obtain ⟨j, hj, hjp, hjq⟩ := exists_third_index n p q h2
      exact ⟨j, hj, by simp [hjp, hjq, h]⟩

theorem exists_lt_pos_const (n p x y s : Nat) (hn : 1 < n) (hp : p < n) :
    (∃ i, i < n ∧ (if i = p then x else y) < s) ↔ (x < s ∨ y < s) := by
  constructor
  · rintro ⟨i, hi, h⟩
    by_cases hip : i = p
    · subst hip; simp only [if_pos rfl] at h; exact Or.inl h
    · simp only [if_neg hip] at h; exact Or.inr h
  · rintro (h | h)
    · exact ⟨p, hp, by simp [h]⟩
    · obtain ⟨j, hj, hjp⟩ := exists_other_index n p hn
      exact ⟨j, hj, by simp [hjp, h]⟩

theorem exists_lt_const_pos (n p s z w : Nat) (hn : 1 < n) (hp : p < n) :
    (∃ i, i < n ∧ s < (if i = p then z else w)) ↔ (s < z ∨ s < w) := by
  constructor
  · rintro ⟨i, hi, h⟩
    by_cases hip : i = p
    · subst hip; simp only [if_pos rfl] at h; exact Or.inl h
    · simp only [if_neg hip] at h; exact Or.inr h
  · rintro (h | h)
    · exact ⟨p, hp, by simp [h]⟩
    · obtain ⟨j, hj, hjp⟩ := exists_other_index n p hn
      exact ⟨j, hj, by simp [hjp, h]⟩

/-! ### The implementation comparators agree with `specHB` -/

theorem full_override_pairs (f : List Nat) (o : OverrideVersion) :
    (f.enum.map fun p =>
        (p.2, if p.1 = o.override_position then o.override_version else o.group_version)) =
      f.zip (o.to_vector f.length) := by
  apply List.ext_getElem
  · simp [OverrideVersion.to_vector]
  · intro i hi1 hi2
    have hif : i < f.length := by simpa using hi1
    rw [List.getElem_zip, List.getElem_map, List.getElem_enum]
    unfold OverrideVersion.to_vector
    rw [List.getElem_set]
    by_cases h : i = o.override_position
    · simp [h]
    · have h2 : o.override_position ≠ i := fun hc => h hc.symm
      simp [h, h2]

theorem hb_full_override_spec (f : List Nat) (o : OverrideVersion) (hf : f ≠ []) :
    hb_compare_full_override f o = specHB f (o.to_vector f.length) := by
  rw [specHB_eq_hbLoop f (o.to_vector f.length)
    (by simp [OverrideVersion.to_vector]) hf]
  unfold hb_compare_full_override
  rw [full_override_pairs]

theorem full_synced_pairs (f : List Nat) (s : Nat) :
    (f.map fun v => (v, s)) = f.zip (List.replicate f.length s) := by
  apply List.ext_getElem
  · simp
  · intro i hi1 hi2
    have hif : i < f.length := by simpa using hi1
    rw [List.getElem_zip, List.getElem_map, List.getElem_replicate]

theorem hb_full_synced_spec (f : List Nat) (s : Nat) (hf : f ≠ []) :
    hb_compare_full_synced f s = specHB f (List.replicate f.length s) := by
  rw [specHB_eq_hbLoop f (List.replicate f.length s) (by simp) hf]
  unfold hb_compare_full_synced
  rw [full_synced_pairs]

theorem pureHbCmp_spec (a b : List Nat) : pureHbCmp a b = specHB a b := by
  unfold pureHbCmp
  by_cases hlen : a.length = b.length
  · rw [if_pos hlen]
    by_cases hemp : a.isEmpty
    · have ha : a = [] := List.isEmpty_iff.mp hemp
      have hb : b = [] := List.length_eq_zero.mp (by rw [← hlen, ha]; rfl)
      subst ha hb
      simp [specHB]
    · have hne : a ≠ [] := fun hc => hemp (by simp [hc])
      rw [if_neg hemp, specHB_eq_hbLoop a b hlen hne]
  · rw [if_neg hlen]
    unfold specHB
    rw [if_neg hlen]

theorem hb_override_override_spec (n : Nat) (a b : OverrideVersion) (hn : 1 < n)
    (hpa : a.override_position < n) (hpb : b.override_position < n)
    (hva : a.is_valid) (hvb : b.is_valid) :
    a.hb_cmp b = specHB (a.to_vector n) (b.to_vector n) := by
  unfold OverrideVersion.is_valid at hva hvb
  by_cases hpos : a.override_position = b.override_position
  · -- same override position
    rw [specHB_classify (a.to_vector n) (b.to_vector n)
        (by simp [OverrideVersion.to_vector])
        (a.override_version < b.override_version ∨ a.group_version < b.group_version)
        (b.override_version < a.override_version ∨ b.group_version < a.group_version)
        ?_ ?_]
    · unfold OverrideVersion.hb_cmp
      rw [if_pos hpos]
      rcases hg : natCmp a.group_version b.group_version with _ | _ | _ <;>
        rcases ho : natCmp a.override_version b.override_version with _ | _ | _ <;>
        simp only [natCmp_eq_lt, natCmp_eq_eq, natCmp_eq_gt] at hg ho <;>
        simp only [HappenedBeforeOrdering.ofOrdering] <;>
        split_ifs <;> first | rfl | omega
    · rw [OverrideVersion.to_vector_eq_range a n hpa,
        OverrideVersion.to_vector_eq_range b n hpb, ← hpos, range_map_zip,
        any_range_map_iff]
      simp only [decide_eq_true_eq]
      rw [exists_lt_same_pos n a.override_position _ _ _ _ hn hpa]
    · rw [OverrideVersion.to_vector_eq_range a n hpa,
        OverrideVersion.to_vector_eq_range b n hpb, ← hpos, range_map_zip,
        any_range_map_iff]
      simp only [decide_eq_true_eq]
      rw [exists_lt_same_pos n a.override_position _ _ _ _ hn hpa]
  · -- different override positions
    rw [specHB_classify (a.to_vector n) (b.to_vector n)
        (by simp [OverrideVersion.to_vector])
        (a.override_version < b.group_version ∨ a.group_version < b.override_version ∨
          (2 < n ∧ a.group_version < b.group_version))
        (b.override_version < a.group_version ∨ b.group_version < a.override_version ∨
          (2 < n ∧ b.group_version < a.group_version))
        ?_ ?_]
    · unfold OverrideVersion.hb_cmp
      rw [if_neg hpos]
      rcases h1 : natCmp a.override_version b.group_version with _ | _ | _ <;>
        rcases h2 : natCmp b.override_version a.group_version with _ | _ | _ <;>
        simp only [natCmp_eq_lt, natCmp_eq_eq, natCmp_eq_gt] at h1 h2 <;>
        split_ifs <;> first | rfl | omega
    · rw [OverrideVersion.to_vector_eq_range a n hpa,
        OverrideVersion.to_vector_eq_range b n hpb, range_map_zip,
        any_range_map_iff]
      simp only [decide_eq_true_eq]
      rw [exists_lt_diff_pos n a.override_position b.override_position _ _ _ _ hn hpa
        hpb hpos]
    · rw [OverrideVersion.to_vector_eq_range a n hpa,
        OverrideVersion.to_vector_eq_range b n hpb, range_map_zip,
        any_range_map_iff]
      simp only [decide_eq_true_eq]
      constructor
      · rintro ⟨i, hi, h⟩
        by_cases hia : i = a.override_position
        · subst hia
          simp only [if_pos rfl, if_neg hpos] at h
          exact Or.inr (Or.inl h)
        · by_cases hib : i = b.override_position
          · subst hib
            simp only [if_neg hia, if_pos rfl] at h
            exact Or.inl h
          · simp only [if_neg hia, if_neg hib] at h
            have h2 : 2 < n := by omega
            exact Or.inr (Or.inr ⟨h2, h⟩)
      · rintro (h | h | ⟨h2, h⟩)
        · have hba : b.override_position ≠ a.override_position :=
            fun hc => hpos hc.symm
          exact ⟨b.override_position, hpb, by simp [hba, h]⟩
        · exact ⟨a.override_position, hpa, by simp [hpos, h]⟩
        · obtain ⟨j, hj, hja, hjb⟩ :=
            exists_third_index n a.override_position b.override_position h2
          exact ⟨j, hj, by simp [hja, hjb, h]⟩

theorem hb_override_synced_spec (n : Nat) (o : OverrideVersion) (s : Nat) (hn : 1 < n)
    (hp : o.override_position < n) (hv : o.is_valid) :
    hb_compare_override_synced o s = specHB (o.to_vector n) (List.replicate n s) := by
  unfold OverrideVersion.is_valid at hv
  rw [specHB_classify (o.to_vector n) (List.replicate n s)
      (by simp [OverrideVersion.to_vector])
      (o.override_version < s ∨ o.group_version < s)
      (s < o.override_version ∨ s < o.group_version)
      ?_ ?_]
  · unfold hb_compare_override_synced
    rcases h1 : natCmp o.group_version s with _ | _ | _ <;>
      [rcases h2 : natCmp o.override_version s with _ | _ | _; skip; skip] <;>
      simp only [natCmp_eq_lt, natCmp_eq_eq, natCmp_eq_gt] at * <;>
      split_ifs <;> first | rfl | omega
  · rw [OverrideVersion.to_vector_eq_range o n hp, replicate_eq_range, range_map_zip,
      any_range_map_iff]
    simp only [decide_eq_true_eq]
    rw [exists_lt_pos_const n o.override_position _ _ _ hn hp]
  · rw [OverrideVersion.to_vector_eq_range o n hp, replicate_eq_range, range_map_zip,
      any_range_map_iff]
    simp only [decide_eq_true_eq]
    rw [exists_lt_const_pos n o.override_position _ _ _ hn hp]

theorem hb_synced_synced_spec (n v1 v2 : Nat) (hn : 0 < n) :
    HappenedBeforeOrdering.ofOrdering (natCmp v1 v2) =
      specHB (List.replicate n v1) (List.replicate n v2) := by
  rw [specHB_classify (List.replicate n v1) (List.replicate n v2) (by simp)
      (v1 < v2) (v2 < v1) ?_ ?_]
  · rcases h : natCmp v1 v2 with _ | _ | _ <;>
      simp only [natCmp_eq_lt, natCmp_eq_eq, natCmp_eq_gt] at h <;>
      simp only [HappenedBeforeOrdering.ofOrdering] <;>
      split_ifs <;> first | rfl | omega
  · rw [replicate_eq_range, replicate_eq_range, range_map_zip, any_range_map_iff]
    simp only [decide_eq_true_eq]
    constructor
    · rintro ⟨i, _, h⟩; exact h
    · intro h; exact ⟨0, hn, h⟩
  · rw [replicate_eq_range, replicate_eq_range, range_map_zip, any_range_map_iff]
    simp only [decide_eq_true_eq]
    constructor
    · rintro ⟨i, _, h⟩; exact h
    · intro h; exact ⟨0, hn, h⟩

/-- The central refinement lemma: on valid vectors, `hb_cmp` (with all its
specialised compact paths) computes the pointwise happened-before comparison
of the full expansions. -/
theorem hb_cmp_eq_specHB (a b : VersionVector) (ha : a.Valid) (hb : b.Valid) :
    a.hb_cmp b = specHB a.expand b.expand := by
  unfold VersionVector.hb_cmp
  by_cases hnm : a.num_members = b.num_members
  · rw [if_neg (by simpa using hnm)]
    have hlen : a.expand.length = b.expand.length := by
      rw [a.expand_length, b.expand_length, hnm]
    cases a with
    | Full v1 =>
        cases b with
        | Full v2 =>
            show pureHbCmp v1 v2 = specHB v1 v2
            exact pureHbCmp_spec v1 v2
        | Override n2 o2 =>
            have hne : v1 ≠ [] := ha.1
            have hlen1 : v1.length = n2 := by simpa [VersionVector.num_members] using hnm
            show hb_compare_full_override v1 o2 = specHB v1 (o2.to_vector n2)
            rw [← hlen1]
            exact hb_full_override_spec v1 o2 hne
        | Synced n2 s2 =>
            have hne : v1 ≠ [] := ha.1
            have hlen1 : v1.length = n2 := by simpa [VersionVector.num_members] using hnm
            show hb_compare_full_synced v1 s2 = specHB v1 (List.replicate n2 s2)
            rw [← hlen1]
            exact hb_full_synced_spec v1 s2 hne
    | Override n1 o1 =>
        obtain ⟨hn1, hvo1, hp1, _⟩ := ha
        cases b with
        | Full v2 =>
            have hne : v2 ≠ [] := hb.1
            have hlen1 : v2.length = n1 := by simpa [VersionVector.num_members] using hnm.symm
            show (hb_compare_full_override v2 o1).reverse = specHB (o1.to_vector n1) v2
            rw [specHB_reverse (o1.to_vector n1) v2, ← hlen1]
            exact congrArg HappenedBeforeOrdering.reverse (hb_full_override_spec v2 o1 hne)
        | Override n2 o2 =>
            obtain ⟨hn2, hvo2, hp2, _⟩ := hb
            have hnn : n1 = n2 := by simpa [VersionVector.num_members] using hnm
            subst hnn
            show o1.hb_cmp o2 = specHB (o1.to_vector n1) (o2.to_vector n1)
            exact hb_override_override_spec n1 o1 o2 hn1 hp1 hp2 hvo1 hvo2
        | Synced n2 s2 =>
            have hnn : n1 = n2 := by simpa [VersionVector.num_members] using hnm
            subst hnn
            show hb_compare_override_synced o1 s2 =
              specHB (o1.to_vector n1) (List.replicate n1 s2)
            exact hb_override_synced_spec n1 o1 s2 hn1 hp1 hvo1
    | Synced n1 s1 =>
        obtain ⟨hn1, _⟩ := ha
        cases b with
        | Full v2 =>
            have hne : v2 ≠ [] := hb.1
            have hlen1 : v2.length = n1 := by simpa [VersionVector.num_members] using hnm.symm
            show (hb_compare_full_synced v2 s1).reverse = specHB (List.replicate n1 s1) v2
            rw [specHB_reverse (List.replicate n1 s1) v2, ← hlen1]
            exact congrArg HappenedBeforeOrdering.reverse (hb_full_synced_spec v2 s1 hne)
        | Override n2 o2 =>
            obtain ⟨hn2, hvo2, hp2, _⟩ := hb
            have hnn : n1 = n2 := by simpa [VersionVector.num_members] using hnm
            subst hnn
            show (hb_compare_override_synced o2 s1).reverse =
              specHB (List.replicate n1 s1) (o2.to_vector n1)
            rw [specHB_reverse (List.replicate n1 s1) (o2.to_vector n1)]
            exact congrArg HappenedBeforeOrdering.reverse
              (hb_override_synced_spec n1 o2 s1 hn2 hp2 hvo2)
        | Synced n2 s2 =>
            have hnn : n1 = n2 := by simpa [VersionVector.num_members] using hnm
            subst hnn
            show HappenedBeforeOrdering.ofOrdering (natCmp s1 s2) =
              specHB (List.replicate n1 s1) (List.replicate n1 s2)
            exact hb_synced_synced_spec n1 s1 s2 hn1
  · rw [if_pos (by simpa using hnm)]
    unfold specHB
    rw [if_neg (by rw [a.expand_length, b.expand_length]; exact hnm)]

/-! ### Properties of `specHB` used by the partial-order claims -/

theorem any_zip_iff (a b : List Nat) (p : Nat × Nat → Bool) :
    ((a.zip b).any p) = true ↔
      ∃ i, ∃ _h1 : i < a.length, ∃ _h2 : i < b.length, p (a[i], b[i]) = true := by
  rw [List.any_eq_true]
  constructor
  · rintro ⟨pr, hpr, hp⟩
    obtain ⟨i, hi, hget⟩ := List.getElem_of_mem hpr
    have h1 : i < a.length := by simp only [List.length_zip] at hi; omega
    have h2 : i < b.length := by simp only [List.length_zip] at hi; omega
    have : pr = (a[i], b[i]) := by rw [← hget, List.getElem_zip]
    exact ⟨i, h1, h2, this ▸ hp⟩
  · rintro ⟨i, h1, h2, hp⟩
    have hi : i < (a.zip b).length := by simp only [List.length_zip]; omega
    have : (a.zip b)[i] = (a[i], b[i]) := List.getElem_zip ..
    exact ⟨(a[i], b[i]), this ▸ List.getElem_mem hi, hp⟩

theorem specHB_self (a : List Nat) : specHB a a = .Equal := by
  unfold specHB
  rw [if_pos rfl]
  have h : ((a.zip a).any fun p => p.1 < p.2) = false := by
    rw [Bool.eq_false_iff]
    intro hc
    obtain ⟨i, h1, h2, hp⟩ := (any_zip_iff a a _).mp hc
    simp at hp
  have h2 : ((a.zip a).any fun p => p.2 < p.1) = false := by
    rw [Bool.eq_false_iff]
    intro hc
    obtain ⟨i, h1, h2, hp⟩ := (any_zip_iff a a _).mp hc
    simp at hp
  simp [h, h2]

/-- A `specHB` result of `Before` means: equal lengths, some strictly smaller
slot, and no strictly larger slot. -/
theorem specHB_before_iff (a b : List Nat) :
    specHB a b = .Before ↔
      a.length = b.length ∧
        ((a.zip b).any fun p => p.1 < p.2) = true ∧
        ((a.zip b).any fun p => p.2 < p.1) = false := by
  unfold specHB
  by_cases hlen : a.length = b.length
  · rw [if_pos hlen]
    by_cases l : ((a.zip b).any fun p => p.1 < p.2) = true <;>
      by_cases g : ((a.zip b).any fun p => p.2 < p.1) = true
    · simp [l, g, hlen]
    · simp [l, Bool.eq_false_iff.mpr g, hlen]
    · simp [Bool.eq_false_iff.mpr l, g, hlen]
    · simp [Bool.eq_false_iff.mpr l, Bool.eq_false_iff.mpr g, hlen]
  · rw [if_neg hlen]
    simp [hlen]

theorem listGetD_eq (l : List Nat) (i : Nat) (h : i < l.length) : l.getD i 0 = l[i] := by
  rw [List.getD_eq_getElem?_getD, List.getElem?_eq_getElem h]
  rfl

theorem specHB_trans_before (a b c : List Nat) (hab : specHB a b = .Before)
    (hbc : specHB b c = .Before) : specHB a c = .Before := by
  obtain ⟨hlab, hLab, hGab⟩ := (specHB_before_iff a b).mp hab
  obtain ⟨hlbc, hLbc, hGbc⟩ := (specHB_before_iff b c).mp hbc
  have hab_le : ∀ i, i < a.length → i < b.length → a.getD i 0 ≤ b.getD i 0 := by
    intro i h1 h2
    by_contra hlt
    push_neg at hlt
    rw [listGetD_eq b i h2, listGetD_eq a i h1] at hlt
    have hx : ((a.zip b).any fun p => p.2 < p.1) = true :=
      (any_zip_iff a b _).mpr ⟨i, h1, h2, by simpa using hlt⟩
    rw [hx] at hGab
    simp at hGab
  have hbc_le : ∀ i, i < b.length → i < c.length → b.getD i 0 ≤ c.getD i 0 := by
    intro i h1 h2
    by_contra hlt
    push_neg at hlt
    rw [listGetD_eq c i h2, listGetD_eq b i h1] at hlt
    have hx : ((b.zip c).any fun p => p.2 < p.1) = true :=
      (any_zip_iff b c _).mpr ⟨i, h1, h2, by simpa using hlt⟩
    rw [hx] at hGbc
    simp at hGbc
  obtain ⟨i, hi1, hi2, hip⟩ := (any_zip_iff a b _).mp hLab
  simp only [decide_eq_true_eq] at hip
  rw [← listGetD_eq a i hi1, ← listGetD_eq b i hi2] at hip
  have hic : i < c.length := by omega
  refine (specHB_before_iff a c).mpr ⟨hlab.trans hlbc, ?_, ?_⟩
  · refine (any_zip_iff a c _).mpr ⟨i, hi1, hic, ?_⟩
    simp only [decide_eq_true_eq]
    rw [← listGetD_eq a i hi1, ← listGetD_eq c i hic]
    have := hbc_le i hi2 hic
    omega
  · rw [Bool.eq_false_iff]
    intro hx
    obtain ⟨j, hj1, hj2, hjp⟩ := (any_zip_iff a c _).mp hx
    simp only [decide_eq_true_eq] at hjp
    rw [← listGetD_eq a j hj1, ← listGetD_eq c j hj2] at hjp
    have hj3 : j < b.length := by omega
    have h1 := hab_le j hj1 hj3
    have h2 := hbc_le j hj3 hj2
    omega

/-! ### Claim theorems for the version-vector subsystem -/

theorem expand_getD_override_pos (o : OverrideVersion) (n : Nat)
    (hp : o.override_position < n) :
    (o.to_vector n).getD o.override_position 0 = o.override_version := by
  rw [listGetD_eq _ _ (by rw [OverrideVersion.to_vector_length]; exact hp)]
  unfold OverrideVersion.to_vector
  rw [List.getElem_set_self (by simpa using hp)]

theorem expand_getD_override_ne (o : OverrideVersion) (n q : Nat) (hq : q < n)
    (hne : q ≠ o.override_position) :
    (o.to_vector n).getD q 0 = o.group_version := by
  have hlen : q < (o.to_vector n).length := by
    rw [OverrideVersion.to_vector_length]
    exact hq
  rw [listGetD_eq _ _ hlen]
  unfold OverrideVersion.to_vector
  rw [List.getElem_set_ne (fun hc => hne hc.symm)]
  exact List.getElem_replicate ..

theorem expand_getD_replicate (n v q : Nat) (hq : q < n) :
    (List.replicate n v).getD q 0 = v := by
  rw [listGetD_eq _ _ (by simpa using hq)]
  exact List.getElem_replicate ..

theorem increment_at_synced_one (v : Nat) (hv : v < U64_MAX) :
    (VersionVector.Synced 1 v).increment_at 0 = some (.Synced 1 (v + 1)) := by
  have hmod : (v + 1) % 2 ^ 64 = v + 1 := by
    apply Nat.mod_eq_of_lt
    unfold U64_MAX at hv
    omega
  simp only [VersionVector.increment_at]
  rw [if_pos (by omega), if_pos trivial, hmod]

theorem increment_at_synced_many (n v pos : Nat) (hn : 1 < n) (hpos : pos < n)
    (hv : v < U64_MAX) :
    (VersionVector.Synced n v).increment_at pos =
      some (.Override n ⟨v, pos, v + 1⟩) := by
  simp only [VersionVector.increment_at]
  rw [if_pos hpos, if_neg (by omega), if_neg (by omega)]

theorem increment_at_override_same (n : Nat) (o : OverrideVersion)
    (hp : o.override_position < n) (hov : o.override_version < U64_MAX) :
    (VersionVector.Override n o).increment_at o.override_position =
      some (.Override n { o with override_version := o.override_version + 1 }) := by
  simp only [VersionVector.increment_at]
  rw [if_pos hp, if_pos trivial, if_neg (by omega)]

theorem increment_at_override_other (n : Nat) (o : OverrideVersion) (q : Nat)
    (hq : q < n) (hne : q ≠ o.override_position) (hgv : o.group_version < U64_MAX) :
    (VersionVector.Override n o).increment_at q =
      some (.Full ((o.to_vector n).set q (o.group_version + 1))) := by
  simp only [VersionVector.increment_at]
  rw [if_pos hq, if_neg hne]
  have hlen : q < (o.to_vector n).length := by
    rw [OverrideVersion.to_vector_length]
    exact hq
  have hget : (o.to_vector n)[q] = o.group_version := by
    have hgd := expand_getD_override_ne o n q hq hne
    rw [listGetD_eq _ _ hlen] at hgd
    exact hgd
  rw [dif_pos hlen]
  rw [hget]
  rw [if_neg (by omega)]

theorem increment_at_full (v : List Nat) (q : Nat) (hq : q < v.length)
    (hv : v.getD q 0 < U64_MAX) :
    (VersionVector.Full v).increment_at q =
      some (.Full (v.set q (v.getD q 0 + 1))) := by
  simp only [VersionVector.increment_at]
  rw [dif_pos hq]
  have hgd : v[q] = v.getD q 0 := (listGetD_eq v q hq).symm
  rw [hgd]
  rw [if_neg (by omega)]

/-- C5: `increment_at` (and `succ_at`) follows the representation-widening
rules: `Synced{1,v}` stays `Synced`; `Synced{n>1,v}` at `pos` becomes
`Override{base=v, pos, ahead=v+1}`; an `Override` incremented at its own
position bumps `ahead`; an `Override` incremented elsewhere expands to `Full`
and increments that slot; `Full` increments the slot directly. The observed
per-member values are the old values with exactly slot `pos` raised by one,
and the Seed D scenario behaves as specified. -/
theorem C5_increment_widening :
    (∀ v, v < U64_MAX →
      (VersionVector.Synced 1 v).increment_at 0 = some (.Synced 1 (v + 1))) ∧
    (∀ n v pos, 1 < n → pos < n → v < U64_MAX →
      (VersionVector.Synced n v).increment_at pos =
        some (.Override n ⟨v, pos, v + 1⟩)) ∧
    (∀ n o, o.override_position < n → o.override_version < U64_MAX →
      (VersionVector.Override n o).increment_at o.override_position =
        some (.Override n { o with override_version := o.override_version + 1 })) ∧
    (∀ n o q, q < n → q ≠ o.override_position → o.group_version < U64_MAX →
      (VersionVector.Override n o).increment_at q =
        some (.Full ((o.to_vector n).set q (o.group_version + 1)))) ∧
    (∀ (v : List Nat) q, q < v.length → v.getD q 0 < U64_MAX →
      (VersionVector.Full v).increment_at q =
        some (.Full (v.set q (v.getD q 0 + 1)))) ∧
    (∀ (v : VersionVector) pos w, v.Valid → pos < v.num_members →
      v.expand.getD pos 0 < U64_MAX → v.increment_at pos = some w →
      w.expand = v.expand.set pos (v.expand.getD pos 0 + 1)) ∧
    ((VersionVector.Synced 3 1).succ_at 0 =
        some (.Override 3 ⟨1, 0, 2⟩) ∧
      (VersionVector.Override 3 ⟨1, 0, 2⟩).succ_at 1 = some (.Full [2, 2, 1])) := by
  refine ⟨increment_at_synced_one,
    fun n v pos hn hpos hv => increment_at_synced_many n v pos hn hpos hv,
    fun n o hp hov => increment_at_override_same n o hp hov,
    fun n o q hq hne hgv => increment_at_override_other n o q hq hne hgv,
    fun v q hq hv => increment_at_full v q hq hv, ?_, ?_, ?_⟩
  · intro v pos w hval hpos hnov happ
    cases v with
    | Full l =>
        simp only [VersionVector.num_members] at hpos
        simp only [VersionVector.expand] at hnov ⊢
        rw [increment_at_full l pos hpos hnov] at happ
        cases happ
        simp [VersionVector.expand]
    | Override n o =>
        obtain ⟨hn, hvo, hp, hub⟩ := hval
        unfold OverrideVersion.is_valid at hvo
        simp only [VersionVector.num_members] at hpos
        simp only [VersionVector.expand] at hnov ⊢
        by_cases hpe : pos = o.override_position
        · subst hpe
          rw [expand_getD_override_pos o n hp] at hnov ⊢
          rw [increment_at_override_same n o hp hnov] at happ
          cases happ
          simp only [VersionVector.expand]
          unfold OverrideVersion.to_vector
          rw [List.set_set]
        · rw [expand_getD_override_ne o n pos hpos hpe] at hnov ⊢
          rw [increment_at_override_other n o pos hpos hpe hnov] at happ
          cases happ
          simp [VersionVector.expand]
    | Synced n s =>
        obtain ⟨hn, hub⟩ := hval
        simp only [VersionVector.num_members] at hpos
        simp only [VersionVector.expand] at hnov ⊢
        rw [expand_getD_replicate n s pos hpos] at hnov ⊢
        by_cases h1 : n = 1
        · subst h1
          have hpos0 : pos = 0 := by omega
          subst hpos0
          rw [increment_at_synced_one s hnov] at happ
          cases happ
          simp [VersionVector.expand]
        · rw [increment_at_synced_many n s pos (by omega) hpos hnov] at happ
          cases happ
          simp [VersionVector.expand, OverrideVersion.to_vector]
  · decide
  · decide

/-- C5 witness: the rules evaluated at concrete inputs. -/
theorem C5_increment_widening_witness :
    (VersionVector.Synced 1 5).increment_at 0 = some (.Synced 1 6) ∧
    (VersionVector.Synced 3 1).increment_at 0 =
      some (.Override 3 ⟨1, 0, 2⟩) ∧
    (VersionVector.Override 3 ⟨1, 0, 2⟩).increment_at 0 =
      some (.Override 3 ⟨1, 0, 3⟩) ∧
    (VersionVector.Override 3 ⟨1, 0, 2⟩).increment_at 1 =
      some (.Full [2, 2, 1]) ∧
    (VersionVector.Full [2, 2, 1]).increment_at 2 = some (.Full [2, 2, 2]) ∧
    (VersionVector.Full [2, 3, 1]).expand = [2, 3, 1] := by
  refine ⟨C5_increment_widening.1 5 (by decide),
    C5_increment_widening.2.1 3 1 0 (by decide) (by decide) (by decide),
    C5_increment_widening.2.2.1 3 ⟨1, 0, 2⟩ (by decide) (by decide), ?_, ?_, ?_⟩
  · have h := C5_increment_widening.2.2.2.1 3 ⟨1, 0, 2⟩ 1 (by decide) (by decide)
      (by decide)
    rw [h]
    decide
  · have h := C5_increment_widening.2.2.2.2.1 [2, 2, 1] 2 (by decide) (by decide)
    rw [h]
    decide
  · have h := C5_increment_widening.2.2.2.2.2.1 (.Full [2, 2, 1]) 1
      (.Full [2, 3, 1]) (by decide) (by decide) (by decide) (by decide)
    rw [h]
    decide

/-- C6: on valid vectors of equal member count, `hb_cmp` is antisymmetric
under `reverse`, reflexive, and transitive on `Before`, across all
representation mixes. -/
theorem C6_hb_cmp_partial_order (a b c : VersionVector) (ha : a.Valid)
    (hb : b.Valid) (hc : c.Valid) (hab : a.num_members = b.num_members)
    (hbc : b.num_members = c.num_members) :
    a.hb_cmp b = (b.hb_cmp a).reverse ∧
    a.hb_cmp a = .Equal ∧
    (a.hb_cmp b = .Before → b.hb_cmp c = .Before → a.hb_cmp c = .Before) := by
  refine ⟨?_, ?_, ?_⟩
  · rw [hb_cmp_eq_specHB a b ha hb, hb_cmp_eq_specHB b a hb ha]
    exact specHB_reverse _ _
  · rw [hb_cmp_eq_specHB a a ha ha]
    exact specHB_self _
  · rw [hb_cmp_eq_specHB a b ha hb, hb_cmp_eq_specHB b c hb hc,
      hb_cmp_eq_specHB a c ha hc]
    exact specHB_trans_before _ _ _

/-- C6 witness: the partial-order laws applied at concrete vectors. -/
theorem C6_hb_cmp_partial_order_witness :
    (VersionVector.Synced 2 3).hb_cmp (.Override 2 ⟨3, 0, 4⟩) =
      ((VersionVector.Override 2 ⟨3, 0, 4⟩).hb_cmp (.Synced 2 3)).reverse ∧
    (VersionVector.Synced 2 3).hb_cmp (.Synced 2 3) = .Equal ∧
    ((VersionVector.Synced 2 3).hb_cmp (.Override 2 ⟨3, 0, 4⟩) = .Before →
      (VersionVector.Override 2 ⟨3, 0, 4⟩).hb_cmp (.Full [5, 5]) = .Before →
      (VersionVector.Synced 2 3).hb_cmp (.Full [5, 5]) = .Before) := by
  exact C6_hb_cmp_partial_order (.Synced 2 3) (.Override 2 ⟨3, 0, 4⟩)
    (.Full [5, 5]) (by decide) (by decide) (by decide) (by decide) (by decide)

/-- C7: on valid vectors, `hb_cmp` across all representation pairs equals the
pointwise happened-before comparison of the full expansions; two
representations with identical expansions compare `Equal`; different member
counts compare `Incomparable`. -/
theorem C7_representation_equivalence (a b : VersionVector) (ha : a.Valid)
    (hb : b.Valid) :
    a.hb_cmp b = specHB a.expand b.expand ∧
    (a.expand = b.expand → a.hb_cmp b = .Equal) ∧
    (a.num_members ≠ b.num_members → a.hb_cmp b = .Incomparable) := by
  refine ⟨hb_cmp_eq_specHB a b ha hb, ?_, ?_⟩
  · intro h
    rw [hb_cmp_eq_specHB a b ha hb, h]
    exact specHB_self _
  · intro h
    unfold VersionVector.hb_cmp
    rw [if_pos (by simpa using h)]

/-- C7 witness: a `Synced`, an `Override` and a `Full` vector with the same
expansion compare `Equal`, and a length mismatch yields `Incomparable`. -/
theorem C7_representation_equivalence_witness :
    (VersionVector.Synced 3 4).hb_cmp (.Full [4, 4, 4]) =
      specHB (VersionVector.Synced 3 4).expand (VersionVector.Full [4, 4, 4]).expand ∧
    (VersionVector.Override 3 ⟨4, 1, 7⟩).hb_cmp (.Full [4, 7, 4]) = .Equal ∧
    (VersionVector.Synced 2 4).hb_cmp (.Full [4, 4, 4]) = .Incomparable := by
  refine ⟨(C7_representation_equivalence (.Synced 3 4) (.Full [4, 4, 4])
      (by decide) (by decide)).1, ?_, ?_⟩
  · exact (C7_representation_equivalence (.Override 3 ⟨4, 1, 7⟩) (.Full [4, 7, 4])
      (by decide) (by decide)).2.1 (by decide)
  · exact (C7_representation_equivalence (.Synced 2 4) (.Full [4, 4, 4])
      (by decide) (by decide)).2.2 (by decide)

/-- C8: the claim says every representation panics when an in-range slot at
`u64::MAX` is incremented. The embedding shows this holds for `Full`,
`Override` and multi-member `Synced` vectors (`checked_add` + `expect`), but
the single-member `Synced` branch uses an unchecked `+= 1`, which wraps to 0
modulo `2^64` in release builds instead of aborting. -/
theorem C8_overflow_behaviour :
    (VersionVector.Synced 1 U64_MAX).increment_at 0 = some (.Synced 1 0) ∧
    (VersionVector.Synced 2 U64_MAX).increment_at 0 = none ∧
    (VersionVector.Synced 2 U64_MAX).increment_at 1 = none ∧
    (VersionVector.Override 2 ⟨5, 0, U64_MAX⟩).increment_at 0 = none ∧
    (VersionVector.Full [U64_MAX]).increment_at 0 = none ∧
    (VersionVector.Full [3, U64_MAX]).increment_at 1 = none := by
  refine ⟨?_, ?_, ?_, ?_, ?_, ?_⟩ <;> decide

/-! ### Map-model lemmas for `missing_to` (C4) -/

theorem mapLookup_map_replace_ne (m : MissingMap) (k : Member) (v : List Nat)
    (k2 : Member) (h : k2 ≠ k) :
    mapLookup (m.map fun p => if p.1 = k then (k, v) else p) k2 = mapLookup m k2 := by
  induction m with
  | nil => rfl
  | cons p m' ih =>
      simp only [List.map_cons]
      unfold mapLookup at *
      have hkk2 : ¬k = k2 := fun hc => h hc.symm
      by_cases hp : p.1 = k
      · rw [if_pos hp]
        rw [List.find?_cons_of_neg _ (by simpa using hkk2),
          List.find?_cons_of_neg _ (by rw [hp]; simpa using hkk2)]
        exact ih
      · rw [if_neg hp]
        by_cases hp2 : p.1 = k2
        · rw [List.find?_cons_of_pos _ (by simp [hp2]),
            List.find?_cons_of_pos _ (by simp [hp2])]
        · rw [List.find?_cons_of_neg _ (by simp [hp2]),
            List.find?_cons_of_neg _ (by simp [hp2])]
          exact ih

theorem mapLookup_map_replace_self (m : MissingMap) (k : Member) (v : List Nat)
    (hany : (m.any fun p => p.1 = k) = true) :
    mapLookup (m.map fun p => if p.1 = k then (k, v) else p) k = some v := by
  induction m with
  | nil => simp at hany
  | cons p m' ih =>
      simp only [List.map_cons]
      unfold mapLookup at *
      by_cases hp : p.1 = k
      · rw [if_pos hp, List.find?_cons_of_pos _ (by simp)]
        rfl
      · rw [if_neg hp, List.find?_cons_of_neg _ (by simp [hp])]
        simp only [List.any_cons, Bool.or_eq_true, decide_eq_true_eq] at hany
        exact ih (by simp [hany.resolve_left hp])

theorem mapLookup_mapInsert (m : MissingMap) (k : Member) (v : List Nat)
    (k2 : Member) :
    mapLookup (mapInsert m k v) k2 = if k2 = k then some v else mapLookup m k2 := by
  unfold mapInsert
  by_cases hany : (m.any fun p => p.1 = k) = true
  · rw [if_pos hany]
    by_cases hk : k2 = k
    · subst hk
      rw [if_pos rfl]
      exact mapLookup_map_replace_self m k2 v hany
    · rw [if_neg hk]
      exact mapLookup_map_replace_ne m k v k2 hk
  · rw [if_neg hany]
    unfold mapLookup
    rw [List.find?_append]
    have hnone : (m.find? fun p => p.1 = k) = none := by
      rw [List.find?_eq_none]
      intro p hp
      simp only [List.any_eq_true, decide_eq_true_eq] at hany
      simp only [decide_eq_true_eq]
      exact fun hc => hany ⟨p, hp, by simp [hc]⟩
    by_cases hk : k2 = k
    · subst hk
      rw [hnone]
      simp [List.find?]
    · by_cases hfind : (m.find? fun p => p.1 = k2).isSome
      · obtain ⟨p, hp⟩ := Option.isSome_iff_exists.mp hfind
        rw [hp, if_neg hk]
        rfl
      · have h2 : (m.find? fun p => p.1 = k2) = none :=
          Option.not_isSome_iff_eq_none.mp hfind
        rw [h2, if_neg hk]
        have hkk2 : ¬k = k2 := fun hc => hk hc.symm
        have hfalse : decide (k = k2) = false := by simpa using hkk2
        simp [List.find?, hfalse]

theorem mapLookup_mapRemove (m : MissingMap) (k k2 : Member) :
    mapLookup (mapRemove m k) k2 = if k2 = k then none else mapLookup m k2 := by
  unfold mapRemove mapLookup
  induction m with
  | nil => simp [List.find?]
  | cons p m' ih =>
      by_cases hp : p.1 = k
      · rw [List.filter_cons_of_neg (by simp [hp])]
        by_cases hk : k2 = k
        · rw [ih]
          simp [hk]
        · have hkk2 : ¬k = k2 := fun hc => hk hc.symm
          rw [List.find?_cons_of_neg _ (by rw [hp]; simpa using hkk2), ih]
      · rw [List.filter_cons_of_pos (by simp [hp])]
        by_cases hp2 : p.1 = k2
        · rw [List.find?_cons_of_pos _ (by simp [hp2]),
            List.find?_cons_of_pos _ (by simp [hp2])]
          have hk : ¬k2 = k := fun hc => hp (hp2.trans hc)
          rw [if_neg hk]
        · rw [List.find?_cons_of_neg _ (by simp [hp2]),
            List.find?_cons_of_neg _ (by simp [hp2])]
          exact ih

theorem mapLookup_members_map (members : List Member) (miss : List Nat)
    (k : Member) :
    mapLookup (members.map fun id => (id, miss)) k =
      if k ∈ members then some miss else none := by
  induction members with
  | nil => rfl
  | cons m ms ih =>
      simp only [List.map_cons]
      unfold mapLookup at *
      by_cases hm : m = k
      · rw [List.find?_cons_of_pos _ (by simp [hm])]
        simp [hm]
      · rw [List.find?_cons_of_neg _ (by simp [hm])]
        rw [ih]
        by_cases hk : k ∈ ms
        · simp [hk]
        · have hkm : k ∉ m :: ms := by
            simp only [List.mem_cons]
            push_neg
            exact ⟨fun hc => hm hc.symm, hk⟩
          rw [if_neg hk, if_neg hkm]

theorem missing_fold_preserves (S : List Nat) (O : List Nat) (M : List Member)
    (acc : MissingMap) (k : Member) (hk : k ∉ M) :
    mapLookup
      ((S.zip (M.zip O)).foldl
        (fun acc p =>
          if p.1 < p.2.2 then
            mapInsert acc p.2.1 (missing_versions_between p.1 p.2.2)
          else acc)
        acc) k = mapLookup acc k := by
  induction S generalizing O M acc with
  | nil => rfl
  | cons s S' ih =>
      cases M with
      | nil => rfl
      | cons m M' =>
          cases O with
          | nil => rfl
          | cons o O' =>
              rw [List.zip_cons_cons, List.zip_cons_cons, List.foldl_cons]
              have hkm : k ≠ m := fun hc => hk (hc ▸ List.mem_cons_self m M')
              have hkM : k ∉ M' := fun hc => hk (List.mem_cons_of_mem m hc)
              rw [ih O' M' _ hkM]
              dsimp only
              by_cases hso : s < o
              · rw [if_pos hso, mapLookup_mapInsert, if_neg hkm]
              · rw [if_neg hso]

theorem missing_fold_lookup (S : List Nat) (O : List Nat) (M : List Member)
    (acc : MissingMap) (i : Nat) (hiS : i < S.length) (hiO : i < O.length)
    (hiM : i < M.length) (hnd : M.Nodup) :
    mapLookup
      ((S.zip (M.zip O)).foldl
        (fun acc p =>
          if p.1 < p.2.2 then
            mapInsert acc p.2.1 (missing_versions_between p.1 p.2.2)
          else acc)
        acc) (M.getD i 0) =
      if S.getD i 0 < O.getD i 0 then
        some (missing_versions_between (S.getD i 0) (O.getD i 0))
      else mapLookup acc (M.getD i 0) := by
  induction S generalizing O M acc i with
  | nil => simp at hiS
  | cons s S' ih =>
      cases M with
      | nil => simp at hiM
      | cons m M' =>
          cases O with
          | nil => simp at hiO
          | cons o O' =>
              rw [List.zip_cons_cons, List.zip_cons_cons, List.foldl_cons]
              obtain ⟨hm, hnd'⟩ := List.nodup_cons.mp hnd
              cases i with
              | zero =>
                  simp only [List.getD_cons_zero]
                  rw [missing_fold_preserves S' O' M' _ m hm]
                  by_cases hso : s < o
                  · rw [if_pos hso, if_pos hso, mapLookup_mapInsert, if_pos rfl]
                  · rw [if_neg hso, if_neg hso]
              | succ j =>
                  have hjS : j < S'.length := by simpa using hiS
                  have hjO : j < O'.length := by simpa using hiO
                  have hjM : j < M'.length := by simpa using hiM
                  simp only [List.getD_cons_succ]
                  rw [ih O' M' _ j hjS hjO hjM hnd']
                  have hkey : M'.getD j 0 ∈ M' := by
                    rw [listGetD_eq M' j hjM]
                    exact List.getElem_mem hjM
                  have hkm : M'.getD j 0 ≠ m := fun hc => hm (hc ▸ hkey)
                  by_cases hso : s < o
                  · rw [if_pos hso, mapLookup_mapInsert, if_neg hkm]
                  · rw [if_neg hso]

theorem nodup_getD_iff (M : List Member) (hnd : M.Nodup) (i j : Nat)
    (hi : i < M.length) (hj : j < M.length) :
    M.getD i 0 = M.getD j 0 ↔ i = j := by
  rw [listGetD_eq M i hi, listGetD_eq M j hj]
  exact hnd.getElem_inj_iff

theorem getD_mem (M : List Member) (i : Nat) (hi : i < M.length) :
    M.getD i 0 ∈ M := by
  rw [listGetD_eq M i hi]
  exact List.getElem_mem hi

/-- Lookup characterisation of the `Override`/`Override` arm of `missing_to`. -/
theorem missing_to_OO_lookup (n : Nat) (sv ov : OverrideVersion) (M : List Member)
    (hn : 1 < n) (hsp : sv.override_position < n) (hop : ov.override_position < n)
    (hsv : sv.is_valid) (hov : ov.is_valid) (hMn : M.length = n) (hnd : M.Nodup)
    (i : Nat) (hi : i < n) :
    mapLookup (missing_to (.Override n sv) M (.Override n ov)) (M.getD i 0) =
      if (VersionVector.Override n sv).expand.getD i 0 <
          (VersionVector.Override n ov).expand.getD i 0 then
        some (missing_versions_between
          ((VersionVector.Override n sv).expand.getD i 0)
          ((VersionVector.Override n ov).expand.getD i 0))
      else none := by
  unfold OverrideVersion.is_valid at hsv hov
  have hiM : i < M.length := by omega
  have hspM : sv.override_position < M.length := by omega
  have hopM : ov.override_position < M.length := by omega
  have hmem : M.getD i 0 ∈ M := getD_mem M i hiM
  -- expansions
  simp only [VersionVector.expand]
  have hself : (sv.to_vector n).getD i 0 =
      if i = sv.override_position then sv.override_version else sv.group_version := by
    by_cases h : i = sv.override_position
    · rw [if_pos h, h]
      exact expand_getD_override_pos sv n hsp
    · rw [if_neg h]
      exact expand_getD_override_ne sv n i hi h
  have hother : (ov.to_vector n).getD i 0 =
      if i = ov.override_position then ov.override_version else ov.group_version := by
    by_cases h : i = ov.override_position
    · rw [if_pos h, h]
      exact expand_getD_override_pos ov n hop
    · rw [if_neg h]
      exact expand_getD_override_ne ov n i hi h
  rw [hself, hother]
  show mapLookup
      (let result : MissingMap :=
        if sv.group_version < ov.group_version then
          M.map fun id =>
            (id, missing_versions_between sv.group_version ov.group_version)
        else []
      if sv.override_position = ov.override_position then
        if sv.override_version < ov.override_version then
          mapInsert result (M.getD ov.override_position 0)
            (missing_versions_between sv.override_version ov.override_version)
        else
          mapRemove result (M.getD ov.override_position 0)
      else
        let result1 :=
          if sv.override_version < ov.group_version then
            mapInsert result (M.getD sv.override_position 0)
              (missing_versions_between sv.override_version ov.group_version)
          else
            mapRemove result (M.getD sv.override_position 0)
        if sv.group_version < ov.override_version then
          mapInsert result1 (M.getD ov.override_position 0)
            (missing_versions_between sv.group_version ov.override_version)
        else result1) (M.getD i 0) = _
  have hres0 : ∀ k, k ∈ M →
      mapLookup
        (if sv.group_version < ov.group_version then
          M.map fun id =>
            (id, missing_versions_between sv.group_version ov.group_version)
        else []) k =
        if sv.group_version < ov.group_version then
          some (missing_versions_between sv.group_version ov.group_version)
        else none := by
    intro k hk
    by_cases hg : sv.group_version < ov.group_version
    · rw [if_pos hg, if_pos hg, mapLookup_members_map, if_pos hk]
    · rw [if_neg hg, if_neg hg]
      rfl
  by_cases hpp : sv.override_position = ov.override_position
  · rw [if_pos hpp]
    by_cases hip : i = ov.override_position
    · have hkey : M.getD i 0 = M.getD ov.override_position 0 := by rw [hip]
      by_cases ha : sv.override_version < ov.override_version
      · rw [if_pos ha, mapLookup_mapInsert, if_pos hkey]
        rw [if_pos (by rw [hip, ← hpp]; simp [ha])]
        rw [hip, ← hpp]
        simp
      · rw [if_neg ha, mapLookup_mapRemove, if_pos hkey]
        rw [if_neg (by rw [hip, ← hpp]; simpa using ha)]
    · have hkey : ¬M.getD i 0 = M.getD ov.override_position 0 := by
        rw [nodup_getD_iff M hnd i ov.override_position hiM hopM]
        exact hip
      have hisp : ¬i = sv.override_position := by rw [hpp]; exact hip
      by_cases ha : sv.override_version < ov.override_version
      · rw [if_pos ha, mapLookup_mapInsert, if_neg hkey, hres0 _ hmem]
        rw [if_neg hisp, if_neg hip]
      · rw [if_neg ha, mapLookup_mapRemove, if_neg hkey, hres0 _ hmem]
        rw [if_neg hisp, if_neg hip]
  · rw [if_neg hpp]
    have hkdiff : ¬M.getD sv.override_position 0 = M.getD ov.override_position 0 := by
      rw [nodup_getD_iff M hnd _ _ hspM hopM]
      exact hpp
    by_cases hip : i = ov.override_position
    · have hkey : M.getD i 0 = M.getD ov.override_position 0 := by rw [hip]
      have hisp : ¬i = sv.override_position := by
        rw [hip]; exact fun hc => hpp hc.symm
      rw [if_neg hisp, if_pos hip]
      by_cases hb : sv.group_version < ov.override_version
      · rw [if_pos hb, mapLookup_mapInsert, if_pos hkey, if_pos hb]
      · rw [if_neg hb, if_neg hb]
        -- k_op untouched by the sv-position insert/remove except when equal
        have hkey2 : ¬M.getD i 0 = M.getD sv.override_position 0 := by
          rw [nodup_getD_iff M hnd i sv.override_position hiM hspM]
          exact hisp
        by_cases hc : sv.override_version < ov.group_version
        · rw [if_pos hc, mapLookup_mapInsert, if_neg hkey2, hres0 _ hmem]
          rw [if_neg (by omega)]
        · rw [if_neg hc, mapLookup_mapRemove, if_neg hkey2, hres0 _ hmem]
          rw [if_neg (by omega)]
    · have hkey : ¬M.getD i 0 = M.getD ov.override_position 0 := by
        rw [nodup_getD_iff M hnd i ov.override_position hiM hopM]
        exact hip
      by_cases hisp : i = sv.override_position
      · have hkey2 : M.getD i 0 = M.getD sv.override_position 0 := by rw [hisp]
        rw [if_pos hisp, if_neg hip]
        by_cases hb : sv.group_version < ov.override_version
        · rw [if_pos hb, mapLookup_mapInsert, if_neg hkey]
          by_cases hc : sv.override_version < ov.group_version
          · rw [if_pos hc, mapLookup_mapInsert, if_pos hkey2, if_pos hc]
          · rw [if_neg hc, mapLookup_mapRemove, if_pos hkey2, if_neg hc]
        · rw [if_neg hb]
          by_cases hc : sv.override_version < ov.group_version
          · rw [if_pos hc, mapLookup_mapInsert, if_pos hkey2, if_pos hc]
          · rw [if_neg hc, mapLookup_mapRemove, if_pos hkey2, if_neg hc]
      · have hkey2 : ¬M.getD i 0 = M.getD sv.override_position 0 := by
          rw [nodup_getD_iff M hnd i sv.override_position hiM hspM]
          exact hisp
        rw [if_neg hisp, if_neg hip]
        by_cases hb : sv.group_version < ov.override_version
        · rw [if_pos hb, mapLookup_mapInsert, if_neg hkey]
          by_cases hc : sv.override_version < ov.group_version
          · rw [if_pos hc, mapLookup_mapInsert, if_neg hkey2, hres0 _ hmem]
          · rw [if_neg hc, mapLookup_mapRemove, if_neg hkey2, hres0 _ hmem]
        · rw [if_neg hb]
          by_cases hc : sv.override_version < ov.group_version
          · rw [if_pos hc, mapLookup_mapInsert, if_neg hkey2, hres0 _ hmem]
          · rw [if_neg hc, mapLookup_mapRemove, if_neg hkey2, hres0 _ hmem]

/-- Lookup characterisation of the `Override`/`Synced` arm of `missing_to`. -/
theorem missing_to_OS_lookup (n : Nat) (sv : OverrideVersion) (ovv : Nat)
    (M : List Member) (hn : 1 < n) (hsp : sv.override_position < n)
    (hsv : sv.is_valid) (hMn : M.length = n) (hnd : M.Nodup) (i : Nat) (hi : i < n) :
    mapLookup (missing_to (.Override n sv) M (.Synced n ovv)) (M.getD i 0) =
      if (VersionVector.Override n sv).expand.getD i 0 <
          (VersionVector.Synced n ovv).expand.getD i 0 then
        some (missing_versions_between
          ((VersionVector.Override n sv).expand.getD i 0)
          ((VersionVector.Synced n ovv).expand.getD i 0))
      else none := by
  unfold OverrideVersion.is_valid at hsv
  have hiM : i < M.length := by omega
  have hspM : sv.override_position < M.length := by omega
  have hmem : M.getD i 0 ∈ M := getD_mem M i hiM
  simp only [VersionVector.expand]
  have hself : (sv.to_vector n).getD i 0 =
      if i = sv.override_position then sv.override_version else sv.group_version := by
    by_cases h : i = sv.override_position
    · rw [if_pos h, h]
      exact expand_getD_override_pos sv n hsp
    · rw [if_neg h]
      exact expand_getD_override_ne sv n i hi h
  rw [hself, expand_getD_replicate n ovv i hi]
  show mapLookup
      (if sv.group_version < ovv then
        let result : MissingMap := M.map fun id =>
          (id, missing_versions_between sv.group_version ovv)
        if sv.override_version < ovv then
          mapInsert result (M.getD sv.override_position 0)
            (missing_versions_between sv.override_version ovv)
        else
          mapRemove result (M.getD sv.override_position 0)
      else []) (M.getD i 0) = _
  by_cases hg : sv.group_version < ovv
  · rw [if_pos hg]
    by_cases hisp : i = sv.override_position
    · have hkey : M.getD i 0 = M.getD sv.override_position 0 := by rw [hisp]
      rw [if_pos hisp]
      by_cases ha : sv.override_version < ovv
      · rw [if_pos ha, mapLookup_mapInsert, if_pos hkey, if_pos ha]
      · rw [if_neg ha, mapLookup_mapRemove, if_pos hkey, if_neg ha]
    · have hkey : ¬M.getD i 0 = M.getD sv.override_position 0 := by
        rw [nodup_getD_iff M hnd i sv.override_position hiM hspM]
        exact hisp
      rw [if_neg hisp, if_pos hg]
      by_cases ha : sv.override_version < ovv
      · rw [if_pos ha, mapLookup_mapInsert, if_neg hkey, mapLookup_members_map,
          if_pos hmem]
      · rw [if_neg ha, mapLookup_mapRemove, if_neg hkey, mapLookup_members_map,
          if_pos hmem]
  · rw [if_neg hg]
    by_cases hisp : i = sv.override_position
    · rw [if_pos hisp, if_neg (by omega)]
      rfl
    · rw [if_neg hisp, if_neg hg]
      rfl

/-- Lookup characterisation of the `Synced`/`Override` arm of `missing_to`. -/
theorem missing_to_SO_lookup (n : Nat) (svv : Nat) (ov : OverrideVersion)
    (M : List Member) (hn : 1 < n) (hop : ov.override_position < n)
    (hov : ov.is_valid) (hMn : M.length = n) (hnd : M.Nodup) (i : Nat) (hi : i < n) :
    mapLookup (missing_to (.Synced n svv) M (.Override n ov)) (M.getD i 0) =
      if (VersionVector.Synced n svv).expand.getD i 0 <
          (VersionVector.Override n ov).expand.getD i 0 then
        some (missing_versions_between
          ((VersionVector.Synced n svv).expand.getD i 0)
          ((VersionVector.Override n ov).expand.getD i 0))
      else none := by
  unfold OverrideVersion.is_valid at hov
  have hiM : i < M.length := by omega
  have hopM : ov.override_position < M.length := by omega
  have hmem : M.getD i 0 ∈ M := getD_mem M i hiM
  simp only [VersionVector.expand]
  have hother : (ov.to_vector n).getD i 0 =
      if i = ov.override_position then ov.override_version else ov.group_version := by
    by_cases h : i = ov.override_position
    · rw [if_pos h, h]
      exact expand_getD_override_pos ov n hop
    · rw [if_neg h]
      exact expand_getD_override_ne ov n i hi h
  rw [hother, expand_getD_replicate n svv i hi]
  show mapLookup
      (let result : MissingMap :=
        if svv < ov.group_version then
          M.map fun id => (id, missing_versions_between svv ov.group_version)
        else []
      if svv < ov.override_version then
        mapInsert result (M.getD ov.override_position 0)
          (missing_versions_between svv ov.override_version)
      else result) (M.getD i 0) = _
  have hres0 : ∀ k, k ∈ M →
      mapLookup
        (if svv < ov.group_version then
          M.map fun id => (id, missing_versions_between svv ov.group_version)
        else []) k =
        if svv < ov.group_version then
          some (missing_versions_between svv ov.group_version)
        else none := by
    intro k hk
    by_cases hg : svv < ov.group_version
    · rw [if_pos hg, if_pos hg, mapLookup_members_map, if_pos hk]
    · rw [if_neg hg, if_neg hg]
      rfl
  by_cases hip : i = ov.override_position
  · have hkey : M.getD i 0 = M.getD ov.override_position 0 := by rw [hip]
    rw [if_pos hip]
    by_cases hb : svv < ov.override_version
    · rw [if_pos hb, mapLookup_mapInsert, if_pos hkey, if_pos hb]
    · rw [if_neg hb, hres0 _ hmem, if_neg (by omega), if_neg hb]
  · have hkey : ¬M.getD i 0 = M.getD ov.override_position 0 := by
      rw [nodup_getD_iff M hnd i ov.override_position hiM hopM]
      exact hip
    rw [if_neg hip]
    by_cases hb : svv < ov.override_version
    · rw [if_pos hb, mapLookup_mapInsert, if_neg hkey, hres0 _ hmem]
    · rw [if_neg hb, hres0 _ hmem]

/-- Lookup characterisation of the `Synced`/`Synced` arm of `missing_to`. -/
theorem missing_to_SS_lookup (n : Nat) (svv ovv : Nat) (M : List Member)
    (hMn : M.length = n) (i : Nat) (hi : i < n) :
    mapLookup (missing_to (.Synced n svv) M (.Synced n ovv)) (M.getD i 0) =
      if (VersionVector.Synced n svv).expand.getD i 0 <
          (VersionVector.Synced n ovv).expand.getD i 0 then
        some (missing_versions_between
          ((VersionVector.Synced n svv).expand.getD i 0)
          ((VersionVector.Synced n ovv).expand.getD i 0))
      else none := by
  have hiM : i < M.length := by omega
  have hmem : M.getD i 0 ∈ M := getD_mem M i hiM
  simp only [VersionVector.expand]
  rw [expand_getD_replicate n svv i hi, expand_getD_replicate n ovv i hi]
  show mapLookup
      (if svv < ovv then
        M.map fun id => (id, missing_versions_between svv ovv)
      else []) (M.getD i 0) = _
  by_cases hg : svv < ovv
  · rw [if_pos hg, mapLookup_members_map, if_pos hmem, if_pos hg]
  · rw [if_neg hg, if_neg hg]
    rfl

/-- Lookup characterisation of the generic (`Full` on either side) arm. -/
theorem missing_to_full_lookup (selfV otherV : VersionVector) (M : List Member)
    (n : Nat) (hsn : selfV.num_members = n) (hon : otherV.num_members = n)
    (hMn : M.length = n) (hnd : M.Nodup) (i : Nat) (hi : i < n)
    (hfull : (∃ v, selfV = .Full v) ∨ ∃ v, otherV = .Full v) :
    mapLookup (missing_to selfV M otherV) (M.getD i 0) =
      if selfV.expand.getD i 0 < otherV.expand.getD i 0 then
        some (missing_versions_between (selfV.expand.getD i 0)
          (otherV.expand.getD i 0))
      else none := by
  have harm : missing_to selfV M otherV =
      (selfV.expand.zip (M.zip otherV.expand)).foldl
        (fun acc p =>
          if p.1 < p.2.2 then
            mapInsert acc p.2.1 (missing_versions_between p.1 p.2.2)
          else acc)
        [] := by
    rcases hfull with ⟨v, hv⟩ | ⟨v, hv⟩
    · subst hv
      cases otherV <;> rfl
    · subst hv
      cases selfV <;> rfl
  rw [harm]
  have h1 : i < selfV.expand.length := by rw [selfV.expand_length, hsn]; exact hi
  have h2 : i < otherV.expand.length := by rw [otherV.expand_length, hon]; exact hi
  have h3 : i < M.length := by omega
  rw [missing_fold_lookup selfV.expand otherV.expand M [] i h1 h2 h3 hnd]
  by_cases hlt : selfV.expand.getD i 0 < otherV.expand.getD i 0
  · rw [if_pos hlt, if_pos hlt]
  · rw [if_neg hlt, if_neg hlt]
    rfl

theorem mapLookup_isSome_of_mem (m : MissingMap) (p : Member × List Nat)
    (hp : p ∈ m) : mapLookup m p.1 ≠ none := by
  unfold mapLookup
  intro hc
  have h2 : (m.find? fun q => q.1 = p.1) = none := by
    cases hfind : m.find? fun q => q.1 = p.1 with
    | none => rfl
    | some q => rw [hfind] at hc; simp at hc
  rw [List.find?_eq_none] at h2
  have h3 := h2 p hp
  simp at h3

theorem mem_mapInsert (m : MissingMap) (k : Member) (v : List Nat)
    (p : Member × List Nat) (hp : p ∈ mapInsert m k v) : p ∈ m ∨ p.1 = k := by
  unfold mapInsert at hp
  split at hp
  · obtain ⟨q, hq, hfq⟩ := List.mem_map.mp hp
    by_cases hqk : q.1 = k
    · rw [if_pos hqk] at hfq
      right
      rw [← hfq]
    · rw [if_neg hqk] at hfq
      left
      rw [← hfq]
      exact hq
  · rcases List.mem_append.mp hp with h | h
    · exact Or.inl h
    · right
      simp only [List.mem_singleton] at h
      rw [h]

theorem mem_mapRemove (m : MissingMap) (k : Member) (p : Member × List Nat)
    (hp : p ∈ mapRemove m k) : p ∈ m :=
  List.mem_of_mem_filter hp

theorem missing_fold_keys (S : List Nat) (O : List Nat) (M : List Member)
    (acc : MissingMap) (p : Member × List Nat)
    (hp : p ∈
      (S.zip (M.zip O)).foldl
        (fun acc q =>
          if q.1 < q.2.2 then
            mapInsert acc q.2.1 (missing_versions_between q.1 q.2.2)
          else acc)
        acc) : p ∈ acc ∨ p.1 ∈ M := by
  induction S generalizing O M acc with
  | nil => exact Or.inl hp
  | cons s S' ih =>
      cases M with
      | nil => exact Or.inl hp
      | cons m M' =>
          cases O with
          | nil => exact Or.inl hp
          | cons o O' =>
              rw [List.zip_cons_cons, List.zip_cons_cons, List.foldl_cons] at hp
              rcases ih O' M' _ hp with hacc | hM
              · dsimp only at hacc
                split at hacc
                · rcases mem_mapInsert _ _ _ _ hacc with h | h
                  · exact Or.inl h
                  · exact Or.inr (h ▸ List.mem_cons_self m M')
                · exact Or.inl hacc
              · exact Or.inr (List.mem_cons_of_mem m hM)

/-- Every key in a `missing_to` result is one of the group members. -/
theorem missing_to_keys (selfV otherV : VersionVector) (M : List Member)
    (n : Nat) (hs : selfV.Valid) (ho : otherV.Valid)
    (hsn : selfV.num_members = n) (hon : otherV.num_members = n)
    (hMn : M.length = n) (p : Member × List Nat)
    (hp : p ∈ missing_to selfV M otherV) : p.1 ∈ M := by
  have hfold : ∀ hp2 : p ∈
      (selfV.expand.zip (M.zip otherV.expand)).foldl
        (fun acc q =>
          if q.1 < q.2.2 then
            mapInsert acc q.2.1 (missing_versions_between q.1 q.2.2)
          else acc)
        [], p.1 ∈ M := by
    intro hp2
    rcases missing_fold_keys _ _ _ _ _ hp2 with h | h
    · simp at h
    · exact h
  cases selfV with
  | Full v1 =>
      refine hfold ?_
      cases otherV <;> exact hp
  | Override n1 sv =>
      cases otherV with
      | Full v2 => exact hfold hp
      | Override n2 ov =>
          obtain ⟨hn1, hval1, hp1, _⟩ := hs
          obtain ⟨hn2, hval2, hp2, _⟩ := ho
          simp only [VersionVector.num_members] at hsn hon
          subst hsn
          have hspM : sv.override_position < M.length := by omega
          have hopM : ov.override_position < M.length := by omega
          replace hp : p ∈
              (let result : MissingMap :=
                if sv.group_version < ov.group_version then
                  M.map fun id =>
                    (id, missing_versions_between sv.group_version ov.group_version)
                else []
              if sv.override_position = ov.override_position then
                if sv.override_version < ov.override_version then
                  mapInsert result (M.getD ov.override_position 0)
                    (missing_versions_between sv.override_version ov.override_version)
                else
                  mapRemove result (M.getD ov.override_position 0)
              else
                let result1 :=
                  if sv.override_version < ov.group_version then
                    mapInsert result (M.getD sv.override_position 0)
                      (missing_versions_between sv.override_version ov.group_version)
                  else
                    mapRemove result (M.getD sv.override_position 0)
                if sv.group_version < ov.override_version then
                  mapInsert result1 (M.getD ov.override_position 0)
                    (missing_versions_between sv.group_version ov.override_version)
                else result1) := hp
          have hres0 : ∀ q : Member × List Nat, q ∈
              (if sv.group_version < ov.group_version then
                M.map fun id =>
                  (id, missing_versions_between sv.group_version ov.group_version)
              else ([] : MissingMap)) → q.1 ∈ M := by
            intro q hq
            split at hq
            · obtain ⟨id, hid, hfq⟩ := List.mem_map.mp hq
              rw [← hfq]
              exact hid
            · simp at hq
          simp only at hp
          split at hp
          · split at hp
            · rcases mem_mapInsert _ _ _ _ hp with h | h
              · exact hres0 p h
              · exact h ▸ getD_mem M _ hopM
            · exact hres0 p (mem_mapRemove _ _ _ hp)
          · split at hp
            · rcases mem_mapInsert _ _ _ _ hp with h | h
              · split at h
                · rcases mem_mapInsert _ _ _ _ h with h2 | h2
                  · exact hres0 p h2
                  · exact h2 ▸ getD_mem M _ hspM
                · exact hres0 p (mem_mapRemove _ _ _ h)
              · exact h ▸ getD_mem M _ hopM
            · split at hp
              · rcases mem_mapInsert _ _ _ _ hp with h | h
                · exact hres0 p h
                · exact h ▸ getD_mem M _ hspM
              · exact hres0 p (mem_mapRemove _ _ _ hp)
      | Synced n2 ovv =>
          obtain ⟨hn1, hval1, hp1, _⟩ := hs
          simp only [VersionVector.num_members] at hsn hon
          subst hsn
          have hspM : sv.override_position < M.length := by omega
          replace hp : p ∈
              (if sv.group_version < ovv then
                let result : MissingMap := M.map fun id =>
                  (id, missing_versions_between sv.group_version ovv)
                if sv.override_version < ovv then
                  mapInsert result (M.getD sv.override_position 0)
                    (missing_versions_between sv.override_version ovv)
                else
                  mapRemove result (M.getD sv.override_position 0)
              else []) := hp
          split at hp
          · simp only at hp
            split at hp
            · rcases mem_mapInsert _ _ _ _ hp with h | h
              · obtain ⟨id, hid, hfq⟩ := List.mem_map.mp h
                rw [← hfq]
                exact hid
              · exact h ▸ getD_mem M _ hspM
            · have h := mem_mapRemove _ _ _ hp
              obtain ⟨id, hid, hfq⟩ := List.mem_map.mp h
              rw [← hfq]
              exact hid
          · simp at hp
  | Synced n1 svv =>
      cases otherV with
      | Full v2 => exact hfold hp
      | Override n2 ov =>
          obtain ⟨hn2, hval2, hp2, _⟩ := ho
          simp only [VersionVector.num_members] at hsn hon
          subst hon
          have hopM : ov.override_position < M.length := by omega
          replace hp : p ∈
              (let result : MissingMap :=
                if svv < ov.group_version then
                  M.map fun id =>
                    (id, missing_versions_between svv ov.group_version)
                else []
              if svv < ov.override_version then
                mapInsert result (M.getD ov.override_position 0)
                  (missing_versions_between svv ov.override_version)
              else result) := hp
          have hres0 : ∀ q : Member × List Nat, q ∈
              (if svv < ov.group_version then
                M.map fun id =>
                  (id, missing_versions_between svv ov.group_version)
              else ([] : MissingMap)) → q.1 ∈ M := by
            intro q hq
            split at hq
            · obtain ⟨id, hid, hfq⟩ := List.mem_map.mp hq
              rw [← hfq]
              exact hid
            · simp at hq
          simp only at hp
          split at hp
          · rcases mem_mapInsert _ _ _ _ hp with h | h
            · exact hres0 p h
            · exact h ▸ getD_mem M _ hopM
          · exact hres0 p hp
      | Synced n2 ovv =>
          replace hp : p ∈
              (if svv < ovv then
                M.map fun id => (id, missing_versions_between svv ovv)
              else ([] : MissingMap)) := hp
          split at hp
          · obtain ⟨id, hid, hfq⟩ := List.mem_map.mp hp
            rw [← hfq]
            exact hid
          · simp at hp

theorem specHB_eq_or_after_iff (A B : List Nat) (hlen : A.length = B.length) :
    (specHB A B = .Equal ∨ specHB A B = .After) ↔
      ((A.zip B).any fun p => p.1 < p.2) = false := by
  unfold specHB
  rw [if_pos hlen]
  by_cases l : ((A.zip B).any fun p => p.1 < p.2) = true <;>
    by_cases g : ((A.zip B).any fun p => p.2 < p.1) = true
  · simp [l, g]
  · simp [l, Bool.eq_false_iff.mpr g]
  · simp [Bool.eq_false_iff.mpr l, g]
  · simp [Bool.eq_false_iff.mpr l, Bool.eq_false_iff.mpr g]

theorem any_zip_lt_false_iff (A B : List Nat) (hlen : A.length = B.length) :
    ((A.zip B).any fun p => p.1 < p.2) = false ↔
      ∀ i, i < A.length → ¬A.getD i 0 < B.getD i 0 := by
  constructor
  · intro h i hi hlt
    have hiB : i < B.length := by omega
    rw [listGetD_eq A i hi, listGetD_eq B i hiB] at hlt
    have hx : ((A.zip B).any fun p => p.1 < p.2) = true :=
      (any_zip_iff A B _).mpr ⟨i, hi, hiB, by simpa using hlt⟩
    rw [hx] at h
    simp at h
  · intro h
    rw [Bool.eq_false_iff]
    intro hx
    obtain ⟨i, h1, h2, hp⟩ := (any_zip_iff A B _).mp hx
    simp only [decide_eq_true_eq] at hp
    rw [← listGetD_eq A i h1, ← listGetD_eq B i h2] at hp
    exact h i h1 hp

/-- C4: `missing_to` returns, for each member `m` with `self[m] < other[m]`,
exactly the ordered list of integers in `(self[m], other[m]]`, and no entry
for members where `self[m] >= other[m]`, across all representation pairs; the
result map is empty iff `self.hb_cmp(other)` is `Equal` or `After`; and Seed E
evaluates as specified. -/
theorem C4_missing_to (selfV otherV : VersionVector) (M : List Member) (n : Nat)
    (hs : selfV.Valid) (ho : otherV.Valid) (hsn : selfV.num_members = n)
    (hon : otherV.num_members = n) (hMn : M.length = n) (hnd : M.Nodup) :
    (∀ i, i < n →
      mapLookup (missing_to selfV M otherV) (M.getD i 0) =
        if selfV.expand.getD i 0 < otherV.expand.getD i 0 then
          some (missing_versions_between (selfV.expand.getD i 0)
            (otherV.expand.getD i 0))
        else none) ∧
    (∀ c u x, x ∈ missing_versions_between c u ↔ c < x ∧ x ≤ u) ∧
    (∀ c u, (missing_versions_between c u).Pairwise (· < ·)) ∧
    (missing_to selfV M otherV = [] ↔
      (selfV.hb_cmp otherV = .Equal ∨ selfV.hb_cmp otherV = .After)) ∧
    missing_to (.Full [5, 3, 1]) [0, 1, 2] (.Full [5, 1, 4]) =
      [(2, [2, 3, 4])] := by
  have hlookup : ∀ i, i < n →
      mapLookup (missing_to selfV M otherV) (M.getD i 0) =
        if selfV.expand.getD i 0 < otherV.expand.getD i 0 then
          some (missing_versions_between (selfV.expand.getD i 0)
            (otherV.expand.getD i 0))
        else none := by
    intro i hi
    cases selfV with
    | Full v1 =>
        exact missing_to_full_lookup _ _ M n hsn hon hMn hnd i hi (Or.inl ⟨v1, rfl⟩)
    | Override n1 sv =>
        cases otherV with
        | Full v2 =>
            exact missing_to_full_lookup _ _ M n hsn hon hMn hnd i hi
              (Or.inr ⟨v2, rfl⟩)
        | Override n2 ov =>
            obtain ⟨hn1, hval1, hpos1, _⟩ := hs
            obtain ⟨hn2, hval2, hpos2, _⟩ := ho
            simp only [VersionVector.num_members] at hsn hon
            subst hsn
            subst hon
            exact missing_to_OO_lookup n2 sv ov M hn1 hpos1 hpos2 hval1 hval2
              hMn hnd i hi
        | Synced n2 ovv =>
            obtain ⟨hn1, hval1, hpos1, _⟩ := hs
            simp only [VersionVector.num_members] at hsn hon
            subst hsn
            subst hon
            exact missing_to_OS_lookup n2 sv ovv M hn1 hpos1 hval1 hMn hnd i hi
    | Synced n1 svv =>
        cases otherV with
        | Full v2 =>
            exact missing_to_full_lookup _ _ M n hsn hon hMn hnd i hi
              (Or.inr ⟨v2, rfl⟩)
        | Override n2 ov =>
            obtain ⟨hn2, hval2, hpos2, _⟩ := ho
            simp only [VersionVector.num_members] at hsn hon
            subst hsn
            subst hon
            exact missing_to_SO_lookup n2 svv ov M hn2 hpos2 hval2 hMn hnd i hi
        | Synced n2 ovv =>
            simp only [VersionVector.num_members] at hsn hon
            subst hsn
            subst hon
            exact missing_to_SS_lookup n2 svv ovv M hMn i hi
  refine ⟨hlookup, ?_, ?_, ?_, ?_⟩
  · intro c u x
    unfold missing_versions_between
    rw [List.mem_range'_1]
    omega
  · intro c u
    exact List.pairwise_lt_range' _ _
  · have hbeq : selfV.hb_cmp otherV = specHB selfV.expand otherV.expand :=
      hb_cmp_eq_specHB _ _ hs ho
    have hlen : selfV.expand.length = otherV.expand.length := by
      rw [selfV.expand_length, otherV.expand_length, hsn, hon]
    have hlenn : selfV.expand.length = n := by rw [selfV.expand_length, hsn]
    constructor
    · intro hres
      rw [hbeq, specHB_eq_or_after_iff _ _ hlen, any_zip_lt_false_iff _ _ hlen]
      intro i hi hlt
      have h := hlookup i (by omega)
      rw [hres, if_pos hlt] at h
      simp [mapLookup] at h
    · intro hhb
      rw [hbeq] at hhb
      have hnolt := (any_zip_lt_false_iff _ _ hlen).mp
        ((specHB_eq_or_after_iff _ _ hlen).mp hhb)
      cases hres : missing_to selfV M otherV with
      | nil => rfl
      | cons p rest =>
          exfalso
          have hpmem : p ∈ missing_to selfV M otherV := by
            rw [hres]
            exact List.mem_cons_self ..
          have hkM : p.1 ∈ M :=
            missing_to_keys selfV otherV M n hs ho hsn hon hMn p hpmem
          obtain ⟨i, hiM, hgi⟩ := List.getElem_of_mem hkM
          have hgetD : M.getD i 0 = p.1 := by
            rw [listGetD_eq M i hiM]
            exact hgi
          have hl := hlookup i (by omega)
          rw [hgetD, if_neg (hnolt i (by omega))] at hl
          exact mapLookup_isSome_of_mem _ p hpmem hl
  · decide

/-- C4 witness: the characterisation applied to the Seed E inputs. -/
theorem C4_missing_to_witness :
    mapLookup (missing_to (.Full [5, 3, 1]) [0, 1, 2] (.Full [5, 1, 4])) 2 =
      some [2, 3, 4] ∧
    (missing_to (.Full [5, 3, 1]) [0, 1, 2] (.Full [5, 1, 4]) = [] ↔
      ((VersionVector.Full [5, 3, 1]).hb_cmp (.Full [5, 1, 4]) = .Equal ∨
        (VersionVector.Full [5, 3, 1]).hb_cmp (.Full [5, 1, 4]) = .After)) := by
  have h := C4_missing_to (.Full [5, 3, 1]) (.Full [5, 1, 4]) [0, 1, 2] 3
    (by decide) (by decide) (by decide) (by decide) (by decide) (by decide)
  refine ⟨?_, h.2.2.2.1⟩
  have h1 := h.1 2 (by decide)
  rw [if_pos (by decide)] at h1
  rw [show ([0, 1, 2] : List Member).getD 2 0 = 2 from rfl] at h1
  rw [h1]
  decide

theorem insertIdx_append (P l : List Node) (n : Nat) (a : Node) :
    List.insertIdx (P.length + n) a (P ++ l) = P ++ List.insertIdx n a l := by
  induction P with
  | nil => simp
  | cons x xs ih => simpa [Nat.succ_add, List.insertIdx_succ_cons] using ih

theorem adj_insert_eval (L : Nat) (P S : List Node) (pn sn : Node)
    (idv v fuel : Nat) (hPp : ∀ n ∈ P, n.id ≠ pn.id) (hps : pn.id ≠ sn.id) :
    VecLinearData.apply_operation fuel ⟨L, P ++ pn :: sn :: S⟩
      (.Insert idv pn.id sn.id v) =
    .ok ⟨L + 1, P ++ pn ::
      ⟨idv, some pn.id, some sn.id, .Insert v⟩ :: sn :: S⟩ := by
  have h1 : List.findIdx? (fun n => n.id == pn.id) P = none := by
    rw [List.findIdx?_eq_none_iff]
    intro x hx
    simpa using hPp x hx
  have hfind1 : List.findIdx? (fun n => n.id == pn.id) (P ++ pn :: sn :: S) =
      some P.length := by
    rw [List.findIdx?_append, h1]
    simp [List.findIdx?_cons]
  have hdrop : (P ++ pn :: sn :: S).drop P.length = pn :: sn :: S :=
    List.drop_left ..
  have hfind2 : List.findIdx? (fun n => n.id == sn.id) (pn :: sn :: S) =
      some 1 := by
    simp [List.findIdx?_cons, hps]
  have hins : List.insertIdx (P.length + 1)
      (⟨idv, some pn.id, some sn.id, .Insert v⟩ : Node) (P ++ pn :: sn :: S) =
      P ++ pn :: ⟨idv, some pn.id, some sn.id, .Insert v⟩ :: sn :: S := by
    rw [insertIdx_append]
    simp [List.insertIdx_succ_cons]
  simp only [VecLinearData.apply_operation, hfind1, hdrop, hfind2, Option.map,
    insert_node_at, hins]
  simp

theorem eirt_hit (nodes : List Node) (fuel : Nat) (node : Node)
    (boundary : Nat) (h : node.id = boundary) :
    ends_in_right_tree nodes (fuel + 1) node boundary = some true := by
  unfold ends_in_right_tree
  exact if_pos h

theorem conflict_insert_eval (L : Nat) (P S : List Node) (pn sn : Node)
    (ida va idb vb fuel : Nat) (hfuel : 2 ≤ fuel)
    (hPp : ∀ n ∈ P, n.id ≠ pn.id) (hPs : ∀ n ∈ P, n.id ≠ sn.id)
    (hps : pn.id ≠ sn.id) (has : ida ≠ sn.id) (hab : ida ≠ idb) :
    VecLinearData.apply_operation fuel
      ⟨L, P ++ pn :: ⟨ida, some pn.id, some sn.id, .Insert va⟩ :: sn :: S⟩
      (.Insert idb pn.id sn.id vb) =
    .ok ⟨L + 1, P ++ pn ::
      (if idb < ida then
        (⟨idb, some pn.id, some sn.id, .Insert vb⟩ : Node) ::
          (⟨ida, some pn.id, some sn.id, .Insert va⟩ : Node) :: sn :: S
       else
        (⟨ida, some pn.id, some sn.id, .Insert va⟩ : Node) ::
          (⟨idb, some pn.id, some sn.id, .Insert vb⟩ : Node) :: sn :: S)⟩ := by
  obtain ⟨f, rfl⟩ : ∃ f, fuel = f + 2 := ⟨fuel - 2, by omega⟩
  have h1 : List.findIdx? (fun n => n.id == pn.id) P = none := by
    rw [List.findIdx?_eq_none_iff]
    intro x hx
    simpa using hPp x hx
  have hfind1 : List.findIdx? (fun n => n.id == pn.id)
      (P ++ pn :: (⟨ida, some pn.id, some sn.id, .Insert va⟩ : Node) ::
        sn :: S) = some P.length := by
    rw [List.findIdx?_append, h1]
    simp [List.findIdx?_cons]
  have hdrop : (P ++ pn :: (⟨ida, some pn.id, some sn.id, .Insert va⟩ : Node) ::
      sn :: S).drop P.length =
      pn :: (⟨ida, some pn.id, some sn.id, .Insert va⟩ : Node) :: sn :: S :=
    List.drop_left ..
  have hfind2 : List.findIdx? (fun n => n.id == sn.id)
      (pn :: (⟨ida, some pn.id, some sn.id, .Insert va⟩ : Node) :: sn :: S) =
      some 2 := by
    simp [List.findIdx?_cons, hps, has]
  have hget : (P ++ pn :: (⟨ida, some pn.id, some sn.id, .Insert va⟩ : Node) ::
      sn :: S)[P.length + 1]? =
      some ⟨ida, some pn.id, some sn.id, .Insert va⟩ := by
    rw [List.getElem?_append_right (by omega)]
    simp
  have hfindeq : List.find? (fun n => n.id == sn.id)
      (P ++ pn :: (⟨ida, some pn.id, some sn.id, .Insert va⟩ : Node) ::
        sn :: S) = some sn := by
    rw [List.find?_append]
    have hP : List.find? (fun n => n.id == sn.id) P = none := by
      rw [List.find?_eq_none]
      intro x hx
      simpa using hPs x hx
    rw [hP]
    simp [List.find?_cons, hps, has]
  have heirt : ends_in_right_tree
      (P ++ pn :: (⟨ida, some pn.id, some sn.id, .Insert va⟩ : Node) ::
        sn :: S) (f + 2)
      ⟨ida, some pn.id, some sn.id, .Insert va⟩ sn.id = some true := by
    unfold ends_in_right_tree
    rw [if_neg has]
    show (List.find? (fun n => n.id == sn.id)
        (P ++ pn :: (⟨ida, some pn.id, some sn.id, .Insert va⟩ : Node) ::
          sn :: S)).bind
      (fun next => ends_in_right_tree
        (P ++ pn :: (⟨ida, some pn.id, some sn.id, .Insert va⟩ : Node) ::
          sn :: S) (f + 1) next sn.id) = some true
    rw [hfindeq, Option.some_bind]
    exact eirt_hit _ _ _ _ rfl
  have hgap : gap_scan
      (P ++ pn :: (⟨ida, some pn.id, some sn.id, .Insert va⟩ : Node) ::
        sn :: S) (f + 2) pn.id sn.id P.length (P.length + 2) =
      some ([(ida, P.length + 1)], some (P.length + 1)) := by
    unfold gap_scan
    rw [show P.length + 2 - (P.length + 1) = 1 from by omega]
    rw [List.range'_one]
    simp only [List.foldl_cons, List.foldl_nil, hget, heirt]
    simp
  simp only [VecLinearData.apply_operation, hfind1, hdrop, hfind2, Option.map]
  rw [if_neg (by omega), if_pos (by omega), hgap]
  simp only [Option.getD]
  rw [if_neg (by simp)]
  rcases Ne.lt_or_lt hab with hlt | hlt
  · have hbin : binary_search_ids [ida] idb 1 0 1 = .inr 1 := by
      unfold binary_search_ids
      rw [if_pos (by omega)]
      simp only [List.getD]
      rw [if_pos (by simpa using hlt)]
      unfold binary_search_ids
      rfl
    simp only [List.map_cons, List.map_nil, List.length_cons, List.length_nil,
      hbin]
    rw [if_neg (by omega), if_neg (by omega)]
    have hins : List.insertIdx (P.length + 2)
        (⟨idb, some pn.id, some sn.id, .Insert vb⟩ : Node)
        (P ++ pn :: (⟨ida, some pn.id, some sn.id, .Insert va⟩ : Node) ::
          sn :: S) =
        P ++ pn :: (⟨ida, some pn.id, some sn.id, .Insert va⟩ : Node) ::
          (⟨idb, some pn.id, some sn.id, .Insert vb⟩ : Node) :: sn :: S := by
      rw [insertIdx_append]
      simp [List.insertIdx_succ_cons]
    simp only [insert_node_at, hins]
    rw [if_neg (by omega)]
  · have hbin : binary_search_ids [ida] idb 1 0 1 = .inr 0 := by
      unfold binary_search_ids
      rw [if_pos (by omega)]
      simp only [List.getD]
      rw [if_neg (by simp; omega), if_pos (by simpa using hlt)]
      unfold binary_search_ids
      rfl
    simp only [List.map_cons, List.map_nil, List.length_cons, List.length_nil,
      hbin]
    rw [if_pos trivial]
    have hins : List.insertIdx (P.length + 1)
        (⟨idb, some pn.id, some sn.id, .Insert vb⟩ : Node)
        (P ++ pn :: (⟨ida, some pn.id, some sn.id, .Insert va⟩ : Node) ::
          sn :: S) =
        P ++ pn :: (⟨idb, some pn.id, some sn.id, .Insert vb⟩ : Node) ::
          (⟨ida, some pn.id, some sn.id, .Insert va⟩ : Node) :: sn :: S := by
      rw [insertIdx_append]
      simp [List.insertIdx_succ_cons]
    simp only [insert_node_at, hins]
    rw [if_pos hlt]

/-- C1 (amended): two concurrent Inserts naming the same pred/succ anchor
pair, where pred and succ are adjacent in the base node table, with distinct
fresh ids, commute: either delivery order yields the identical node table,
with the two new nodes ordered by ascending id between the anchors. The Seed A
register scenario evaluates as specified: content 10 (lower id wins), history
newest-to-oldest [10, 20, 0]. -/
theorem C1_commutativity (L : Nat) (P S : List Node) (pn sn : Node)
    (ida idb va vb fuel : Nat) (base : VecLinearData)
    (hbase : base = ⟨L, P ++ pn :: sn :: S⟩)
    (hnd : (base.nodes.map Node.id).Nodup)
    (hfa : ida ∉ base.nodes.map Node.id)
    (hfb : idb ∉ base.nodes.map Node.id)
    (hab : ida ≠ idb) (hfuel : 2 ≤ fuel) :
    (∃ st, apply2 fuel base (.Insert ida pn.id sn.id va)
        (.Insert idb pn.id sn.id vb) = .ok st ∧
      apply2 fuel base (.Insert idb pn.id sn.id vb)
        (.Insert ida pn.id sn.id va) = .ok st) ∧
    (apply2 10 (VecLinearData.with_value 0 1 2 0) (.Insert 3 0 1 10)
        (.Insert 4 0 1 20) =
      apply2 10 (VecLinearData.with_value 0 1 2 0) (.Insert 4 0 1 20)
        (.Insert 3 0 1 10)) ∧
    (∃ st, apply2 10 (VecLinearData.with_value 0 1 2 0) (.Insert 3 0 1 10)
        (.Insert 4 0 1 20) = .ok st ∧
      content st = some 10 ∧ all_values st = [10, 20, 0]) ∧
    update_operation (VecLinearData.with_value 0 1 2 0) 3 10 =
      some (.Insert 3 0 1 10) := by
  subst hbase
  have hsnmem : (sn : Node) ∈ P ++ pn :: sn :: S := by simp
  have has : ida ≠ sn.id := by
    intro h
    exact hfa (h ▸ List.mem_map_of_mem Node.id hsnmem)
  have hbs : idb ≠ sn.id := by
    intro h
    exact hfb (h ▸ List.mem_map_of_mem Node.id hsnmem)
  have hnd2 := hnd
  simp only [List.map_append, List.map_cons] at hnd2
  obtain ⟨hndP, hndR, hdisj⟩ := List.nodup_append.mp hnd2
  have hPp : ∀ n ∈ P, n.id ≠ pn.id := by
    intro n hn h
    exact (hdisj (List.mem_map_of_mem Node.id hn)) (by simp [h])
  have hPs : ∀ n ∈ P, n.id ≠ sn.id := by
    intro n hn h
    exact (hdisj (List.mem_map_of_mem Node.id hn)) (by simp [h])
  have hps : pn.id ≠ sn.id := by
    have := (List.nodup_cons.mp hndR).1
    intro h
    exact this (by simp [h])
  refine ⟨?_, by decide, ⟨⟨3,
    [⟨0, none, some 1, .Beginning⟩, ⟨3, some 0, some 1, .Insert 10⟩,
     ⟨4, some 0, some 1, .Insert 20⟩, ⟨1, some 0, some 2, .Insert 0⟩,
     ⟨2, some 1, none, .End⟩]⟩, by decide, by decide, by decide⟩, by decide⟩
  have hstep1a := adj_insert_eval L P S pn sn ida va fuel hPp hps
  have hstep1b := adj_insert_eval L P S pn sn idb vb fuel hPp hps
  have hstep2a := conflict_insert_eval (L + 1) P S pn sn ida va idb vb fuel
    hfuel hPp hPs hps has hab
  have hstep2b := conflict_insert_eval (L + 1) P S pn sn idb vb ida va fuel
    hfuel hPp hPs hps hbs (Ne.symm hab)
  rcases Ne.lt_or_lt hab with hlt | hlt
  · refine ⟨⟨L + 1 + 1, P ++ pn ::
      (⟨ida, some pn.id, some sn.id, .Insert va⟩ : Node) ::
      (⟨idb, some pn.id, some sn.id, .Insert vb⟩ : Node) :: sn :: S⟩, ?_, ?_⟩
    · unfold apply2
      rw [hstep1a]
      rw [if_neg (by omega)] at hstep2a
      exact hstep2a
    · unfold apply2
      rw [hstep1b]
      rw [if_pos hlt] at hstep2b
      exact hstep2b
  · refine ⟨⟨L + 1 + 1, P ++ pn ::
      (⟨idb, some pn.id, some sn.id, .Insert vb⟩ : Node) ::
      (⟨ida, some pn.id, some sn.id, .Insert va⟩ : Node) :: sn :: S⟩, ?_, ?_⟩
    · unfold apply2
      rw [hstep1a]
      rw [if_pos hlt] at hstep2a
      exact hstep2a
    · unfold apply2
      rw [hstep1b]
      rw [if_neg (by omega)] at hstep2b
      exact hstep2b

/-- C1 witness: the commutativity theorem applied to a concrete three-node
base with fresh ids 10 and 11. -/
theorem C1_commutativity_witness :
    (∃ st, apply2 2 (VecLinearData.with_value 5 6 7 42) (.Insert 10 5 6 1)
        (.Insert 11 5 6 2) = .ok st ∧
      apply2 2 (VecLinearData.with_value 5 6 7 42) (.Insert 11 5 6 2)
        (.Insert 10 5 6 1) = .ok st) ∧
    (apply2 10 (VecLinearData.with_value 0 1 2 0) (.Insert 3 0 1 10)
        (.Insert 4 0 1 20) =
      apply2 10 (VecLinearData.with_value 0 1 2 0) (.Insert 4 0 1 20)
        (.Insert 3 0 1 10)) ∧
    (∃ st, apply2 10 (VecLinearData.with_value 0 1 2 0) (.Insert 3 0 1 10)
        (.Insert 4 0 1 20) = .ok st ∧
      content st = some 10 ∧ all_values st = [10, 20, 0]) ∧
    update_operation (VecLinearData.with_value 0 1 2 0) 3 10 =
      some (.Insert 3 0 1 10) := by
  have h := C1_commutativity 1 []
    [(⟨7, some 6, none, .End⟩ : Node)]
    (⟨5, none, some 6, .Beginning⟩ : Node)
    (⟨6, some 5, some 7, .Insert 42⟩ : Node)
    10 11 1 2 2 (VecLinearData.with_value 5 6 7 42)
    rfl (by decide) (by decide) (by decide) (by decide) (by decide)
  exact h

/-- C1 counterexample to the claim as stated: a base state `B2` reachable by
two successful inserts from a fresh register state, and two concurrent Insert
operations naming the same pred/succ anchors (4 and 2, both present in `B2`)
with distinct fresh ids 8 and 9, each individually valid against `B2` — yet
the two delivery orders produce different node tables. (The anchors are not
adjacent in `B2`: node 3 sits between them, and only one order places both
new nodes on the same side of it.) -/
theorem C1_counterexample :
    ∃ B2 stA stB stAB stBA : VecLinearData,
      apply2 10 (VecLinearData.with_value 0 1 2 100)
        (.Insert 3 1 2 7) (.Insert 4 1 3 8) = .ok B2 ∧
      (8 ∉ B2.nodes.map Node.id) ∧ (9 ∉ B2.nodes.map Node.id) ∧
      B2.apply_operation 10 (.Insert 8 4 2 55) = .ok stA ∧
      B2.apply_operation 10 (.Insert 9 4 2 66) = .ok stB ∧
      apply2 10 B2 (.Insert 8 4 2 55) (.Insert 9 4 2 66) = .ok stAB ∧
      apply2 10 B2 (.Insert 9 4 2 66) (.Insert 8 4 2 55) = .ok stBA ∧
      stAB ≠ stBA := by
  refine ⟨⟨3,
      [⟨0, none, some 1, .Beginning⟩, ⟨1, some 0, some 2, .Insert 100⟩,
       ⟨4, some 1, some 3, .Insert 8⟩, ⟨3, some 1, some 2, .Insert 7⟩,
       ⟨2, some 1, none, .End⟩]⟩,
    ⟨4,
      [⟨0, none, some 1, .Beginning⟩, ⟨1, some 0, some 2, .Insert 100⟩,
       ⟨4, some 1, some 3, .Insert 8⟩, ⟨8, some 4, some 2, .Insert 55⟩,
       ⟨3, some 1, some 2, .Insert 7⟩, ⟨2, some 1, none, .End⟩]⟩,
    ⟨4,
      [⟨0, none, some 1, .Beginning⟩, ⟨1, some 0, some 2, .Insert 100⟩,
       ⟨4, some 1, some 3, .Insert 8⟩, ⟨9, some 4, some 2, .Insert 66⟩,
       ⟨3, some 1, some 2, .Insert 7⟩, ⟨2, some 1, none, .End⟩]⟩,
    ⟨5,
      [⟨0, none, some 1, .Beginning⟩, ⟨1, some 0, some 2, .Insert 100⟩,
       ⟨4, some 1, some 3, .Insert 8⟩, ⟨8, some 4, some 2, .Insert 55⟩,
       ⟨3, some 1, some 2, .Insert 7⟩, ⟨9, some 4, some 2, .Insert 66⟩,
       ⟨2, some 1, none, .End⟩]⟩,
    ⟨5,
      [⟨0, none, some 1, .Beginning⟩, ⟨1, some 0, some 2, .Insert 100⟩,
       ⟨4, some 1, some 3, .Insert 8⟩, ⟨8, some 4, some 2, .Insert 55⟩,
       ⟨9, some 4, some 2, .Insert 66⟩, ⟨3, some 1, some 2, .Insert 7⟩,
       ⟨2, some 1, none, .End⟩]⟩,
    ?_, ?_, ?_, ?_, ?_, ?_, ?_, ?_⟩ <;> decide

theorem match_sf_ne_err (o : Option Nat) (f : Nat → VecLinearData)
    (st2 : VecLinearData) (op2 : DataOperation) :
    (match o with
     | none => ApplyResult.fatal
     | some position => ApplyResult.ok (f position)) = .err st2 op2 → False := by
  cases o <;> simp

theorem delete_none_eq (st : VecLinearData) (idv : Nat)
    (st2 : VecLinearData) (h : st.delete idv = some (st2, none)) :
    st2 = st := by
  unfold VecLinearData.delete at h
  split at h
  · split at h
    · exact absurd h (by simp)
    · split at h <;> simp_all
  · simp_all

/-- C2: for the non-coalesced `VecLinearData::apply_operation`, every failure
returns the original operation verbatim and leaves the state exactly
unchanged. For the coalesced variant the same property fails on a reachable
state: deleting an Insert node that carries an empty chunk (which
`apply_operation` accepts without validation) marks the node deleted and
decrements both length counters before reporting `Err`. -/
theorem C2_failure_semantics :
    (∀ fuel st op st2 op2,
        VecLinearData.apply_operation fuel st op = .err st2 op2 →
          st2 = st ∧ op2 = op) ∧
    (∃ st0 st1 st2 stBad : VecCoalescedLinearData,
      st0 = ⟨0, 0, [⟨⟨7, 0⟩, none, .Beginning⟩, ⟨⟨7, 1⟩, some ⟨7, 0⟩, .End⟩]⟩ ∧
      st0.apply_operation (.Insert ⟨8, 0⟩ ⟨7, 0⟩ ⟨7, 1⟩ [5]) = .ok st1 ∧
      st1.apply_operation (.Insert ⟨9, 0⟩ ⟨8, 0⟩ ⟨7, 1⟩ []) = .ok st2 ∧
      st2.apply_operation (.Delete ⟨9, 0⟩ none) =
        .err stBad (.Delete ⟨9, 0⟩ none) ∧
      stBad ≠ st2) := by
  constructor
  · intro fuel st op st2 op2 h
    cases op with
    | Insert idv pred succ value =>
        unfold VecLinearData.apply_operation at h
        repeat' split at h
        all_goals try (exact absurd h (match_sf_ne_err _ _ _ _))
        all_goals simp_all
    | Delete start stop =>
        unfold VecLinearData.apply_operation at h
        cases stop with
        | some e =>
            have h2 : ApplyResult.err st (.Delete start (some e)) =
                .err st2 op2 := h
            injection h2 with ha hb
            exact ⟨ha.symm, hb.symm⟩
        | none =>
            have h2 : (match st.delete start with
              | none => ApplyResult.fatal
              | some (st3, some _) => ApplyResult.ok st3
              | some (st3, none) =>
                  ApplyResult.err st3 (.Delete start none)) = .err st2 op2 := h
            cases hdel : st.delete start with
            | none =>
                rw [hdel] at h2
                exact ApplyResult.noConfusion h2
            | some p =>
                obtain ⟨st3, vo⟩ := p
                cases vo with
                | some v =>
                    rw [hdel] at h2
                    exact ApplyResult.noConfusion h2
                | none =>
                    rw [hdel] at h2
                    injection h2 with ha hb
                    exact ⟨ha ▸ delete_none_eq st start st3 hdel, hb.symm⟩
  · refine ⟨⟨0, 0, [⟨⟨7, 0⟩, none, .Beginning⟩, ⟨⟨7, 1⟩, some ⟨7, 0⟩, .End⟩]⟩,
      ⟨1, 1, [⟨⟨7, 0⟩, none, .Beginning⟩, ⟨⟨8, 0⟩, some ⟨7, 0⟩, .Insert [5]⟩,
        ⟨⟨7, 1⟩, some ⟨7, 0⟩, .End⟩]⟩,
      ⟨1, 2, [⟨⟨7, 0⟩, none, .Beginning⟩, ⟨⟨8, 0⟩, some ⟨7, 0⟩, .Insert [5]⟩,
        ⟨⟨9, 0⟩, some ⟨8, 0⟩, .Insert []⟩, ⟨⟨7, 1⟩, some ⟨7, 0⟩, .End⟩]⟩,
      ⟨0, 1, [⟨⟨7, 0⟩, none, .Beginning⟩, ⟨⟨8, 0⟩, some ⟨7, 0⟩, .Insert [5]⟩,
        ⟨⟨9, 0⟩, some ⟨8, 0⟩, .Delete []⟩, ⟨⟨7, 1⟩, some ⟨7, 0⟩, .End⟩]⟩,
      ?_, ?_, ?_, ?_, ?_⟩ <;> decide

/-- C2 witness: the non-coalesced no-partial-mutation property applied to a
concrete failing operation (missing anchors). -/
theorem C2_failure_semantics_witness :
    VecLinearData.apply_operation 10 (VecLinearData.with_value 0 1 2 0)
      (.Insert 42 999 1000 7) =
      .err (VecLinearData.with_value 0 1 2 0) (.Insert 42 999 1000 7) ∧
    ((VecLinearData.with_value 0 1 2 0), (.Insert 42 999 1000 7 :
        DataOperation)) =
      ((VecLinearData.with_value 0 1 2 0), (.Insert 42 999 1000 7 :
        DataOperation)) := by
  have heval : VecLinearData.apply_operation 10 (VecLinearData.with_value 0 1 2 0)
      (.Insert 42 999 1000 7) =
      .err (VecLinearData.with_value 0 1 2 0) (.Insert 42 999 1000 7) := by
    decide
  have h := (C2_failure_semantics.1 10 (VecLinearData.with_value 0 1 2 0)
    (.Insert 42 999 1000 7) (VecLinearData.with_value 0 1 2 0)
    (.Insert 42 999 1000 7) heval)
  exact ⟨heval, by rw [h.1, h.2]⟩

/-- C9 counterexample to the claim as stated: an id at sub-index 0 can
address at most `2 ^ 16 - 1 = 65535` elements, not `2 ^ 16`: `can_address`
rejects a 65536-element chunk at sub-index 0, and `LinearList::append` of
such a chunk panics instead of storing it; `addressable_len` at sub-index `s`
is `2 ^ 16 - 1 - s`, not `2 ^ 16 - s`. -/
theorem append_guard_none (st : VecCoalescedLinearData) (i : IdWithIndex)
    (values : List Nat) (hne : values ≠ [])
    (hfail : i.can_address values.length = false) :
    LinearList.append st i values = none := by
  unfold LinearList.append
  rw [if_neg hne, if_neg (by simp [hfail])]

theorem C9_counterexample :
    IdWithIndex.can_address ⟨9, 0⟩ (2 ^ 16) = false ∧
    IdWithIndex.can_address ⟨9, 0⟩ (2 ^ 16 - 1) = true ∧
    IdWithIndex.addressable_len ⟨9, 5⟩ = 2 ^ 16 - 1 - 5 ∧
    LinearList.append
      ⟨0, 0, [⟨⟨7, 0⟩, none, .Beginning⟩, ⟨⟨7, 1⟩, some ⟨7, 0⟩, .End⟩]⟩
      ⟨9, 0⟩ (List.replicate (2 ^ 16) 1) = none := by
  refine ⟨by decide, by decide, by decide, ?_⟩
  refine append_guard_none _ _ _ ?_ ?_
  · rw [Ne, List.replicate_eq_nil]
    decide
  · rw [List.length_replicate]
    decide

/-- C9 (amended): `can_address` at sub-index `s` accepts exactly chunks of
`n ≤ 2 ^ 16 - 1 - s` elements, i.e. it enforces
`sub_index + node_length ≤ 2 ^ 16 - 1`; `addressable_len` is
`2 ^ 16 - 1 - s`; and `LinearList::append` checks the guard up front — a
nonempty chunk that the id cannot address makes it panic before any mutation,
and whenever it returns a state the chunk was either empty or within the
bound. -/
theorem C9_can_address (i : IdWithIndex) (n : Nat)
    (values : List Nat) (st : VecCoalescedLinearData)
    (hidx : i.index ≤ 2 ^ 16 - 1) :
    (i.can_address n = true ↔ i.index + n ≤ 2 ^ 16 - 1) ∧
    (i.addressable_len = 2 ^ 16 - 1 - i.index) ∧
    (values ≠ [] → i.can_address values.length = false →
      LinearList.append st i values = none) ∧
    (∀ st2, LinearList.append st i values = some st2 →
      values = [] ∨ i.index + values.length ≤ 2 ^ 16 - 1) := by
  have hpow : (2 : Nat) ^ 16 = 65536 := by norm_num
  have hca : ∀ m, i.can_address m = true ↔ i.index + m ≤ 2 ^ 16 - 1 := by
    intro m
    unfold IdWithIndex.can_address IdWithIndex.addressable_len
      IdWithIndex.MAX_LENGTH
    rw [decide_eq_true_iff]
    rw [hpow] at hidx ⊢
    omega
  refine ⟨hca n, ?_, ?_, ?_⟩
  · unfold IdWithIndex.addressable_len IdWithIndex.MAX_LENGTH
    rw [hpow]
  · intro hne hfail
    exact append_guard_none st i values hne hfail
  · intro st2 happ
    by_cases hne : values = []
    · exact Or.inl hne
    · refine Or.inr ?_
      unfold LinearList.append at happ
      rw [if_neg hne] at happ
      by_cases hguard : i.can_address values.length = true
      · exact (hca values.length).mp hguard
      · rw [if_neg hguard] at happ
        exact absurd happ (by simp)

/-- C9 witness: the amended characterisation at concrete inputs. -/
theorem C9_can_address_witness :
    (IdWithIndex.can_address ⟨9, 10⟩ 7 = true ↔ 10 + 7 ≤ 2 ^ 16 - 1) ∧
    (IdWithIndex.addressable_len ⟨9, 10⟩ = 2 ^ 16 - 1 - 10) ∧
    ([1, 2] ≠ [] → IdWithIndex.can_address ⟨9, 10⟩ ([1, 2] : List Nat).length
        = false →
      LinearList.append
        ⟨0, 0, [⟨⟨7, 0⟩, none, .Beginning⟩, ⟨⟨7, 1⟩, some ⟨7, 0⟩, .End⟩]⟩
        ⟨9, 10⟩ [1, 2] = none) ∧
    (∀ st2, LinearList.append
        ⟨0, 0, [⟨⟨7, 0⟩, none, .Beginning⟩, ⟨⟨7, 1⟩, some ⟨7, 0⟩, .End⟩]⟩
        ⟨9, 10⟩ [1, 2] = some st2 →
      ([1, 2] : List Nat) = [] ∨ 10 + ([1, 2] : List Nat).length ≤
        2 ^ 16 - 1) :=
  C9_can_address ⟨9, 10⟩ 7 [1, 2]
    ⟨0, 0, [⟨⟨7, 0⟩, none, .Beginning⟩, ⟨⟨7, 1⟩, some ⟨7, 0⟩, .End⟩]⟩
    (by decide)

theorem iter_len_aux (nodes : List Node) (k : Nat) :
    ((List.enumFrom k nodes).filter fun p =>
      match p.2.operation with | .Insert _ => true | _ => false).length =
    (nodes.filterMap fun n =>
      match n.operation with | .Insert v => some v | _ => none).length := by
  induction nodes generalizing k with
  | nil => rfl
  | cons x xs ih =>
      rw [List.enumFrom_cons, List.filter_cons, List.filterMap_cons]
      cases hop : x.operation <;> simp [hop, ih]

theorem iter_lengths (nodes : List Node) :
    (iter_inserts nodes).length = (iter_values nodes).length :=
  iter_len_aux nodes 0

theorem iter_inserts_mem (nodes : List Node) (i : Nat) (x : Node)
    (hq : (i, x) ∈ iter_inserts nodes) :
    nodes[i]? = some x ∧ ∃ v, x.operation = .Insert v := by
  unfold iter_inserts at hq
  obtain ⟨hmem, hp⟩ := List.mem_filter.mp hq
  constructor
  · have h2 := (List.mk_mem_enumFrom_iff_le_and_getElem?_sub.mp hmem).2
    simpa using h2
  · revert hp
    cases x.operation <;> simp

theorem iter_inserts_bounds (st : VecLinearData) (h : WFv st) (i : Nat)
    (x : Node) (hq : (i, x) ∈ iter_inserts st.nodes) :
    1 ≤ i ∧ i + 1 < st.nodes.length := by
  obtain ⟨hlen, h2, hhead, hlast⟩ := h
  obtain ⟨hget, v, hins⟩ := iter_inserts_mem st.nodes i x hq
  have hlt : i < st.nodes.length := by
    obtain ⟨hb, _⟩ := List.getElem?_eq_some.mp hget
    exact hb
  constructor
  · by_contra h0
    have hi0 : i = 0 := by omega
    rw [hi0] at hget
    rw [List.head?_eq_getElem?, hget] at hhead
    simp [hins] at hhead
  · by_contra hge
    have hil : i = st.nodes.length - 1 := by omega
    rw [List.getLast?_eq_getElem?, ← hil, hget] at hlast
    simp [hins] at hlast

theorem vec_ids_at_pos_spec (st : VecLinearData) (h : WFv st) (p : Nat) :
    (p < (iter_values st.nodes).length →
      ∃ i node pn sn1,
        (iter_inserts st.nodes)[p]? = some (i, node) ∧ 1 ≤ i ∧
        i + 1 < st.nodes.length ∧
        st.nodes[i - 1]? = some pn ∧ st.nodes[i]? = some node ∧
        st.nodes[i + 1]? = some sn1 ∧
        st.ids_at_pos p = some (some ⟨pn.id, node.id, sn1.id⟩)) ∧
    (¬p < (iter_values st.nodes).length → st.ids_at_pos p = some none) := by
  have hlen := h.1
  constructor
  · intro hp
    have hp2 : p < (iter_inserts st.nodes).length := by
      rw [iter_lengths]
      exact hp
    obtain ⟨i, node, hq⟩ :
        ∃ i node, (iter_inserts st.nodes)[p]? = some (i, node) := by
      rw [List.getElem?_eq_getElem hp2]
      exact ⟨_, _, rfl⟩
    obtain ⟨hb, he⟩ := List.getElem?_eq_some.mp hq
    have hmem : (i, node) ∈ iter_inserts st.nodes := by
      have h3 := List.getElem_mem hb
      rw [he] at h3
      exact h3
    obtain ⟨h1, h2⟩ := iter_inserts_bounds st h i node hmem
    have hget : st.nodes[i]? = some node :=
      (iter_inserts_mem st.nodes i node hmem).1
    obtain ⟨pn, hpn⟩ : ∃ pn, st.nodes[i - 1]? = some pn :=
      ⟨_, List.getElem?_eq_getElem (by omega)⟩
    obtain ⟨sn1, hsn⟩ : ∃ s, st.nodes[i + 1]? = some s :=
      ⟨_, List.getElem?_eq_getElem (by omega)⟩
    refine ⟨i, node, pn, sn1, hq, h1, h2, hpn, hget, hsn, ?_⟩
    unfold VecLinearData.ids_at_pos
    rw [if_pos (by rw [hlen]; exact hp), hq]
    show (if i = 0 then none
      else match st.nodes[i - 1]?, st.nodes[i]?, st.nodes[i + 1]? with
        | some a, some c, some s =>
            some (some (⟨a.id, c.id, s.id⟩ : NodeIds))
        | _, _, _ => none) = some (some ⟨pn.id, node.id, sn1.id⟩)
    rw [if_neg (by omega), hpn, hget, hsn]
  · intro hp
    unfold VecLinearData.ids_at_pos
    rw [if_neg (by rw [hlen]; exact hp)]

theorem nap_loop_none (p : Nat) (l : List (Nat × CNode)) (acc : Nat)
    (hpos : ∀ q ∈ l, 0 < q.2.node_len) (hacc : acc ≤ p)
    (h : ¬p < acc + (l.map fun q => q.2.node_len).sum) :
    node_at_position_loop p l acc = some none := by
  induction l generalizing acc with
  | nil => rfl
  | cons q rest ih =>
      obtain ⟨ni, node⟩ := q
      have hq0 : 0 < node.node_len := hpos (ni, node) (by simp)
      simp only [List.map_cons, List.sum_cons] at h
      unfold node_at_position_loop
      rw [if_neg (by omega), if_pos (by omega)]
      exact ih (acc + node.node_len) (fun q hq => hpos q (by simp [hq]))
        (by omega) (by omega)

theorem nap_loop_found (p : Nat) (l : List (Nat × CNode)) (acc : Nat)
    (hpos : ∀ q ∈ l, 0 < q.2.node_len) (hacc : acc ≤ p)
    (h : p < acc + (l.map fun q => q.2.node_len).sum) :
    ∃ k ni node, l[k]? = some (ni, node) ∧
      node_at_position_loop p l acc =
        some (some (ni, acc + ((l.take k).map fun q => q.2.node_len).sum)) ∧
      acc + ((l.take k).map fun q => q.2.node_len).sum ≤ p ∧
      p < acc + ((l.take k).map fun q => q.2.node_len).sum + node.node_len := by
  induction l generalizing acc with
  | nil => simp at h; omega
  | cons q rest ih =>
      obtain ⟨ni, node⟩ := q
      have hq0 : 0 < node.node_len := hpos (ni, node) (by simp)
      by_cases hfound : p < acc + node.node_len
      · refine ⟨0, ni, node, by simp, ?_, by simp; omega, by simp; omega⟩
        unfold node_at_position_loop
        rw [if_pos hfound]
        simp
      · simp only [List.map_cons, List.sum_cons] at h
        obtain ⟨k, ni2, node2, hget, hloop, hlo, hhi⟩ :=
          ih (acc + node.node_len) (fun q hq => hpos q (by simp [hq]))
            (by omega) (by omega)
        refine ⟨k + 1, ni2, node2, by simpa using hget, ?_, ?_, ?_⟩
        · unfold node_at_position_loop
          rw [if_neg hfound, if_pos (by omega), hloop]
          rw [List.take_succ_cons, List.map_cons, List.sum_cons]
          dsimp only
          rw [show acc + node.node_len +
              ((List.take k rest).map fun q => q.2.node_len).sum =
              acc + (node.node_len +
                ((List.take k rest).map fun q => q.2.node_len).sum) from by
            omega]
        · rw [List.take_succ_cons, List.map_cons, List.sum_cons]
          dsimp only
          omega
        · rw [List.take_succ_cons, List.map_cons, List.sum_cons]
          dsimp only
          omega

theorem c_iter_inserts_mem (nodes : List CNode) (i : Nat) (x : CNode)
    (hq : (i, x) ∈ c_iter_inserts nodes) :
    nodes[i]? = some x ∧ ∃ v, x.operation = .Insert v := by
  unfold c_iter_inserts at hq
  obtain ⟨hmem, hp⟩ := List.mem_filter.mp hq
  constructor
  · have h2 := (List.mk_mem_enumFrom_iff_le_and_getElem?_sub.mp hmem).2
    simpa using h2
  · revert hp
    cases x.operation <;> simp

theorem c_iter_inserts_bounds (st : VecCoalescedLinearData) (h : WFc st)
    (i : Nat) (x : CNode) (hq : (i, x) ∈ c_iter_inserts st.base.nodes) :
    1 ≤ i ∧ i + 1 < st.base.nodes.length := by
  obtain ⟨hlen, h2, hhead, hlast, hbounds⟩ := h
  obtain ⟨hget, v, hins⟩ := c_iter_inserts_mem st.base.nodes i x hq
  have hlt : i < st.base.nodes.length := by
    obtain ⟨hb, _⟩ := List.getElem?_eq_some.mp hget
    exact hb
  constructor
  · by_contra h0
    have hi0 : i = 0 := by omega
    rw [hi0] at hget
    rw [List.head?_eq_getElem?, hget] at hhead
    simp [hins] at hhead
  · by_contra hge
    have hil : i = st.base.nodes.length - 1 := by omega
    rw [List.getLast?_eq_getElem?, ← hil, hget] at hlast
    simp [hins] at hlast

theorem visible_ids_aux (nodes : List CNode) (k : Nat) :
    (((List.enumFrom k nodes).filter fun p =>
        match p.2.operation with
        | COperation.Insert _ => true | _ => false).flatMap
      fun q => node_ids q.2) = visible_ids nodes := by
  induction nodes generalizing k with
  | nil => rfl
  | cons x xs ih =>
      rw [List.enumFrom_cons, List.filter_cons]
      have hvis : visible_ids (x :: xs) =
          (match x.operation with
           | COperation.Insert v =>
               (List.range v.length).map fun m =>
                 (⟨x.id.id, x.id.index + m⟩ : IdWithIndex)
           | _ => []) ++ visible_ids xs := by
        unfold visible_ids
        rw [List.cons_flatMap]
      rw [hvis]
      by_cases hins : ∃ v, x.operation = COperation.Insert v
      · obtain ⟨v, hop⟩ := hins
        rw [if_pos (by simp [hop]), List.cons_flatMap, ih]
        simp [node_ids, hop]
      · have hfalse : (match x.operation with
            | COperation.Insert _ => true | _ => false) = false := by
          cases hop : x.operation
          · exact absurd ⟨_, hop⟩ hins
          all_goals rfl
        have hnil : (match x.operation with
            | COperation.Insert v =>
                (List.range v.length).map fun m =>
                  (⟨x.id.id, x.id.index + m⟩ : IdWithIndex)
            | _ => ([] : List IdWithIndex)) = [] := by
          cases hop : x.operation
          · exact absurd ⟨_, hop⟩ hins
          all_goals rfl
        rw [if_neg (by simp [hfalse]), ih, hnil, List.nil_append]

theorem bind_getElem_aux {α β : Type} (f : α → List β) (L : List α)
    (k off : Nat) (x : α) (hk : L[k]? = some x) (hoff : off < (f x).length) :
    (L.flatMap f)[(((L.take k).map fun a => (f a).length).sum + off)]? =
      (f x)[off]? := by
  induction L generalizing k with
  | nil => simp at hk
  | cons a as ih =>
      cases k with
      | zero =>
          simp only [List.getElem?_cons_zero, Option.some.injEq] at hk
          subst hk
          rw [List.cons_flatMap]
          simp only [List.take_zero, List.map_nil, List.sum_nil, Nat.zero_add]
          rw [List.getElem?_append, if_pos hoff]
      | succ k2 =>
          simp only [List.getElem?_cons_succ] at hk
          rw [List.cons_flatMap, List.take_succ_cons, List.map_cons,
            List.sum_cons]
          rw [List.getElem?_append_right (by omega)]
          rw [show (f a).length + ((List.take k2 as).map fun a =>
            (f a).length).sum + off - (f a).length =
            ((List.take k2 as).map fun a => (f a).length).sum + off from by
              omega]
          exact ih k2 hk

theorem node_ids_insert_len (n : CNode) (v : List Nat)
    (hop : n.operation = .Insert v) : (node_ids n).length = n.node_len := by
  unfold node_ids CNode.node_len
  rw [hop]
  simp

theorem node_ids_payload_getElem (n : CNode) (off : Nat)
    (hoff : off < n.node_len) :
    (node_ids n)[off]? = some ⟨n.id.id, n.id.index + off⟩ := by
  unfold CNode.node_len at hoff
  unfold node_ids
  cases hop : n.operation <;> rw [hop] at hoff <;> simp at hoff <;>
    simp [List.getElem?_map, List.getElem?_range, hoff]

theorem node_ids_ne_nil (n : CNode) (hv : n.get_current_value ≠ some [])
    (hd : delete_nonempty n = true) : 1 ≤ (node_ids n).length := by
  unfold node_ids
  cases hop : n.operation with
  | Insert v =>
      have hne : v ≠ [] := by
        intro hnil
        apply hv
        unfold CNode.get_current_value
        rw [hop, hnil]
      have := List.length_pos.mpr hne
      simp
      omega
  | Delete v =>
      have hne : v ≠ [] := by
        unfold delete_nonempty at hd
        rw [hop] at hd
        simpa using hd
      have := List.length_pos.mpr hne
      simp
      omega
  | Beginning => simp
  | End => simp
  | Invalid => simp

theorem node_ids_head_eq (n : CNode) (hv : n.get_current_value ≠ some [])
    (hd : delete_nonempty n = true) : (node_ids n)[0]? = some n.id := by
  have hlen := node_ids_ne_nil n hv hd
  have h0 : (node_ids n)[0]? = some ⟨n.id.id, n.id.index + 0⟩ := by
    unfold node_ids at hlen ⊢
    cases hop : n.operation <;> rw [hop] at hlen <;>
      simp at hlen <;>
      simp [List.getElem?_map, List.getElem?_range, hlen] <;>
      rw [List.getElem?_range (by omega)]
  rw [h0]
  congr 1

theorem node_ids_last_eq (n : CNode) (hv : n.get_current_value ≠ some [])
    (hd : delete_nonempty n = true) :
    (node_ids n)[(node_ids n).length - 1]? = some n.last_id := by
  unfold node_ids CNode.last_id CNode.last_index CNode.node_len
  cases hop : n.operation with
  | Insert v =>
      have hne : v ≠ [] := by
        intro hnil
        apply hv
        unfold CNode.get_current_value
        rw [hop, hnil]
      have hpos := List.length_pos.mpr hne
      dsimp only
      simp only [List.length_map, List.length_range]
      rw [List.getElem?_map, List.getElem?_range (by omega)]
      rw [show Option.map (fun k =>
          (⟨n.id.id, n.id.index + k⟩ : IdWithIndex)) (some (v.length - 1)) =
        some ⟨n.id.id, n.id.index + (v.length - 1)⟩ from rfl]
      split
      · rename_i hsmall
        have hv1 : v.length = 1 := by omega
        rw [hv1]
        norm_num
      · rfl
  | Delete v =>
      have hne : v ≠ [] := by
        unfold delete_nonempty at hd
        rw [hop] at hd
        simpa using hd
      have hpos := List.length_pos.mpr hne
      dsimp only
      simp only [List.length_map, List.length_range]
      rw [List.getElem?_map, List.getElem?_range (by omega)]
      rw [show Option.map (fun k =>
          (⟨n.id.id, n.id.index + k⟩ : IdWithIndex)) (some (v.length - 1)) =
        some ⟨n.id.id, n.id.index + (v.length - 1)⟩ from rfl]
      split
      · rename_i hsmall
        have hv1 : v.length = 1 := by omega
        rw [hv1]
        norm_num
      · rfl
  | Beginning => simp
  | End => simp
  | Invalid => simp

theorem predecessor_id_eval (st : VecCoalescedLinearData) (i : IdWithIndex)
    (ni : Nat) (node : CNode) (d : Nat)
    (hget : st.base.nodes[ni]? = some node)
    (hd : i.index_diff node.id = some d) :
    predecessor_id st i ni =
      (if 0 < d then i.decrement
       else if ni = 0 then none
       else (st.base.nodes[ni - 1]?).map CNode.last_id) := by
  unfold predecessor_id
  rw [hget]
  show (match i.index_diff node.id with
    | none => none
    | some d =>
        if 0 < d then i.decrement
        else if ni = 0 then none
        else (st.base.nodes[ni - 1]?).map CNode.last_id) = _
  rw [hd]

theorem successor_id_eval (st : VecCoalescedLinearData) (i : IdWithIndex)
    (ni : Nat) (node : CNode) (d : Nat)
    (hget : st.base.nodes[ni]? = some node)
    (hd : i.index_diff node.id = some d) :
    successor_id st i ni =
      (if d + 1 < node.node_len then i.increment
       else (st.base.nodes[ni + 1]?).map CNode.id) := by
  unfold successor_id
  rw [hget]
  show (match i.index_diff node.id with
    | none => none
    | some d =>
        if d + 1 < node.node_len then i.increment
        else (st.base.nodes[ni + 1]?).map CNode.id) = _
  rw [hd]

theorem c_ids_at_pos_eval (st : VecCoalescedLinearData) (p ni S : Nat)
    (node : CNode) (pr su : IdWithIndex)
    (hplen : p < st.len)
    (hnap : node_at_position st p = some (some (ni, S)))
    (hoff16 : p - S ≤ 65535)
    (hget : st.base.nodes[ni]? = some node)
    (hpred : predecessor_id st (node.id.addIndex (p - S)) ni = some pr)
    (hsucc : successor_id st (node.id.addIndex (p - S)) ni = some su) :
    st.ids_at_pos p = some (some ⟨pr, node.id.addIndex (p - S), su⟩) := by
  unfold VecCoalescedLinearData.ids_at_pos
  rw [if_pos hplen, hnap]
  show (if p - S ≤ 65535 then
      match st.base.nodes[ni]? with
      | none => none
      | some current_node =>
        let current := current_node.id.addIndex (p - S)
        match predecessor_id st current ni, successor_id st current ni with
        | some q, some s => some (some (⟨q, current, s⟩ : CNodeIds))
        | _, _ => none
    else none) = some (some ⟨pr, node.id.addIndex (p - S), su⟩)
  rw [if_pos hoff16, hget]
  show (match predecessor_id st (node.id.addIndex (p - S)) ni,
      successor_id st (node.id.addIndex (p - S)) ni with
    | some q, some s => some (some (⟨q, node.id.addIndex (p - S), s⟩ :
        CNodeIds))
    | _, _ => none) = some (some ⟨pr, node.id.addIndex (p - S), su⟩)
  rw [hpred, hsucc]

theorem c_ids_at_pos_spec (st : VecCoalescedLinearData) (h : WFc st)
    (p : Nat) :
    (p < insertsLenSum st.base.nodes →
      ∃ ids : CNodeIds, st.ids_at_pos p = some (some ids) ∧
        (visible_ids st.base.nodes)[p]? = some ids.current ∧
        ∃ j, 1 ≤ j ∧
          (table_ids st.base.nodes)[j - 1]? = some ids.predecessor ∧
          (table_ids st.base.nodes)[j]? = some ids.current ∧
          (table_ids st.base.nodes)[j + 1]? = some ids.successor) ∧
    (¬p < insertsLenSum st.base.nodes → st.ids_at_pos p = some none) := by
  obtain ⟨hlen, hlen2, hhead, hlast, hWFn⟩ := h
  have hWF : WFc st := ⟨hlen, hlen2, hhead, hlast, hWFn⟩
  have hpos : ∀ q ∈ c_iter_inserts st.base.nodes, 0 < q.2.node_len := by
    intro q hq
    obtain ⟨i, x⟩ := q
    obtain ⟨hget, v, hins⟩ := c_iter_inserts_mem st.base.nodes i x hq
    have hxmem : x ∈ st.base.nodes := by
      obtain ⟨hb, he⟩ := List.getElem?_eq_some.mp hget
      rw [← he]
      exact List.getElem_mem hb
    obtain ⟨hbound, hvne, hdne⟩ := hWFn x hxmem
    have hne : v ≠ [] := by
      intro hnil
      apply hvne
      unfold CNode.get_current_value
      rw [hins, hnil]
    show 0 < x.node_len
    unfold CNode.node_len
    rw [hins]
    exact List.length_pos.mpr hne
  constructor
  · intro hp
    unfold insertsLenSum at hp
    obtain ⟨k, ni, node, hk, hloop, hlo, hhi⟩ :=
      nap_loop_found p (c_iter_inserts st.base.nodes) 0 hpos (Nat.zero_le p)
        (by simpa using hp)
    simp only [Nat.zero_add] at hloop hlo hhi
    have hmemk : (ni, node) ∈ c_iter_inserts st.base.nodes := by
      obtain ⟨hb, he⟩ := List.getElem?_eq_some.mp hk
      have h3 := List.getElem_mem hb
      rw [he] at h3
      exact h3
    obtain ⟨hni_get, v, hins⟩ := c_iter_inserts_mem st.base.nodes ni node hmemk
    obtain ⟨h1le, h2lt⟩ := c_iter_inserts_bounds st hWF ni node hmemk
    have hnodemem : node ∈ st.base.nodes := by
      obtain ⟨hb, he⟩ := List.getElem?_eq_some.mp hni_get
      rw [← he]
      exact List.getElem_mem hb
    obtain ⟨hbound, hvne, hdne⟩ := hWFn node hnodemem
    have hnlpos : 0 < node.node_len := hpos (ni, node) hmemk
    have hnl16 : node.node_len ≤ 65536 := by omega
    have hnilen : (node_ids node).length = node.node_len :=
      node_ids_insert_len node v hins
    have hoff : p - ((List.take k (c_iter_inserts st.base.nodes)).map
        fun q => q.2.node_len).sum < node.node_len := by omega
    have hcuridx : node.id.index +
        (p - ((List.take k (c_iter_inserts st.base.nodes)).map
          fun q => q.2.node_len).sum) < 65536 := by omega
    have hcur : node.id.addIndex
        (p - ((List.take k (c_iter_inserts st.base.nodes)).map
          fun q => q.2.node_len).sum) =
        ⟨node.id.id, node.id.index +
          (p - ((List.take k (c_iter_inserts st.base.nodes)).map
            fun q => q.2.node_len).sum)⟩ := by
      unfold IdWithIndex.addIndex
      congr 1
      exact Nat.mod_eq_of_lt hcuridx
    set S := ((List.take k (c_iter_inserts st.base.nodes)).map
      fun q => q.2.node_len).sum with hSdef
    have hdiff : (⟨node.id.id, node.id.index + (p - S)⟩ :
        IdWithIndex).index_diff node.id = some (p - S) := by
      unfold IdWithIndex.index_diff
      rw [if_pos ⟨rfl, show node.id.index ≤ node.id.index + (p - S) from by
        omega⟩]
      congr 1
      show node.id.index + (p - S) - node.id.index = p - S
      omega
    set J := ((List.take ni st.base.nodes).map
      fun a => (node_ids a).length).sum + (p - S) with hJdef
    have hvpref : ((List.take k (c_iter_inserts st.base.nodes)).map
        fun q => (node_ids q.2).length).sum = S := by
      rw [hSdef]
      congr 1
      apply List.map_congr_left
      intro q hq
      have hq2 : q ∈ c_iter_inserts st.base.nodes :=
        List.take_subset k _ hq
      obtain ⟨i2, x2⟩ := q
      obtain ⟨hget2, v2, hins2⟩ := c_iter_inserts_mem st.base.nodes i2 x2 hq2
      exact node_ids_insert_len x2 v2 hins2
    have hveq : visible_ids st.base.nodes =
        (c_iter_inserts st.base.nodes).flatMap fun q => node_ids q.2 := by
      unfold c_iter_inserts
      rw [show st.base.nodes.enum = List.enumFrom 0 st.base.nodes from rfl]
      exact (visible_ids_aux st.base.nodes 0).symm
    have hvisible : (visible_ids st.base.nodes)[p]? =
        some ⟨node.id.id, node.id.index + (p - S)⟩ := by
      have hb := bind_getElem_aux (fun q => node_ids q.2)
        (c_iter_inserts st.base.nodes) k (p - S) (ni, node) hk
        (by dsimp only; omega)
      dsimp only at hb
      rw [hvpref] at hb
      rw [show S + (p - S) = p from by omega] at hb
      rw [hveq, hb]
      exact node_ids_payload_getElem node (p - S) hoff
    have hcurtab : (table_ids st.base.nodes)[J]? =
        some ⟨node.id.id, node.id.index + (p - S)⟩ := by
      have hb := bind_getElem_aux node_ids st.base.nodes ni (p - S) node
        hni_get (by omega)
      rw [hJdef]
      unfold table_ids
      rw [hb]
      exact node_ids_payload_getElem node (p - S) hoff
    have hJ1 : 1 ≤ J := by
      by_cases hoffpos : 0 < p - S
      · omega
      · rw [hJdef]
        obtain ⟨m, hm⟩ : ∃ m, ni = m + 1 := ⟨ni - 1, by omega⟩
        cases hnodes : st.base.nodes with
        | nil => rw [hnodes] at hlen2; simp at hlen2
        | cons n0 rest =>
            have hn0mem : n0 ∈ st.base.nodes := by
              rw [hnodes]
              exact List.mem_cons_self n0 rest
            obtain ⟨hb0, hv0, hd0⟩ := hWFn n0 hn0mem
            have h01 := node_ids_ne_nil n0 hv0 hd0
            rw [hm, List.take_succ_cons, List.map_cons, List.sum_cons]
            omega
    have hPred : ∃ pr, predecessor_id st
        (⟨node.id.id, node.id.index + (p - S)⟩ : IdWithIndex) ni = some pr ∧
        (table_ids st.base.nodes)[J - 1]? = some pr := by
      have heval := predecessor_id_eval st
        (⟨node.id.id, node.id.index + (p - S)⟩ : IdWithIndex) ni node (p - S)
        hni_get hdiff
      by_cases hoffpos : 0 < p - S
      · refine ⟨⟨node.id.id, node.id.index + (p - S) - 1⟩, ?_, ?_⟩
        · rw [heval, if_pos hoffpos]
          unfold IdWithIndex.decrement IdWithIndex.checked_decrement
          rw [if_neg (show ¬((⟨node.id.id, node.id.index + (p - S)⟩ :
            IdWithIndex).index = 0) from by
              show ¬(node.id.index + (p - S) = 0)
              omega)]
        · have hb := bind_getElem_aux node_ids st.base.nodes ni (p - S - 1)
            node hni_get (by omega)
          rw [show ((List.take ni st.base.nodes).map
              fun a => (node_ids a).length).sum + (p - S - 1) = J - 1 from by
            rw [hJdef]; omega] at hb
          unfold table_ids
          rw [hb]
          rw [node_ids_payload_getElem node (p - S - 1) (by omega)]
          congr 2
          omega
      · have hoff0 : p - S = 0 := by omega
        obtain ⟨m, hm⟩ : ∃ m, ni = m + 1 := ⟨ni - 1, by omega⟩
        obtain ⟨prev, hprev⟩ : ∃ prev, st.base.nodes[m]? = some prev :=
          ⟨_, List.getElem?_eq_getElem (by omega)⟩
        have hprevmem : prev ∈ st.base.nodes := by
          obtain ⟨hb, he⟩ := List.getElem?_eq_some.mp hprev
          rw [← he]
          exact List.getElem_mem hb
        obtain ⟨hbp, hvp, hdp⟩ := hWFn prev hprevmem
        have hplen := node_ids_ne_nil prev hvp hdp
        refine ⟨prev.last_id, ?_, ?_⟩
        · rw [heval, if_neg (by omega), if_neg (by omega), hm]
          rw [show m + 1 - 1 = m from by omega, hprev]
          rfl
        · have hb := bind_getElem_aux node_ids st.base.nodes m
            ((node_ids prev).length - 1) prev hprev (by omega)
          have hsum : ((List.take ni st.base.nodes).map
              fun a => (node_ids a).length).sum =
              ((List.take m st.base.nodes).map
                fun a => (node_ids a).length).sum +
                (node_ids prev).length := by
            rw [hm, List.take_succ, hprev]
            simp
          rw [show ((List.take m st.base.nodes).map
              fun a => (node_ids a).length).sum +
              ((node_ids prev).length - 1) = J - 1 from by
            rw [hJdef, hsum]; omega] at hb
          unfold table_ids
          rw [hb]
          exact node_ids_last_eq prev hvp hdp
    have hSucc : ∃ su, successor_id st
        (⟨node.id.id, node.id.index + (p - S)⟩ : IdWithIndex) ni = some su ∧
        (table_ids st.base.nodes)[J + 1]? = some su := by
      have heval := successor_id_eval st
        (⟨node.id.id, node.id.index + (p - S)⟩ : IdWithIndex) ni node (p - S)
        hni_get hdiff
      by_cases hlt : p - S + 1 < node.node_len
      · refine ⟨⟨node.id.id, node.id.index + (p - S) + 1⟩, ?_, ?_⟩
        · rw [heval, if_pos hlt]
          unfold IdWithIndex.increment IdWithIndex.checked_increment
          rw [if_pos (show (⟨node.id.id, node.id.index + (p - S)⟩ :
            IdWithIndex).index + 1 ≤ 65535 from by
              show node.id.index + (p - S) + 1 ≤ 65535
              omega)]
        · have hb := bind_getElem_aux node_ids st.base.nodes ni (p - S + 1)
            node hni_get (by omega)
          rw [show ((List.take ni st.base.nodes).map
              fun a => (node_ids a).length).sum + (p - S + 1) = J + 1 from by
            rw [hJdef]; omega] at hb
          unfold table_ids
          rw [hb]
          rw [node_ids_payload_getElem node (p - S + 1) (by omega)]
          congr 2
      · obtain ⟨nxt, hnxt⟩ : ∃ nxt, st.base.nodes[ni + 1]? = some nxt :=
          ⟨_, List.getElem?_eq_getElem (by omega)⟩
        have hnxtmem : nxt ∈ st.base.nodes := by
          obtain ⟨hb, he⟩ := List.getElem?_eq_some.mp hnxt
          rw [← he]
          exact List.getElem_mem hb
        obtain ⟨hbn, hvn, hdn⟩ := hWFn nxt hnxtmem
        refine ⟨nxt.id, ?_, ?_⟩
        · rw [heval, if_neg hlt, hnxt]
          rfl
        · have hb := bind_getElem_aux node_ids st.base.nodes (ni + 1) 0 nxt
            hnxt (by have := node_ids_ne_nil nxt hvn hdn; omega)
          have hsum : ((List.take (ni + 1) st.base.nodes).map
              fun a => (node_ids a).length).sum =
              ((List.take ni st.base.nodes).map
                fun a => (node_ids a).length).sum + node.node_len := by
            rw [List.take_succ, hni_get]
            simp [hnilen]
          rw [show ((List.take (ni + 1) st.base.nodes).map
              fun a => (node_ids a).length).sum + 0 = J + 1 from by
            rw [hsum, hJdef]; omega] at hb
          unfold table_ids
          rw [hb]
          exact node_ids_head_eq nxt hvn hdn
    obtain ⟨pr, hpred, hprtab⟩ := hPred
    obtain ⟨su, hsucc, hsutab⟩ := hSucc
    refine ⟨⟨pr, ⟨node.id.id, node.id.index + (p - S)⟩, su⟩, ?_, hvisible,
      J, hJ1, hprtab, hcurtab, hsutab⟩
    have hev := c_ids_at_pos_eval st p ni S node pr su
      (by rw [hlen]; exact hp)
      hloop (by omega) hni_get (by rw [hcur]; exact hpred)
      (by rw [hcur]; exact hsucc)
    rw [hev, hcur]
  · intro hp
    unfold insertsLenSum at hp
    unfold VecCoalescedLinearData.ids_at_pos
    rw [if_neg (by rw [hlen]; exact hp)]

/-- C10: on well-formed states, `ids_at_pos(p)` (a `&self` read, so the state
is untouched) returns Some exactly when `p` is below the count of visible
elements — in particular always None on an empty structure — and when it
returns Some, `current` is the id of the visible element at position `p`
while `predecessor` and `successor` are the immediately adjacent identifiers
in node-table order: for the plain variant the ids of the table-adjacent
nodes, for the coalesced variant the neighbours in the flattened per-element
id sequence, crossing node boundaries. -/
theorem C10_ids_at_pos :
    (∀ st p, WFv st →
      ((∃ ids, st.ids_at_pos p = some (some ids)) ↔
        p < (iter_values st.nodes).length)) ∧
    (∀ st p, WFv st → ¬p < (iter_values st.nodes).length →
      st.ids_at_pos p = some none) ∧
    (∀ st p ids, WFv st → st.ids_at_pos p = some (some ids) →
      ∃ i node pn sn1, (iter_inserts st.nodes)[p]? = some (i, node) ∧
        1 ≤ i ∧ i + 1 < st.nodes.length ∧
        st.nodes[i - 1]? = some pn ∧ st.nodes[i]? = some node ∧
        st.nodes[i + 1]? = some sn1 ∧ ids = ⟨pn.id, node.id, sn1.id⟩) ∧
    (∀ st p, WFc st →
      ((∃ ids, VecCoalescedLinearData.ids_at_pos st p = some (some ids)) ↔
        p < insertsLenSum st.base.nodes)) ∧
    (∀ st p, WFc st → ¬p < insertsLenSum st.base.nodes →
      VecCoalescedLinearData.ids_at_pos st p = some none) ∧
    (∀ st p ids, WFc st →
      VecCoalescedLinearData.ids_at_pos st p = some (some ids) →
      (visible_ids st.base.nodes)[p]? = some ids.current ∧
      ∃ j, 1 ≤ j ∧
        (table_ids st.base.nodes)[j - 1]? = some ids.predecessor ∧
        (table_ids st.base.nodes)[j]? = some ids.current ∧
        (table_ids st.base.nodes)[j + 1]? = some ids.successor) := by
  refine ⟨?_, ?_, ?_, ?_, ?_, ?_⟩
  · intro st p hWF
    constructor
    · rintro ⟨ids, hids⟩
      by_contra hnp
      rw [(vec_ids_at_pos_spec st hWF p).2 hnp] at hids
      simp at hids
    · intro hp
      obtain ⟨i, node, pn, sn1, _, _, _, _, _, _, hids⟩ :=
        (vec_ids_at_pos_spec st hWF p).1 hp
      exact ⟨_, hids⟩
  · intro st p hWF hnp
    exact (vec_ids_at_pos_spec st hWF p).2 hnp
  · intro st p ids hWF hids
    by_cases hp : p < (iter_values st.nodes).length
    · obtain ⟨i, node, pn, sn1, hq, h1, h2, hpn, hcn, hsn, hids2⟩ :=
        (vec_ids_at_pos_spec st hWF p).1 hp
      rw [hids2] at hids
      have : ids = (⟨pn.id, node.id, sn1.id⟩ : NodeIds) := by
        injection hids with h3
        injection h3 with h4
        exact h4.symm
      exact ⟨i, node, pn, sn1, hq, h1, h2, hpn, hcn, hsn, this⟩
    · rw [(vec_ids_at_pos_spec st hWF p).2 hp] at hids
      simp at hids
  · intro st p hWF
    constructor
    · rintro ⟨ids, hids⟩
      by_contra hnp
      rw [(c_ids_at_pos_spec st hWF p).2 hnp] at hids
      simp at hids
    · intro hp
      obtain ⟨ids, hids, _⟩ := (c_ids_at_pos_spec st hWF p).1 hp
      exact ⟨ids, hids⟩
  · intro st p hWF hnp
    exact (c_ids_at_pos_spec st hWF p).2 hnp
  · intro st p ids hWF hids
    by_cases hp : p < insertsLenSum st.base.nodes
    · obtain ⟨ids2, hids2, hvis, j, hj, hpr, hcu, hsu⟩ :=
        (c_ids_at_pos_spec st hWF p).1 hp
      rw [hids2] at hids
      have heq : ids = ids2 := by
        injection hids with h3
        injection h3 with h4
        exact h4.symm
      rw [heq]
      exact ⟨hvis, j, hj, hpr, hcu, hsu⟩
    · rw [(c_ids_at_pos_spec st hWF p).2 hp] at hids
      simp at hids

/-- C10 witness: the characterisation applied to concrete well-formed
states of both variants. -/
theorem C10_ids_at_pos_witness :
    ((∃ ids, (VecLinearData.with_value 0 1 2 7).ids_at_pos 0 =
        some (some ids)) ↔
      0 < (iter_values (VecLinearData.with_value 0 1 2 7).nodes).length) ∧
    ((∃ ids, VecCoalescedLinearData.ids_at_pos
        ⟨2, 1, [⟨⟨7, 0⟩, none, .Beginning⟩,
          ⟨⟨8, 0⟩, some ⟨7, 0⟩, .Insert [5, 6]⟩,
          ⟨⟨7, 1⟩, some ⟨8, 1⟩, .End⟩]⟩ 1 = some (some ids)) ↔
      1 < insertsLenSum
        (⟨2, 1, [⟨⟨7, 0⟩, none, .Beginning⟩,
          ⟨⟨8, 0⟩, some ⟨7, 0⟩, .Insert [5, 6]⟩,
          ⟨⟨7, 1⟩, some ⟨8, 1⟩, .End⟩]⟩ :
            VecCoalescedLinearData).base.nodes) := by
  have h := C10_ids_at_pos
  exact ⟨h.1 (VecLinearData.with_value 0 1 2 7) 0 (by decide),
    h.2.2.2.1 ⟨2, 1, [⟨⟨7, 0⟩, none, .Beginning⟩,
      ⟨⟨8, 0⟩, some ⟨7, 0⟩, .Insert [5, 6]⟩,
      ⟨⟨7, 1⟩, some ⟨8, 1⟩, .End⟩]⟩ 1 (by decide)⟩

theorem icl_step_full (nids : IdWithIndex × IdWithIndex) (f g v : Nat)
    (vs gs : List Nat) (W R : List Nat)
    (htake : (v :: vs).take 65535 = W)
    (hdrop : (v :: vs).drop 65535 = R) (hW : W.length = 65535) :
    insert_change_loop nids (f + 1) (g :: gs) none none (v :: vs) =
      match insert_change_loop nids f gs none (some ⟨g, 65535⟩) R with
      | none => none
      | some (ops, gen2, active2) =>
          some (.Insert ⟨g, 0⟩ nids.1 nids.2 W :: ops, gen2, active2) := by
  simp [insert_change_loop, IdWithIndex.addressable_len, IdWithIndex.MAX_LENGTH,
    htake, hdrop, hW]

theorem c3_apply0 (V : List Nat) (hV : V.length = 65535) :
    VecCoalescedLinearData.apply_operation
      ⟨1, ⟨1, [⟨⟨1, 0⟩, none, .Beginning⟩,
               ⟨⟨1, 1⟩, some ⟨1, 0⟩, .Insert [97]⟩,
               ⟨⟨1, 2⟩, some ⟨1, 1⟩, .End⟩]⟩⟩
      (.Insert ⟨2, 0⟩ ⟨1, 1⟩ ⟨1, 2⟩ V) =
    .ok ⟨65536, ⟨2, [⟨⟨1, 0⟩, none, .Beginning⟩,
                     ⟨⟨1, 1⟩, some ⟨1, 0⟩, .Insert [97]⟩,
                     ⟨⟨2, 0⟩, some ⟨1, 1⟩, .Insert V⟩,
                     ⟨⟨1, 2⟩, some ⟨1, 1⟩, .End⟩]⟩⟩ := by
  have hred : VecCoalescedLinearData.apply_operation
      ⟨1, ⟨1, [⟨⟨1, 0⟩, none, .Beginning⟩,
               ⟨⟨1, 1⟩, some ⟨1, 0⟩, .Insert [97]⟩,
               ⟨⟨1, 2⟩, some ⟨1, 1⟩, .End⟩]⟩⟩
      (.Insert ⟨2, 0⟩ ⟨1, 1⟩ ⟨1, 2⟩ V) =
    .ok ⟨1 + V.length, ⟨2, [⟨⟨1, 0⟩, none, .Beginning⟩,
                     ⟨⟨1, 1⟩, some ⟨1, 0⟩, .Insert [97]⟩,
                     ⟨⟨2, 0⟩, some ⟨1, 1⟩, .Insert V⟩,
                     ⟨⟨1, 2⟩, some ⟨1, 1⟩, .End⟩]⟩⟩ := rfl
  rw [hred, hV]

theorem c3_apply1 (V : List Nat) (hV : V.length = 65535) :
    VecCoalescedLinearData.apply_operation
      ⟨65536, ⟨2, [⟨⟨1, 0⟩, none, .Beginning⟩,
                   ⟨⟨1, 1⟩, some ⟨1, 0⟩, .Insert [97]⟩,
                   ⟨⟨2, 0⟩, some ⟨1, 1⟩, .Insert V⟩,
                   ⟨⟨1, 2⟩, some ⟨1, 1⟩, .End⟩]⟩⟩
      (.Insert ⟨3, 0⟩ ⟨2, 65535⟩ ⟨1, 2⟩ [98]) =
    .err ⟨65536, ⟨2, [⟨⟨1, 0⟩, none, .Beginning⟩,
                      ⟨⟨1, 1⟩, some ⟨1, 0⟩, .Insert [97]⟩,
                      ⟨⟨2, 0⟩, some ⟨1, 1⟩, .Insert V⟩,
                      ⟨⟨1, 2⟩, some ⟨1, 1⟩, .End⟩]⟩⟩
      (.Insert ⟨3, 0⟩ ⟨2, 65535⟩ ⟨1, 2⟩ [98]) := by
  have hfind : (List.enum [(⟨⟨1, 0⟩, none, .Beginning⟩ : CNode),
      ⟨⟨1, 1⟩, some ⟨1, 0⟩, .Insert [97]⟩,
      ⟨⟨2, 0⟩, some ⟨1, 1⟩, .Insert V⟩,
      ⟨⟨1, 2⟩, some ⟨1, 1⟩, .End⟩]).find?
        (fun p => p.2.contains ⟨2, 65535⟩) = none := by
    simp [List.enum, List.enumFrom, List.find?, CNode.contains,
      CNode.last_index, CNode.node_len, hV]
  simp only [VecCoalescedLinearData.apply_operation]
  rw [hfind]

theorem apply_all_cons2 (st s1 s2 : VecCoalescedLinearData)
    (a b o : CDataOperation)
    (h1 : st.apply_operation a = CApplyResult.ok s1)
    (h2 : s1.apply_operation b = CApplyResult.err s2 o) :
    apply_all st [a, b] = CApplyResult.err s2 o := by
  simp only [apply_all, h1, h2]

theorem c3_h2 : insert_change_loop (⟨1, 1⟩, ⟨1, 2⟩) 65536 [3] none
    (some ⟨2, 65535⟩) [98] =
    some ([.Insert ⟨3, 0⟩ ⟨2, 65535⟩ ⟨1, 2⟩ [98]], [], some ⟨3, 1⟩) := by
  decide

theorem c3_hpos : VecCoalescedLinearData.ids_at_pos
    ⟨1, ⟨1, [⟨⟨1, 0⟩, none, .Beginning⟩,
             ⟨⟨1, 1⟩, some ⟨1, 0⟩, .Insert [97]⟩,
             ⟨⟨1, 2⟩, some ⟨1, 1⟩, .End⟩]⟩⟩ 1 = some none := by
  decide

theorem c3_hbe : c_ids_before_end
    ⟨1, ⟨1, [⟨⟨1, 0⟩, none, .Beginning⟩,
             ⟨⟨1, 1⟩, some ⟨1, 0⟩, .Insert [97]⟩,
             ⟨⟨1, 2⟩, some ⟨1, 1⟩, .End⟩]⟩⟩ =
    some (⟨1, 1⟩, ⟨1, 2⟩) := by
  decide

theorem c3_diff_eval (w : Nat) (ws W : List Nat)
    (htake : (w :: ws).take 65535 = W)
    (hdrop : (w :: ws).drop 65535 = [98])
    (hW : W.length = 65535)
    (hlen : (w :: ws).length = 65536) :
    linear_diff
      ⟨1, ⟨1, [⟨⟨1, 0⟩, none, .Beginning⟩,
               ⟨⟨1, 1⟩, some ⟨1, 0⟩, .Insert [97]⟩,
               ⟨⟨1, 2⟩, some ⟨1, 1⟩, .End⟩]⟩⟩
      [.Insert 1 (w :: ws)] [2, 3] =
      some [.Insert ⟨2, 0⟩ ⟨1, 1⟩ ⟨1, 2⟩ W,
            .Insert ⟨3, 0⟩ ⟨2, 65535⟩ ⟨1, 2⟩ [98]] := by
  simp only [linear_diff, linear_diff_changes]
  rw [if_neg (by decide), c3_hpos]
  simp only [if_true, c3_hbe]
  rw [hlen]
  rw [icl_step_full (⟨1, 1⟩, ⟨1, 2⟩) 65536 2 w ws [3] W [98] htake hdrop hW]
  rw [c3_h2]
  simp

/-- C3: the text-diff round-trip property fails. For the base Text holding
the single grapheme `97` and the target `97` followed by 65536 copies of
`98`, the text diff is a single Insert change of the 65536 new graphemes at
position 1. `linear_diff` splits it into two chunk operations and, because
the first chunk exactly fills `addressable_len`, threads
`previous_op_end_id = op_id.with_max_index()` (sub-index 65535) into the
second operation's predecessor — but the first chunk's node ends at
sub-index 65534, so the second operation names a predecessor id contained in
no node: applying the translated operations in order fails on the second one
and the resulting content is one grapheme short of the target. -/
theorem C3_diff_roundtrip :
    ∃ (base : VecCoalescedLinearData) (target : List Nat)
      (op0 op1 : CDataOperation) (st1 : VecCoalescedLinearData),
      base = ⟨1, ⟨1, [⟨⟨1, 0⟩, none, .Beginning⟩,
                      ⟨⟨1, 1⟩, some ⟨1, 0⟩, .Insert [97]⟩,
                      ⟨⟨1, 2⟩, some ⟨1, 1⟩, .End⟩]⟩⟩ ∧
      c_all_values base.base.nodes = [97] ∧
      target = 97 :: List.replicate 65536 98 ∧
      linear_diff base [.Insert 1 (List.replicate 65536 98)] [2, 3] =
        some [op0, op1] ∧
      op0 = .Insert ⟨2, 0⟩ ⟨1, 1⟩ ⟨1, 2⟩ (List.replicate 65535 98) ∧
      op1 = .Insert ⟨3, 0⟩ ⟨2, 65535⟩ ⟨1, 2⟩ [98] ∧
      base.apply_operation op0 = .ok st1 ∧
      st1.apply_operation op1 = .err st1 op1 ∧
      apply_all base [op0, op1] = .err st1 op1 ∧
      st1.len = 65536 ∧
      c_all_values st1.base.nodes = 97 :: List.replicate 65535 98 ∧
      c_all_values st1.base.nodes ≠ target := by
  have hVlen : (List.replicate 65535 (98 : Nat)).length = 65535 :=
    List.length_replicate 65535 98
  have hval : List.replicate 65536 (98 : Nat) =
      98 :: List.replicate 65535 98 := by
    rw [show (65536 : Nat) = 65535 + 1 from rfl, List.replicate_succ]
  have htake : (98 :: List.replicate 65535 (98 : Nat)).take 65535 =
      List.replicate 65535 98 := by
    rw [← hval, List.take_replicate]
    congr 1
  have hdrop : (98 :: List.replicate 65535 (98 : Nat)).drop 65535 = [98] := by
    rw [← hval, List.drop_replicate]
    rw [show (65536 - 65535 : Nat) = 1 from rfl]
    rfl
  have hlen : ((98 : Nat) :: List.replicate 65535 98).length = 65536 := by
    rw [← hval, List.length_replicate]
  have hdiff : linear_diff
      ⟨1, ⟨1, [⟨⟨1, 0⟩, none, .Beginning⟩,
               ⟨⟨1, 1⟩, some ⟨1, 0⟩, .Insert [97]⟩,
               ⟨⟨1, 2⟩, some ⟨1, 1⟩, .End⟩]⟩⟩
      [.Insert 1 (List.replicate 65536 98)] [2, 3] =
      some [.Insert ⟨2, 0⟩ ⟨1, 1⟩ ⟨1, 2⟩ (List.replicate 65535 98),
            .Insert ⟨3, 0⟩ ⟨2, 65535⟩ ⟨1, 2⟩ [98]] := by
    rw [hval]
    exact c3_diff_eval 98 (List.replicate 65535 98) (List.replicate 65535 98)
      htake hdrop hVlen hlen
  have hap0 := c3_apply0 (List.replicate 65535 98) hVlen
  have hap1 := c3_apply1 (List.replicate 65535 98) hVlen
  have hvals : c_all_values [(⟨⟨1, 0⟩, none, .Beginning⟩ : CNode),
      ⟨⟨1, 1⟩, some ⟨1, 0⟩, .Insert [97]⟩,
      ⟨⟨2, 0⟩, some ⟨1, 1⟩, .Insert (List.replicate 65535 98)⟩,
      ⟨⟨1, 2⟩, some ⟨1, 1⟩, .End⟩] = 97 :: List.replicate 65535 98 := by
    simp only [c_all_values, List.flatMap_cons, List.flatMap_nil,
      List.append_nil, List.nil_append, List.singleton_append]
  refine ⟨_, _, _, _, _, rfl, by decide, rfl, hdiff, rfl, rfl, hap0, hap1,
    apply_all_cons2 _ _ _ _ _ _ hap0 hap1, rfl, hvals, ?_⟩
  intro h
  rw [hvals] at h
  rw [List.cons.injEq] at h
  have h2 := congrArg List.length h.2
  rw [List.length_replicate, List.length_replicate] at h2
  omega

end Flotsync